import Mathlib

/-!
# windows/test-app.js — template instantiation

A shallow embedding of `windows/test-app.js` (the script that instantiates the
ReactTestApp Windows project template) together with the properties of its
functions `findClosestPathTo`, `walk`, `resolveContents`, `copyAndReplace`,
`copyAndReplaceAll` and `copyProjectTemplateAndReplace`.

The script uses Node's `path` and `fs` modules and the built-ins `RegExp`,
`String.prototype.replace` and `Object.keys`.  They are modelled first:

* a path string is its root (if any) and the list of its separator-delimited
  segments, so `""` is `⟨none, []⟩`, `"."` is `⟨none, ["."]⟩` and `"../a"` is
  `⟨none, ["..", "a"]⟩`; trailing separators are not represented;
* the file system is one volume, a forest of named files and directories;
* asynchronous calls (`fs.copyFile`, `fs.writeFile`, `fs.readFile`) are recorded
  as issued operations and applied separately;
* `copyProjectTemplateAndReplace` records the calls of `copyAndReplace` it makes, each
  with the file system it is made on, so that what exists when an operation is issued
  can be stated.
-/

namespace TestApp

/-! ## Paths (`require("path")`) -/

/-- The root of an absolute path: `/` on POSIX, `C:\` or `\\server\share\` on Windows. -/
inductive Root where
  | posix
  | drive (letter : Char)
  | unc (server share : String)
  deriving DecidableEq, Repr

/-- A path string: `root` is `none` for a relative path; `segs` are the raw segments. -/
structure Path where
  root : Option Root
  segs : List String
  deriving DecidableEq, Repr

/-- The empty string `""`. -/
def Path.empty : Path := ⟨none, []⟩

/-- A relative path given by its segments. -/
def Path.rel (segs : List String) : Path := ⟨none, segs⟩

/-- A segment that names a directory entry: not empty, not `.` and not `..`. -/
def validName (s : String) : Bool := s != "" && s != "." && s != ".."

/-- One step of `normalizeString`: `acc` is the reversed output so far. Empty and `.`
segments are skipped; `..` removes the previous segment, is dropped at the root of an
absolute path, and is kept at the front of a relative one. -/
def normStep (isAbs : Bool) (acc : List String) (s : String) : List String :=
  if s = "" ∨ s = "." then acc
  else if s = ".." then
    match acc with
    | [] => if isAbs then [] else [".."]
    | t :: rest => if t = ".." then ".." :: t :: rest else rest
  else s :: acc

/-- The segments of the normalised path. -/
def normalizeSegs (isAbs : Bool) (segs : List String) : List String :=
  (segs.foldl (normStep isAbs) []).reverse

/-- `path.normalize`: a relative path that normalises to nothing is `"."`. -/
def normalize (p : Path) : Path :=
  let segs := normalizeSegs p.root.isSome p.segs
  if p.root.isNone ∧ segs = [] then ⟨none, ["."]⟩ else ⟨p.root, segs⟩

/-- `path.join(...args)`: the non-empty arguments are concatenated with the separator and
the result is normalised, so the first non-empty argument decides whether the result is
rooted and a later argument contributes its segments only. -/
def joinAll (args : List Path) : Path :=
  let args := args.filter (fun a => a != Path.empty)
  normalize ⟨(args.head?.bind Path.root), (args.map Path.segs).flatten⟩

/-- `path.join(a, b)`. -/
def join (a b : Path) : Path := joinAll [a, b]

/-- `path.resolve(p)` with working directory `cwd` (an absolute, normalised path). -/
def resolve (cwd p : Path) : Path :=
  match p.root with
  | some r => ⟨some r, normalizeSegs true p.segs⟩
  | none => ⟨cwd.root, normalizeSegs true (cwd.segs ++ p.segs)⟩

/-- Remove the longest common prefix of two segment lists. -/
def stripCommon : List String → List String → List String × List String
  | a :: as, b :: bs => if a = b then stripCommon as bs else (a :: as, b :: bs)
  | as, bs => (as, bs)

/-- `path.relative(from, to)`, here `src` and `dst`: both are resolved against `cwd`; the
result climbs out of what is left of `src` after the common prefix and descends into what
is left of `dst`. When the roots differ (Windows) the resolved `dst` is returned.
Segments are compared exactly, as `path.posix` does; `path.win32` compares them case-insensitively, which
agrees with this whenever the shared ancestors are spelled alike. -/
def relative (cwd src dst : Path) : Path :=
  let f := resolve cwd src
  let t := resolve cwd dst
  if f.root = t.root then
    let (fr, tr) := stripCommon f.segs t.segs
    ⟨none, List.replicate fr.length ".." ++ tr⟩
  else t

/-- `path.dirname`: the path without its last segment; `"."` when nothing is left of a
relative path. -/
def dirname (p : Path) : Path :=
  let segs := (p.segs.filter (fun s => s != "")).dropLast
  if p.root.isNone ∧ segs = [] then ⟨none, ["."]⟩ else ⟨p.root, segs⟩

/-- `path.basename`: the last segment, `""` if there is none. -/
def basename (p : Path) : String :=
  ((p.segs.filter (fun s => s != "")).getLast?).getD ""

/-- The index of the last `.` of a character list, if any. -/
def lastDot (cs : List Char) : Option Nat :=
  let n := (cs.reverse.takeWhile (fun c => c != '.')).length
  if n = cs.length then none else some (cs.length - 1 - n)

/-- `path.extname`: from the last `.` of the base name to its end; empty when there is no
`.`, when the last `.` is the first character, or when the base name is `..`. -/
def extname (p : Path) : String :=
  let b := basename p
  match lastDot b.toList with
  | none => ""
  | some i => if i = 0 ∨ b = ".." then "" else String.mk (b.toList.drop i)

/-- The number of parent-traversal (`..`) segments of a path. -/
def Path.ups (p : Path) : Nat := p.segs.count ".."

/-- An absolute, normalised path: rooted, every segment a name. -/
def Path.isAbsNormal (p : Path) : Bool := p.root.isSome && p.segs.all validName

/-! ## The file system (`require("fs")`) -/

/-- The errors a call can throw. Two of them are not errors of the script:
`unsupportedPattern` marks a regular expression outside the fragment embedded here and
`recursionBound` a recursion cut off by its bound. -/
inductive Err where
  | ENOENT
  | ENOTDIR
  | EEXIST
  | EISDIR
  | typeError
  | syntaxError
  | unsupportedPattern
  | recursionBound
  | error (message : String)
  deriving DecidableEq, Repr

deriving instance DecidableEq for Except

/-- The entries of a directory in listing order: files with content and permission bits,
directories with their own entries. -/
inductive Forest where
  | nil
  | file (name : String) (content : String) (mode : Nat) (rest : Forest)
  | dir (name : String) (children : Forest) (rest : Forest)
  deriving DecidableEq, Repr

/-- What `lstat` finds at a path. -/
inductive Stat where
  | file (content : String) (mode : Nat)
  | dir (children : Forest)
  deriving DecidableEq, Repr

/-- The entry called `n` in a directory listing. -/
def Forest.find (n : String) : Forest → Option Stat
  | .nil => none
  | .file m c md rest => if m = n then some (.file c md) else rest.find n
  | .dir m ch rest => if m = n then some (.dir ch) else rest.find n

/-- The entry at the end of a chain of names below a directory. -/
def Forest.lookup : Forest → List String → Option Stat
  | f, [] => some (.dir f)
  | f, s :: rest =>
    match f.find s with
    | some (.dir ch) => ch.lookup rest
    | some (.file c m) => if rest = [] then some (.file c m) else none
    | none => none

/-- The names in a directory listing (`fs.readdirSync`). -/
def Forest.names : Forest → List String
  | .nil => []
  | .file m _ _ rest => m :: rest.names
  | .dir m _ rest => m :: rest.names

/-- A listing with one more entry at its end. -/
def Forest.snoc : Forest → Forest → Forest
  | .nil, e => e
  | .file m c md rest, e => .file m c md (rest.snoc e)
  | .dir m ch rest, e => .dir m ch (rest.snoc e)

/-- Rewrite the contents of the sub-directory `n` of a listing. -/
def Forest.modifyDir (n : String) (g : Forest → Except Err Forest) : Forest → Except Err Forest
  | .nil => .error .ENOENT
  | .file m c md rest =>
    if m = n then .error .ENOTDIR else (rest.modifyDir n g).map (Forest.file m c md)
  | .dir m ch rest =>
    if m = n then (g ch).map (fun ch' => Forest.dir m ch' rest)
    else (rest.modifyDir n g).map (Forest.dir m ch)

/-- Create one directory: its parent must be a directory and it must not exist. -/
def Forest.mkdirAt : List String → Forest → Except Err Forest
  | [], _ => .error .EEXIST
  | n :: [], f => if (f.find n).isSome then .error .EEXIST else .ok (f.snoc (.dir n .nil .nil))
  | n :: m :: rest, f => f.modifyDir n (Forest.mkdirAt (m :: rest))

/-- Create a directory and its missing ancestors; existing directories are kept. -/
def Forest.mkdirP : List String → Forest → Except Err Forest
  | [], f => .ok f
  | n :: rest, f =>
    match f.find n with
    | none => (Forest.mkdirP rest .nil).map (fun ch => f.snoc (.dir n ch .nil))
    | some (.dir _) => f.modifyDir n (Forest.mkdirP rest)
    | some (.file _ _) => .error (if rest = [] then .EEXIST else .ENOTDIR)

/-- Replace or add the file `n` of a listing. A new file gets the mode `md`; an existing
file gets it when `setMode` is set and keeps its own mode otherwise. -/
def Forest.putFile (n : String) (c : String) (md : Nat) (setMode : Bool) :
    Forest → Except Err Forest
  | .nil => .ok (.file n c md .nil)
  | .file m c' md' rest =>
    if m = n then .ok (.file m c (if setMode then md else md') rest)
    else (rest.putFile n c md setMode).map (Forest.file m c' md')
  | .dir m ch rest =>
    if m = n then .error .EISDIR else (rest.putFile n c md setMode).map (Forest.dir m ch)

/-- Write a file at a chain of names: the parent must be a directory. -/
def Forest.writeAt (c : String) (md : Nat) (setMode : Bool) :
    List String → Forest → Except Err Forest
  | [], _ => .error .EISDIR
  | n :: [], f => f.putFile n c md setMode
  | n :: m :: rest, f => f.modifyDir n (Forest.writeAt c md setMode (m :: rest))

/-- What is at the path `p`: nothing at the empty string or on another volume. -/
def statAt (cwd : Path) (fs : Forest) (p : Path) : Option Stat :=
  if p = Path.empty then none
  else
    let a := resolve cwd p
    if a.root = cwd.root then fs.lookup a.segs else none

/-- `fs.existsSync`. -/
def existsSync (cwd : Path) (fs : Forest) (p : Path) : Bool := (statAt cwd fs p).isSome

/-- Whether `p` is an existing directory. -/
def isDir (cwd : Path) (fs : Forest) (p : Path) : Bool :=
  match statAt cwd fs p with
  | some (.dir _) => true
  | _ => false

/-- `fs.lstatSync(p).isDirectory()`. -/
def lstatIsDirectory (cwd : Path) (fs : Forest) (p : Path) : Except Err Bool :=
  match statAt cwd fs p with
  | none => .error .ENOENT
  | some (.dir _) => .ok true
  | some (.file _ _) => .ok false

/-- `fs.statSync(p).mode`; the script reads the mode of files only, and directories carry
none here. -/
def statMode (cwd : Path) (fs : Forest) (p : Path) : Except Err Nat :=
  match statAt cwd fs p with
  | none => .error .ENOENT
  | some (.dir _) => .ok 0
  | some (.file _ md) => .ok md

/-- `fs.readFileSync(p, "utf8")`. -/
def readFileSync (cwd : Path) (fs : Forest) (p : Path) : Except Err String :=
  match statAt cwd fs p with
  | none => .error .ENOENT
  | some (.dir _) => .error .EISDIR
  | some (.file c _) => .ok c

/-- `fs.readdirSync`. -/
def readdirSync (cwd : Path) (fs : Forest) (p : Path) : Except Err (List String) :=
  match statAt cwd fs p with
  | none => .error .ENOENT
  | some (.dir ch) => .ok ch.names
  | some (.file _ _) => .error .ENOTDIR

/-- `fs.mkdirSync(p)`. -/
def mkdirSync (cwd : Path) (fs : Forest) (p : Path) : Except Err Forest :=
  if p = Path.empty then .error .ENOENT
  else
    let a := resolve cwd p
    if a.root = cwd.root then fs.mkdirAt a.segs else .error .ENOENT

/-- `fs.mkdirSync(p, { recursive: true })`. -/
def mkdirSyncRecursive (cwd : Path) (fs : Forest) (p : Path) : Except Err Forest :=
  if p = Path.empty then .error .ENOENT
  else
    let a := resolve cwd p
    if a.root = cwd.root then fs.mkdirP a.segs else .error .ENOENT

/-- An asynchronous call or a console message, in the order issued. -/
inductive Op where
  | copyFile (src dst : Path)
  | writeFile (dst : Path) (content : String) (mode : Nat)
  | warn (resource : String)
  deriving DecidableEq, Repr

/-- The effect of an issued operation once it completes. `fs.copyFile` gives the
destination the content and the mode of the source, also when the destination exists;
`fs.writeFile` uses its `mode` option for a file it creates and leaves the mode of an
existing file as it is. -/
def applyOp (cwd : Path) (fs : Forest) : Op → Except Err Forest
  | .copyFile src dst =>
    match statAt cwd fs src with
    | some (.file c md) =>
      if dst = Path.empty ∨ (resolve cwd dst).root ≠ cwd.root then .error .ENOENT
      else fs.writeAt c md true (resolve cwd dst).segs
    | some (.dir _) => .error .EISDIR
    | none => .error .ENOENT
  | .writeFile dst c md =>
    if dst = Path.empty ∨ (resolve cwd dst).root ≠ cwd.root then .error .ENOENT
    else fs.writeAt c md false (resolve cwd dst).segs
  | .warn _ => .ok fs

/-! ## `findClosestPathTo` -/

/-- The string `basePath.split(path.sep)[0] + path.sep` as a path: the first component of
`/a/b` is empty and of `C:\a\b` is `C:`, which gives the roots `/` and `C:\`; the first
component of `\\server\share\a` is empty too, which gives `\`, the string of no resolved
path. -/
def rootDirectory (basePath : Path) : Option Path :=
  match basePath.root with
  | some .posix => some ⟨some .posix, []⟩
  | some (.drive c) => some ⟨some (.drive c), []⟩
  | some (.unc _ _) => none
  | none => none

/-- The loop of `findClosestPathTo`; `none` when it is still running after `fuel`
iterations, `some none` for `null`. -/
def findLoop (cwd : Path) (fs : Forest) (fileOrDirName : Path) (rootDir : Option Path) :
    Nat → Path → Option (Option Path)
  | 0, _ => none
  | fuel + 1, basePath =>
    if some basePath = rootDir then some none
    else
      let candidatePath := join basePath fileOrDirName
      if existsSync cwd fs candidatePath then some (some (relative cwd Path.empty candidatePath))
      else findLoop cwd fs fileOrDirName rootDir fuel (dirname basePath)

/-- `findClosestPathTo(fileOrDirName)` run for at most `fuel` iterations. -/
def findClosestPathTo (cwd : Path) (fs : Forest) (fuel : Nat) (fileOrDirName : Path) :
    Option (Option Path) :=
  let basePath := resolve cwd Path.empty
  findLoop cwd fs fileOrDirName (rootDirectory basePath) fuel basePath

/-! ## `walk` -/

/-- `walk(current)` with recursion depth at most `fuel`. -/
def walk (cwd : Path) (fs : Forest) : Nat → Path → Except Err (List Path)
  | 0, _ => .error .recursionBound
  | fuel + 1, current => do
    if !(← lstatIsDirectory cwd fs current) then
      return [current]
    let files ← (← readdirSync cwd fs current).mapM
      (fun child => walk cwd fs fuel (join current (Path.rel [child])))
    return current :: files.flatten

/-! ## `resolveContents` -/

/-- A JavaScript object used as a map from pattern to replacement: its own properties in
creation order. -/
abbrev Replacements := List (String × String)

/-- The number a property key denotes when it is an array index: a canonical decimal
numeral below `2^32 - 1`. -/
def arrayIndex (k : String) : Option Nat :=
  let cs := k.toList
  if cs ≠ [] ∧ cs.all Char.isDigit ∧ (cs.head? ≠ some '0' ∨ cs.length = 1) then
    let n := cs.foldl (fun a c => 10 * a + (c.toNat - 48)) 0
    if n < 2 ^ 32 - 1 then some n else none
  else none

/-- `Object.keys`: array-index keys in ascending numeric order, then the other keys in
creation order. -/
def objectKeys (o : Replacements) : List String :=
  let keys := o.map Prod.fst
  (keys.filter (fun k => (arrayIndex k).isSome)).insertionSort
      (fun a b => (arrayIndex a).getD 0 ≤ (arrayIndex b).getD 0)
    ++ keys.filter (fun k => (arrayIndex k).isNone)

/-- The property read `replacements[regex]`. -/
def getProp (o : Replacements) (k : String) : String := (o.lookup k).getD "undefined"

/-- The syntax characters of a regular expression, and `/`. -/
def syntaxChars : List Char :=
  ['^', '$', '\\', '.', '*', '+', '?', '(', ')', '[', ']', '{', '}', '|', '/']

/-- The text a pattern matches when the pattern consists of plain characters and
backslash-escaped syntax characters only; `none` for any other pattern. -/
def literalOf : List Char → Option (List Char)
  | [] => some []
  | '\\' :: c :: rest => if c ∈ syntaxChars then (literalOf rest).map (c :: ·) else none
  | c :: rest => if c ∈ syntaxChars then none else (literalOf rest).map (c :: ·)

/-- The replacement text for one match (`GetSubstitution` without capture groups): `$$` is
`$`, `$&` the match, `$` with a grave accent the text before the match, `$` with an
apostrophe the text after it; any other character stands for itself. -/
def expand (matched before after : List Char) : List Char → List Char
  | '$' :: c :: r =>
    if c = '$' then '$' :: expand matched before after r
    else if c = '&' then matched ++ expand matched before after r
    else if c = Char.ofNat 96 then before ++ expand matched before after r
    else if c = Char.ofNat 39 then after ++ expand matched before after r
    else '$' :: c :: expand matched before after r
  | c :: r => c :: expand matched before after r
  | [] => []

/-- The scan of a global replace of the literal `pat`: `skip` counts the characters of
the last match still to pass, `before` is the input already passed. -/
def replaceGo (pat repl : List Char) : Nat → List Char → List Char → List Char
  | _, _, [] => []
  | skip + 1, before, c :: cs => replaceGo pat repl skip (before ++ [c]) cs
  | 0, before, c :: cs =>
    if pat.isPrefixOf (c :: cs) then
      expand pat before ((c :: cs).drop pat.length) repl
        ++ replaceGo pat repl (pat.length - 1) (before ++ [c]) cs
    else c :: replaceGo pat repl 0 (before ++ [c]) cs

/-- The call `content.replace(new RegExp(regex, "g"), replacement)` for a pattern of the
literal fragment that matches a non-empty text: the matches are found from left to right,
each search starting where the previous match ended. The patterns of the script, such as
`\$\(ManifestRootPath\)`, are of this fragment. Any other pattern, valid or not, gives
`unsupportedPattern`, which is no result of the script: nothing is stated here about such
patterns. -/
def replaceRegExp (regex replacement content : String) : Except Err String :=
  match literalOf regex.toList with
  | some (p :: ps) => .ok (String.mk (replaceGo (p :: ps) replacement.toList 0 [] content.toList))
  | _ => .error .unsupportedPattern

/-- `resolveContents(srcPath, replacements)`. -/
def resolveContents (cwd : Path) (fs : Forest) (srcPath : Path) (replacements : Replacements) :
    Except Err String := do
  let content ← readFileSync cwd fs srcPath
  (objectKeys replacements).foldlM
    (fun content regex => replaceRegExp regex (getProp replacements regex) content) content

/-! ## `copyAndReplace` and `copyAndReplaceAll` -/

/-- The constant `binaryExtensions`. -/
def binaryExtensions : List String := [".png", ".pfx"]

/-- `copyAndReplace(srcPath, destPath, relativeDestPath, replacements)`: the file system
after the synchronous part and the asynchronous operations issued. -/
def copyAndReplace (cwd : Path) (fs : Forest) (srcPath destPath relativeDestPath : Path)
    (replacements : Replacements) : Except Err (Forest × List Op) := do
  let fullDestPath := join destPath relativeDestPath
  if (← lstatIsDirectory cwd fs srcPath) then
    if !existsSync cwd fs fullDestPath then
      let fs' ← mkdirSync cwd fs fullDestPath
      return (fs', [])
    return (fs, [])
  let extension := extname srcPath
  if extension ∈ binaryExtensions then
    return (fs, [Op.copyFile srcPath fullDestPath])
  else
    let srcPermissions ← statMode cwd fs srcPath
    let content ← resolveContents cwd fs srcPath replacements
    return (fs, [Op.writeFile fullDestPath content srcPermissions])

/-- The state of a run: the file system, the operations issued so far, and the exception
that ended it, if any. -/
structure Run where
  fs : Forest
  ops : List Op
  thrown : Option Err
  deriving DecidableEq, Repr

/-- The `map` callback of `copyAndReplaceAll` applied to the entries of the walk in turn. -/
def copyEntries (cwd : Path) (srcPath destPath relativeDestDir : Path)
    (replacements : Replacements) : List Path → Forest → List Op → Run
  | [], fs, ops => ⟨fs, ops, none⟩
  | absoluteSrcFilePath :: rest, fs, ops =>
    let filename := relative cwd srcPath absoluteSrcFilePath
    let relativeDestPath := join relativeDestDir filename
    match copyAndReplace cwd fs absoluteSrcFilePath destPath relativeDestPath replacements with
    | .error e => ⟨fs, ops, some e⟩
    | .ok (fs', issued) =>
      copyEntries cwd srcPath destPath relativeDestDir replacements rest fs' (ops ++ issued)

/-- `copyAndReplaceAll(srcPath, destPath, relativeDestDir, replacements)`. -/
def copyAndReplaceAll (cwd : Path) (fs : Forest) (fuel : Nat)
    (srcPath destPath relativeDestDir : Path) (replacements : Replacements) : Run :=
  match walk cwd fs fuel srcPath with
  | .error e => ⟨fs, [], some e⟩
  | .ok entries => copyEntries cwd srcPath destPath relativeDestDir replacements entries fs []

/-! ## `copyProjectTemplateAndReplace` -/

/-- The constant `windowsDir`. -/
def windowsDir : Path := Path.rel ["windows"]

/-- The constant `nodeModulesDir`. -/
def nodeModulesDir : Path := Path.rel ["node_modules"]

/-- The constant `bundleDir`. -/
def bundleDir : Path := Path.rel ["Bundle"]

/-- The constant `generatedDir`. -/
def generatedDir : Path := Path.rel [".generated"]

/-- The local constant `projDir`. -/
def projDir : Path := Path.rel ["ReactTestApp"]

/-- The names mapped to `projectFilesMappings`. -/
def projectFileNames : List String :=
  ["ReactTestApp.vcxproj", "PropertySheet.props", "Package.appxmanifest",
   "ReactTestApp.vcxproj.filters", "ReactTestApp_TemporaryKey.pfx", "packages.config"]

/-- The segments of a string split at `/`, empty segments dropped; `acc` is the current
segment reversed. -/
def splitSegs : List Char → List Char → List String
  | [], acc => if acc = [] then [] else [String.mk acc.reverse]
  | c :: cs, acc =>
    if c = '/' then
      if acc = [] then splitSegs cs [] else String.mk acc.reverse :: splitSegs cs []
    else splitSegs cs (c :: acc)

/-- The path a string written with `/` denotes (the strings of a manifest). -/
def Path.ofString (s : String) : Path :=
  ⟨if s.toList.head? = some '/' then some Root.posix else none, splitSegs s.toList []⟩

/-- The separator of the platform of the working directory. -/
def sepOf (cwd : Path) : String :=
  match cwd.root with
  | some (.drive _) => "\\"
  | some (.unc _ _) => "\\"
  | _ => "/"

/-- The string of a root. -/
def Root.render : Root → String
  | .posix => "/"
  | .drive c => String.mk [c, ':', '\\']
  | .unc server share => "\\\\" ++ server ++ "\\" ++ share ++ "\\"

/-- The string of a path. -/
def Path.render (sep : String) (p : Path) : String :=
  (match p.root with
   | some r => r.render
   | none => "") ++ String.intercalate sep p.segs

/-- A parsed JSON value. -/
inductive Json where
  | null
  | bool (b : Bool)
  | num (n : Int)
  | str (s : String)
  | arr (items : List Json)
  | obj (fields : List (String × Json))

/-- Whether a value, `none` being `undefined`, is truthy. -/
def Json.truthy : Option Json → Bool
  | none => false
  | some .null => false
  | some (.bool b) => b
  | some (.num n) => n != 0
  | some (.str s) => s != ""
  | some (.arr _) => true
  | some (.obj _) => true

/-- The property read `v[k]` for a key that is not an index or a built-in property:
a `TypeError` on `null`, `undefined` on anything but an object that has the key. -/
def Json.get (v : Json) (k : String) : Except Err (Option Json) :=
  match v with
  | .null => .error .typeError
  | .obj fields => .ok (fields.lookup k)
  | _ => .ok none

/-- The value of `resourcesPaths` after
`(resourcesPaths && resourcesPaths.windows) || resourcesPaths`. -/
def selectResources (parsed : Json) : Except Err (Option Json) := do
  let resourcesPaths ← parsed.get "resources"
  match resourcesPaths with
  | none => return none
  | some v =>
    if Json.truthy (some v) then
      let w ← v.get "windows"
      if Json.truthy w then return w else return some v
    else return some v

/-- The body of the loop over `resourcesPaths`. -/
def copyResources (cwd : Path) (fuel : Nat) (manifestFilePath projectFilesDestPath : Path) :
    List Json → Forest → List Op → Run
  | [], fs, ops => ⟨fs, ops, none⟩
  | .str resource :: rest, fs, ops =>
    let resourceSrcPath := relative cwd (dirname manifestFilePath) (Path.ofString resource)
    if existsSync cwd fs resourceSrcPath then
      let run := copyAndReplaceAll cwd fs fuel resourceSrcPath projectFilesDestPath
        (join bundleDir (Path.ofString (basename (Path.ofString resource)))) []
      match run.thrown with
      | some e => ⟨run.fs, ops ++ run.ops, some e⟩
      | none =>
        copyResources cwd fuel manifestFilePath projectFilesDestPath rest run.fs (ops ++ run.ops)
    else
      copyResources cwd fuel manifestFilePath projectFilesDestPath rest fs
        (ops ++ [Op.warn resource])
  | _ :: _, fs, ops => ⟨fs, ops, some .typeError⟩

/-- The callback passed to `fs.readFile(manifestFilePath, ...)`, run on the file system
`fs`; `parse` is `JSON.parse`, `none` when it throws. -/
def manifestCallback (cwd : Path) (fs : Forest) (fuel : Nat) (parse : String → Option Json)
    (manifestFilePath projectFilesDestPath : Path) : Run :=
  match readFileSync cwd fs manifestFilePath with
  | .error _ => ⟨fs, [], some .typeError⟩
  | .ok content =>
    match parse content with
    | none => ⟨fs, [], some .syntaxError⟩
    | some parsed =>
      match selectResources parsed with
      | .error e => ⟨fs, [], some e⟩
      | .ok (some (.arr resourcesPaths)) =>
        copyResources cwd fuel manifestFilePath projectFilesDestPath resourcesPaths fs []
      | .ok _ => ⟨fs, [], none⟩

/-- Whether `!value` holds for a string or `null`. -/
def falsy : Option Path → Bool
  | none => true
  | some p => p == Path.empty

/-- The local constant `projectFilesDestPath`. -/
def projectFilesDestPathOf (nodeModulesPath : Path) : Path :=
  joinAll [nodeModulesPath, generatedDir, windowsDir, projDir]

/-- The values of `projectFilesReplacements` as paths. -/
def projectFilesReplacementPaths (cwd : Path)
    (nodeModulesPath reactNativeModulePath testAppNodeModulePath manifestFilePath : Path) :
    List (String × Path) :=
  let srcRootPath := join testAppNodeModulePath windowsDir
  let projectFilesDestPath := projectFilesDestPathOf nodeModulesPath
  [("\\$\\(ManifestRootPath\\)",
      relative cwd (joinAll [projectFilesDestPath]) (dirname manifestFilePath)),
   ("\\$\\(ReactNativeModulePath\\)", relative cwd projectFilesDestPath reactNativeModulePath),
   ("\\$\\(SourceFilesPath\\)", relative cwd projectFilesDestPath (join srcRootPath projDir))]

/-- The values of `solutionFileReplacements` as paths. -/
def solutionFileReplacementPaths (cwd : Path)
    (destPath nodeModulesPath reactNativeModulePath : Path) : List (String × Path) :=
  let projectFilesDestPath := projectFilesDestPathOf nodeModulesPath
  let solutionFileDestPath := join destPath windowsDir
  [("\\$\\(ReactNativeModulePath\\)", relative cwd solutionFileDestPath reactNativeModulePath),
   ("\\$\\(ReactTestAppProjectPath\\)", relative cwd solutionFileDestPath projectFilesDestPath)]

/-- The replacement object whose values are the strings of the given paths. -/
def renderReplacements (cwd : Path) (o : List (String × Path)) : Replacements :=
  o.map (fun kv => (kv.1, kv.2.render (sepOf cwd)))

/-- A call `copyAndReplace(srcPath, destPath, relativeDestPath, replacements)` together
with the file system it is made on. -/
structure Call where
  fs : Forest
  srcPath : Path
  destPath : Path
  relativeDestPath : Path
  replacements : Replacements
  deriving DecidableEq, Repr

/-- The operations a call issues; none when it throws. -/
def Call.issued (cwd : Path) (c : Call) : List Op :=
  match copyAndReplace cwd c.fs c.srcPath c.destPath c.relativeDestPath c.replacements with
  | .ok (_, ops) => ops
  | .error _ => []

/-- The loop over `projectFilesMappings`. Beside the state of the run it returns the
calls of `copyAndReplace` made, in order, each with the file system it was made on;
`calls` are those made before the loop. -/
def copyMappings (cwd : Path) (destPath : Path) (replacements : Replacements) :
    List (Path × Path) → Forest → List Op → List Call → Run × List Call
  | [], fs, ops, calls => (⟨fs, ops, none⟩, calls)
  | mapping :: rest, fs, ops, calls =>
    match copyAndReplace cwd fs mapping.1 destPath mapping.2 replacements with
    | .error e =>
      (⟨fs, ops, some e⟩, calls ++ [⟨fs, mapping.1, destPath, mapping.2, replacements⟩])
    | .ok (fs', issued) =>
      copyMappings cwd destPath replacements rest fs' (ops ++ issued)
        (calls ++ [⟨fs, mapping.1, destPath, mapping.2, replacements⟩])

/-- What the synchronous part of `copyProjectTemplateAndReplace` leaves: the state of
the run; once `fs.readFile` has been called, the `manifestFilePath` and
`projectFilesDestPath` its callback will use; and the calls of `copyAndReplace` made, in
order, each with the file system it was made on. -/
structure Scaffold where
  run : Run
  pending : Option (Path × Path)
  calls : List Call

/-- The synchronous part of `copyProjectTemplateAndReplace(destPath, nodeModulesPath,
reactNativeModulePath, testAppNodeModulePath)`; an argument is `none` when it is `null`.
The result is `none` when `findClosestPathTo` is still running after `fuel` iterations. -/
def copyProjectTemplateAndReplace (cwd : Path) (fs : Forest) (fuel : Nat)
    (destPath nodeModulesPath reactNativeModulePath testAppNodeModulePath : Option Path) :
    Option Scaffold :=
  if falsy destPath then
    some ⟨⟨fs, [], some (.error "Need a path to copy to")⟩, none, []⟩
  else if falsy reactNativeModulePath then
    some ⟨⟨fs, [], some (.error "react-native-windows node module is not installed")⟩,
      none, []⟩
  else if falsy testAppNodeModulePath then
    some ⟨⟨fs, [], some (.error "react-native-test-app node module is not installed")⟩,
      none, []⟩
  else
    match destPath, nodeModulesPath, reactNativeModulePath, testAppNodeModulePath with
    | some destPath, some nodeModulesPath, some reactNativeModulePath,
      some testAppNodeModulePath =>
      let srcRootPath := join testAppNodeModulePath windowsDir
      let projectFilesDestPath := projectFilesDestPathOf nodeModulesPath
      match mkdirSyncRecursive cwd fs (join projectFilesDestPath bundleDir) with
      | .error e => some ⟨⟨fs, [], some e⟩, none, []⟩
      | .ok fs1 =>
        match mkdirSyncRecursive cwd fs1 (join destPath windowsDir) with
        | .error e => some ⟨⟨fs1, [], some e⟩, none, []⟩
        | .ok fs2 =>
          match findClosestPathTo cwd fs2 fuel (Path.rel ["app.json"]) with
          | none => none
          | some none => some ⟨⟨fs2, [], some .typeError⟩, none, []⟩
          | some (some manifestFilePath) =>
            let projectFilesReplacements := renderReplacements cwd
              (projectFilesReplacementPaths cwd nodeModulesPath reactNativeModulePath
                testAppNodeModulePath manifestFilePath)
            let projectFilesMappings := projectFileNames.map (fun file =>
              (joinAll [srcRootPath, projDir, Path.rel [file]],
               join projectFilesDestPath (Path.rel [file])))
            match copyMappings cwd destPath projectFilesReplacements
                projectFilesMappings fs2 [] [] with
            | (run, calls) =>
              match run.thrown with
              | some _ => some ⟨run, some (manifestFilePath, projectFilesDestPath), calls⟩
              | none =>
                let solutionFileReplacements := renderReplacements cwd
                  (solutionFileReplacementPaths cwd destPath nodeModulesPath
                    reactNativeModulePath)
                let calls := calls ++ [⟨run.fs, join srcRootPath (Path.rel ["ReactTestApp.sln"]),
                  destPath, join windowsDir (Path.rel ["ReactTestApp.sln"]),
                  solutionFileReplacements⟩]
                match copyAndReplace cwd run.fs
                    (join srcRootPath (Path.rel ["ReactTestApp.sln"]))
                    destPath (join windowsDir (Path.rel ["ReactTestApp.sln"]))
                    solutionFileReplacements with
                | .error e =>
                  some ⟨⟨run.fs, run.ops, some e⟩,
                    some (manifestFilePath, projectFilesDestPath), calls⟩
                | .ok (fs3, issued) =>
                  some ⟨⟨fs3, run.ops ++ issued, none⟩,
                    some (manifestFilePath, projectFilesDestPath), calls⟩
    | _, _, _, _ => some ⟨⟨fs, [], some .typeError⟩, none, []⟩

/-- The body of the module: the anchors are resolved, `destPath` is the working
directory, and the `readFile` callback runs on the file system the synchronous part
leaves, before any issued write has completed. -/
def script (cwd : Path) (fs : Forest) (fuel : Nat) (parse : String → Option Json) :
    Option Run :=
  match findClosestPathTo cwd fs fuel nodeModulesDir,
      findClosestPathTo cwd fs fuel (join nodeModulesDir (Path.rel ["react-native-windows"])),
      findClosestPathTo cwd fs fuel (join nodeModulesDir (Path.rel ["react-native-test-app"])) with
  | some closestNodeModules, some reactNativeModulePath, some testAppNodeModulePath =>
    let destPath := resolve cwd Path.empty
    match copyProjectTemplateAndReplace cwd fs fuel (some destPath) closestNodeModules
        reactNativeModulePath testAppNodeModulePath with
    | none => none
    | some ⟨run, some (manifestFilePath, projectFilesDestPath), _⟩ =>
      match run.thrown with
      | some _ => some run
      | none =>
        let cb := manifestCallback cwd run.fs fuel parse manifestFilePath projectFilesDestPath
        some ⟨cb.fs, run.ops ++ cb.ops, cb.thrown⟩
    | some ⟨run, none, _⟩ => some run
  | _, _, _ => none

/-! ## Notions used in the statements and proofs -/

/-- A project `/proj` with the directory `src` that holds `f.txt`. -/
def srcFs : Forest :=
  .dir "proj" (.dir "src" (.file "f.txt" "text" 420 .nil) .nil) .nil

/-- The same project with a regular file `out` beside `src`. -/
def srcFsWithFileOut : Forest :=
  .dir "proj" (.dir "src" (.file "f.txt" "text" 420 .nil) (.file "out" "" 420 .nil)) .nil


/-- The path an issued file write or file copy targets. -/
def opDest : Op → Option Path
  | .copyFile _ dst => some dst
  | .writeFile dst _ _ => some dst
  | .warn _ => none

/-- The destination `copyAndReplaceAll` computes for the entry `e` of the walk. -/
def destOf (cwd srcPath destPath relativeDestDir e : Path) : Path :=
  join destPath (join relativeDestDir (relative cwd srcPath e))


/-- The manifest `{"resources": {"windows": ["assets/img.png"]}}` parsed. -/
def exampleManifest : Json :=
  .obj [("resources", .obj [("windows", .arr [.str "assets/img.png"])])]

/-- A project `/proj` with `app.json` and `assets/img.png` beside it, and a package
directory `/proj/app`. -/
def manifestFs : Forest :=
  .dir "proj"
    (.file "app.json" "manifest" 420
      (.dir "assets" (.file "img.png" "PNG" 420 .nil)
        (.dir "app" .nil .nil)))
    .nil


/-- The file system `f'` is `f` with directories added: the files are the same and
every directory of `f` is still a directory. -/
def Ext (f f' : Forest) : Prop :=
  (∀ q c m, f'.lookup q = some (.file c m) ↔ f.lookup q = some (.file c m)) ∧
  (∀ q ch, f.lookup q = some (.dir ch) → ∃ ch', f'.lookup q = some (.dir ch'))


/-- The template of the react-native-test-app module: `windows/ReactTestApp.sln` and the
six project files in `windows/ReactTestApp`. -/
def templateFs : Forest :=
  .dir "windows"
    (.dir "ReactTestApp"
      (.file "ReactTestApp.vcxproj" "$(ReactNativeModulePath)" 420
        (.file "PropertySheet.props" "$(ManifestRootPath)" 420
          (.file "Package.appxmanifest" "" 420
            (.file "ReactTestApp.vcxproj.filters" "$(SourceFilesPath)" 420
              (.file "ReactTestApp_TemporaryKey.pfx" "PFX" 384
                (.file "packages.config" "" 420 .nil))))))
      (.file "ReactTestApp.sln" "$(ReactTestAppProjectPath)" 420 .nil))
    .nil

/-- A project: the package directory `/proj/<pkg>` with its manifest `app.json`, and
the modules react-native-windows and react-native-test-app in `/proj/node_modules`. -/
def projectFs (pkg : String) : Forest :=
  .dir "proj"
    (.dir pkg (.file "app.json" "{}" 420 .nil)
      (.dir "node_modules"
        (.dir "react-native-windows" .nil
          (.dir "react-native-test-app" templateFs .nil))
        .nil))
    .nil

/-- The working directory `/proj/app`. -/
def projectCwd : Path := ⟨some .posix, ["proj", "app"]⟩

/-- A directory `/proj` that holds the file `a.txt` with the given content. -/
def oneFileFs (content : String) : Forest :=
  .dir "proj" (.file "a.txt" content 420 .nil) .nil


/-- A well-formed listing: every name is a name of a directory entry, no name occurs
twice in one directory. -/
def Forest.wf : Forest → Bool
  | .nil => true
  | .file n _ _ rest => validName n && !rest.names.contains n && rest.wf
  | .dir n ch rest => validName n && !rest.names.contains n && ch.wf && rest.wf

/-- The number of non-directory entries in and below a listing. -/
def Forest.numFiles : Forest → Nat
  | .nil => 0
  | .file _ _ _ rest => 1 + rest.numFiles
  | .dir _ ch rest => ch.numFiles + rest.numFiles

/-- The number of directories in and below a listing. -/
def Forest.numDirs : Forest → Nat
  | .nil => 0
  | .file _ _ _ rest => rest.numDirs
  | .dir _ ch rest => 1 + ch.numDirs + rest.numDirs

/-- The number of levels in and below a listing. -/
def Forest.height : Forest → Nat
  | .nil => 0
  | .file _ _ _ rest => max 1 rest.height
  | .dir _ ch rest => max (1 + ch.height) rest.height

/-- The absolute paths of the entries in and below a listing whose directory is `base`,
each directory followed by what is below it. -/
def Forest.paths (base : List String) : Forest → List (List String)
  | .nil => []
  | .file n _ _ rest => (base ++ [n]) :: rest.paths base
  | .dir n ch rest => ((base ++ [n]) :: ch.paths (base ++ [n])) ++ rest.paths base

/-- Well-formedness of what is at a path. -/
def Stat.wf : Stat → Bool
  | .file _ _ => true
  | .dir ch => ch.wf

/-- The number of non-directory entries of the tree at a path. -/
def Stat.numFiles : Stat → Nat
  | .file _ _ => 1
  | .dir ch => ch.numFiles

/-- The number of directories of the tree at a path. -/
def Stat.numDirs : Stat → Nat
  | .file _ _ => 0
  | .dir ch => 1 + ch.numDirs

/-- The number of levels of the tree at a path. -/
def Stat.depth : Stat → Nat
  | .file _ _ => 1
  | .dir ch => 1 + ch.height

/-- The absolute paths of the entries of the tree at the path `base`. -/
def Stat.paths (base : List String) : Stat → List (List String)
  | .file _ _ => [base]
  | .dir ch => base :: ch.paths base

/-- The walks of the entries of a listing whose directory is `cur`. -/
def Forest.walkLists (cur : Path) : Forest → List (List Path)
  | .nil => []
  | .file n _ _ rest => [join cur (Path.rel [n])] :: rest.walkLists cur
  | .dir n ch rest =>
    (join cur (Path.rel [n]) :: (ch.walkLists (join cur (Path.rel [n]))).flatten)
      :: rest.walkLists cur

/-- The walk of the tree at the path `cur`. -/
def Stat.entries (cur : Path) : Stat → List Path
  | .file _ _ => [cur]
  | .dir ch => cur :: (ch.walkLists cur).flatten

/-- The listing `g` is part of the listing `ch`: its names are found in `ch` as in `g`. -/
def Agrees (ch g : Forest) : Prop := ∀ n, n ∈ g.names → ch.find n = g.find n


/-- Every segment of a list is a name. -/
def Names (xs : List String) : Prop := ∀ s ∈ xs, validName s = true

/-- An absolute, normalised path as a proposition. -/
def AbsNormal (p : Path) : Prop := p.root.isSome = true ∧ Names p.segs

/-- The absolute path reached from `p` by the segments `xs`. -/
def descend (p : Path) (xs : List String) : Path :=
  ⟨p.root, (xs.foldl (normStep true) p.segs.reverse).reverse⟩

/-- A tree with the directories `/proj/app/src` and
`/proj/node_modules/react-native-windows`. -/
def exampleFs : Forest :=
  .dir "proj"
    (.dir "app" (.dir "src" .nil .nil)
      (.dir "node_modules" (.dir "react-native-windows" .nil .nil) .nil))
    .nil

/-- The working directory `/proj/app/src`. -/
def exampleCwd : Path := ⟨some .posix, ["proj", "app", "src"]⟩

/-! # Theorems -/

/-! ## Path algebra -/

theorem validName_iff (s : String) : validName s = true ↔ s ≠ "" ∧ s ≠ "." ∧ s ≠ ".." := by
  simp [validName, and_assoc]

theorem names_nil : Names [] := by
  intro s hs; simp at hs

theorem names_cons {s : String} {xs : List String} :
    Names (s :: xs) ↔ validName s = true ∧ Names xs := by
  simp [Names]

theorem names_append {xs ys : List String} : Names (xs ++ ys) ↔ Names xs ∧ Names ys := by
  simp only [Names, List.mem_append]
  constructor
  · intro h; exact ⟨fun s hs => h s (Or.inl hs), fun s hs => h s (Or.inr hs)⟩
  · rintro ⟨h1, h2⟩ s (hs | hs)
    · exact h1 s hs
    · exact h2 s hs

theorem names_reverse {xs : List String} : Names xs.reverse ↔ Names xs := by
  simp [Names]

theorem normStep_name (b : Bool) (acc : List String) {s : String} (hs : validName s = true) :
    normStep b acc s = s :: acc := by
  obtain ⟨h1, h2, h3⟩ := (validName_iff s).1 hs
  simp [normStep, h1, h2, h3]

theorem normStep_skip (b : Bool) (acc : List String) {s : String} (hs : s = "" ∨ s = ".") :
    normStep b acc s = acc := by
  simp [normStep, hs]

theorem normStep_up_abs {acc : List String} (h : Names acc) :
    normStep true acc ".." = acc.drop 1 := by
  cases acc with
  | nil => simp [normStep]
  | cons t rest =>
    have ht : t ≠ ".." := ((validName_iff t).1 (h t (by simp))).2.2
    simp [normStep, ht]

theorem normStep_names {acc : List String} (h : Names acc) (s : String) :
    Names (normStep true acc s) := by
  by_cases h1 : s = "" ∨ s = "."
  · rw [normStep_skip _ _ h1]; exact h
  · by_cases h2 : s = ".."
    · subst h2
      rw [normStep_up_abs h]
      intro x hx; exact h x (List.mem_of_mem_drop hx)
    · have hv : validName s = true := by
        rw [validName_iff]; push_neg at h1; exact ⟨h1.1, h1.2, h2⟩
      rw [normStep_name _ _ hv]
      exact names_cons.2 ⟨hv, h⟩

theorem foldl_names {acc : List String} (h : Names acc) (xs : List String) :
    Names (xs.foldl (normStep true) acc) := by
  induction xs generalizing acc with
  | nil => exact h
  | cons x xs ih => exact ih (normStep_names h x)

theorem foldl_of_names (b : Bool) (acc : List String) {xs : List String} (h : Names xs) :
    xs.foldl (normStep b) acc = xs.reverse ++ acc := by
  induction xs generalizing acc with
  | nil => simp
  | cons x xs ih =>
    obtain ⟨hx, hxs⟩ := names_cons.1 h
    simp [List.foldl_cons, normStep_name b acc hx, ih _ hxs]

theorem foldl_ups {acc : List String} (h : Names acc) (k : Nat) :
    (List.replicate k "..").foldl (normStep true) acc = acc.drop k := by
  induction k generalizing acc with
  | zero => simp
  | succ k ih =>
    rw [List.replicate_succ, List.foldl_cons, normStep_up_abs h,
      ih (fun x hx => h x (List.mem_of_mem_drop hx))]
    simp [List.drop_drop, Nat.add_comm]

theorem normalizeSegs_names (xs : List String) : Names (normalizeSegs true xs) := by
  unfold normalizeSegs
  exact names_reverse.2 (foldl_names names_nil xs)

/-- Normalising a relative path first does not change what it resolves to: the state
of the relative normalisation is `ns` reversed on top of `k` parent segments, and an
absolute normalisation that started from `acc` is then at `ns` reversed on top of `acc`
without its first `k` segments. -/
theorem foldl_rel_abs (xs : List String) (k : Nat) (ns : List String) (hns : Names ns) :
    ∃ k' ns', Names ns' ∧
      xs.foldl (normStep false) (ns.reverse ++ List.replicate k "..")
        = ns'.reverse ++ List.replicate k' ".." ∧
      ∀ acc, Names acc →
        xs.foldl (normStep true) (ns.reverse ++ acc.drop k) = ns'.reverse ++ acc.drop k' := by
  induction xs generalizing k ns with
  | nil => exact ⟨k, ns, hns, rfl, fun _ _ => rfl⟩
  | cons x xs ih =>
    simp only [List.foldl_cons]
    by_cases h1 : x = "" ∨ x = "."
    · obtain ⟨k', ns', h, e1, e2⟩ := ih k ns hns
      refine ⟨k', ns', h, ?_, ?_⟩
      · rw [normStep_skip _ _ h1]; exact e1
      · intro acc hacc; rw [normStep_skip _ _ h1]; exact e2 acc hacc
    · by_cases h2 : x = ".."
      · subst h2
        rcases List.eq_nil_or_concat ns with hnil | ⟨ns0, t, hcat⟩
        · subst hnil
          obtain ⟨k', ns', h, e1, e2⟩ := ih (k + 1) [] names_nil
          refine ⟨k', ns', h, ?_, ?_⟩
          · have : normStep false ([].reverse ++ List.replicate k "..") ".."
                = [].reverse ++ List.replicate (k + 1) ".." := by
              cases k with
              | zero => simp [normStep]
              | succ k => simp [normStep, List.replicate_succ]
            rw [this]; exact e1
          · intro acc hacc
            have hd : Names (acc.drop k) := fun x hx => hacc x (List.mem_of_mem_drop hx)
            have : normStep true ([].reverse ++ acc.drop k) ".." = [].reverse ++ acc.drop (k + 1) := by
              simp only [List.reverse_nil, List.nil_append]
              rw [normStep_up_abs hd, List.drop_drop, Nat.add_comm]
            rw [this]; exact e2 acc hacc
        · rw [List.concat_eq_append] at hcat
          subst hcat
          have hns0 : Names ns0 := fun s hs => hns s (by simp [hs])
          have ht : validName t = true := hns t (by simp)
          have ht' : t ≠ ".." := ((validName_iff t).1 ht).2.2
          obtain ⟨k', ns', h, e1, e2⟩ := ih k ns0 hns0
          refine ⟨k', ns', h, ?_, ?_⟩
          · have : normStep false ((ns0 ++ [t]).reverse ++ List.replicate k "..") ".."
                = ns0.reverse ++ List.replicate k ".." := by
              simp [normStep, ht']
            rw [this]; exact e1
          · intro acc hacc
            have : normStep true ((ns0 ++ [t]).reverse ++ acc.drop k) ".."
                = ns0.reverse ++ acc.drop k := by
              simp [normStep, ht']
            rw [this]; exact e2 acc hacc
      · have hv : validName x = true := by
          rw [validName_iff]; push_neg at h1; exact ⟨h1.1, h1.2, h2⟩
        obtain ⟨k', ns', h, e1, e2⟩ := ih k (ns ++ [x]) (names_append.2 ⟨hns, by simpa [Names] using hv⟩)
        refine ⟨k', ns', h, ?_, ?_⟩
        · rw [normStep_name _ _ hv]; simpa using e1
        · intro acc hacc; rw [normStep_name _ _ hv]; simpa using e2 acc hacc

theorem absNormal_iff (p : Path) : p.isAbsNormal = true ↔ AbsNormal p := by
  simp [Path.isAbsNormal, AbsNormal, Names]

theorem normalizeSegs_of_names (b : Bool) {xs : List String} (h : Names xs) :
    normalizeSegs b xs = xs := by
  simp [normalizeSegs, foldl_of_names b [] h]

theorem normalizeSegs_append_names {xs ys : List String} (h : Names ys) :
    normalizeSegs true (xs ++ ys) = normalizeSegs true xs ++ ys := by
  simp [normalizeSegs, List.foldl_append, foldl_of_names true _ h]

theorem resolve_absNormal {cwd : Path} (hc : AbsNormal cwd) (p : Path) :
    AbsNormal (resolve cwd p) := by
  unfold resolve
  cases hp : p.root with
  | some r => exact ⟨rfl, normalizeSegs_names _⟩
  | none => exact ⟨hc.1, normalizeSegs_names _⟩

theorem resolve_of_absNormal (cwd : Path) {p : Path} (hp : AbsNormal p) : resolve cwd p = p := by
  obtain ⟨r, segs⟩ := p
  obtain ⟨h1, h2⟩ := hp
  cases r with
  | none => simp at h1
  | some r => simp [resolve, normalizeSegs_of_names true h2]

theorem resolve_empty {cwd : Path} (hc : AbsNormal cwd) : resolve cwd Path.empty = cwd := by
  simp [resolve, Path.empty, normalizeSegs_of_names true hc.2]

theorem stripCommon_spec (a b : List String) :
    ∃ c, a = c ++ (stripCommon a b).1 ∧ b = c ++ (stripCommon a b).2 := by
  induction a generalizing b with
  | nil => exact ⟨[], by simp [stripCommon]⟩
  | cons x xs ih =>
    cases b with
    | nil => exact ⟨[], by simp [stripCommon]⟩
    | cons y ys =>
      by_cases h : x = y
      · subst h
        obtain ⟨c, h1, h2⟩ := ih ys
        refine ⟨x :: c, ?_, ?_⟩
        · simp only [stripCommon, if_true, List.cons_append]; rw [← h1]
        · simp only [stripCommon, if_true, List.cons_append]; rw [← h2]
      · exact ⟨[], by simp [stripCommon, h]⟩

/-- Resolving `path.relative(a, b)` against the resolved `a` gives the resolved `b`. -/
theorem resolve_relative {cwd : Path} (hc : AbsNormal cwd) (a b : Path) :
    resolve (resolve cwd a) (relative cwd a b) = resolve cwd b := by
  have hf := resolve_absNormal hc a
  have ht := resolve_absNormal hc b
  unfold relative
  simp only
  split
  · rename_i hroot
    obtain ⟨c, h1, h2⟩ := stripCommon_spec (resolve cwd a).segs (resolve cwd b).segs
    generalize hsc : stripCommon (resolve cwd a).segs (resolve cwd b).segs = sc at h1 h2
    obtain ⟨fr, tr⟩ := sc
    simp only at h1 h2 ⊢
    have hc' : Names c := fun s hs => hf.2 s (by rw [h1]; simp [hs])
    have htr : Names tr := fun s hs => ht.2 s (by rw [h2]; simp [hs])
    have hsegs : normalizeSegs true ((resolve cwd a).segs ++ (List.replicate fr.length ".." ++ tr))
        = (resolve cwd b).segs := by
      unfold normalizeSegs
      rw [List.foldl_append, List.foldl_append, foldl_of_names true [] hf.2,
        foldl_ups (by simpa using names_reverse.2 hf.2), foldl_of_names true _ htr]
      rw [h2]
      conv_lhs => rw [h1]
      simp
    generalize hF : resolve cwd a = F at *
    generalize hT : resolve cwd b = T at *
    obtain ⟨Fr, Fs⟩ := F
    obtain ⟨Tr, Ts⟩ := T
    simp only at hroot hsegs
    subst hroot
    simp [resolve, hsegs]
  · exact resolve_of_absNormal _ ht

/-- What the segments of `path.normalize` of a relative path do to an absolute prefix. -/
theorem foldl_normalize_rel {acc : List String} (hacc : Names acc) (xs : List String) :
    (normalize ⟨none, xs⟩).segs.foldl (normStep true) acc = xs.foldl (normStep true) acc := by
  obtain ⟨k, ns, hns, e1, e2⟩ := foldl_rel_abs xs 0 [] names_nil
  simp only [List.reverse_nil, List.replicate_zero, List.append_nil, List.drop_zero,
    List.nil_append] at e1 e2
  have hn : normalizeSegs false xs = List.replicate k ".." ++ ns := by
    simp [normalizeSegs, e1]
  rw [e2 acc hacc]
  unfold normalize
  simp only [Option.isSome_none, Option.isNone_none, true_and]
  by_cases hnil : normalizeSegs false xs = []
  · rw [if_pos hnil]
    rw [hn] at hnil
    have hk : k = 0 := by
      cases k with
      | zero => rfl
      | succ k => simp [List.replicate_succ] at hnil
    have hns' : ns = [] := by simpa [hk] using hnil
    subst hk; subst hns'
    simp [normStep]
  · rw [if_neg hnil, hn, List.foldl_append, foldl_ups hacc,
      foldl_of_names true _ hns]

theorem normalize_rel_root (xs : List String) : (normalize ⟨none, xs⟩).root = none := by
  unfold normalize
  simp only
  split <;> rfl

theorem normalize_abs (r : Root) (xs : List String) :
    normalize ⟨some r, xs⟩ = ⟨some r, normalizeSegs true xs⟩ := by
  simp [normalize]

/-- `path.join(a, b)` is the normalised concatenation whenever `a` is not the empty
string or `b` is relative. -/
theorem join_eq {a b : Path} (h : a ≠ Path.empty ∨ b.root = none) :
    join a b = normalize ⟨a.root, a.segs ++ b.segs⟩ := by
  have hemp : (Path.empty != Path.empty) = false := by decide
  unfold join joinAll
  by_cases ha : a = Path.empty
  · have hb : b.root = none := by
      rcases h with h | h
      · exact absurd ha h
      · exact h
    subst ha
    by_cases hb' : b = Path.empty
    · subst hb'
      simp only [List.filter_cons, hemp, List.filter_nil]
      rfl
    · have hb'' : (b != Path.empty) = true := by simpa using hb'
      simp only [List.filter_cons, hemp, hb'', List.filter_nil]
      simp [Path.empty, hb]
  · have ha'' : (a != Path.empty) = true := by simpa using ha
    by_cases hb' : b = Path.empty
    · subst hb'
      simp only [List.filter_cons, hemp, ha'', List.filter_nil]
      simp [Path.empty]
    · have hb'' : (b != Path.empty) = true := by simpa using hb'
      simp only [List.filter_cons, ha'', hb'', List.filter_nil]
      simp

theorem descend_names (p : Path) {xs : List String} (hx : Names xs) :
    descend p xs = ⟨p.root, p.segs ++ xs⟩ := by
  simp [descend, foldl_of_names true _ hx]

theorem descend_absNormal {p : Path} (hp : AbsNormal p) (xs : List String) :
    AbsNormal (descend p xs) :=
  ⟨hp.1, names_reverse.2 (foldl_names (names_reverse.2 hp.2) xs)⟩

theorem descend_append (p : Path) (xs ys : List String) :
    descend p (xs ++ ys) = descend (descend p xs) ys := by
  simp [descend, List.foldl_append]

theorem resolve_mk_append (cwd : Path) (r : Option Root) (xs ys : List String) :
    resolve cwd ⟨r, xs ++ ys⟩ = descend (resolve cwd ⟨r, xs⟩) ys := by
  cases r with
  | some r => simp [resolve, descend, normalizeSegs, List.foldl_append]
  | none => simp [resolve, descend, normalizeSegs, List.foldl_append]

theorem resolve_normalize (cwd : Path) (p : Path) :
    resolve cwd (normalize p) = resolve cwd p := by
  obtain ⟨r, xs⟩ := p
  cases r with
  | some r =>
    rw [normalize_abs]
    simp [resolve, normalizeSegs_of_names true (normalizeSegs_names xs)]
  | none =>
    have hroot := normalize_rel_root xs
    have hfold := foldl_normalize_rel (foldl_names names_nil cwd.segs) xs
    generalize normalize ⟨none, xs⟩ = q at hroot hfold
    obtain ⟨qr, qs⟩ := q
    simp only at hroot hfold
    subst hroot
    simp [resolve, normalizeSegs, List.foldl_append, hfold]

/-- Resolving a join: descend from the resolved first argument by the segments of the
second. -/
theorem resolve_join (cwd : Path) {a b : Path}
    (h : a ≠ Path.empty ∨ b.root = none) :
    resolve cwd (join a b) = descend (resolve cwd a) b.segs := by
  rw [join_eq h, resolve_normalize, resolve_mk_append]

theorem join_rel_root {a b : Path} (ha : a.root = none) (hb : b.root = none) :
    (join a b).root = none := by
  rw [join_eq (Or.inr hb), ha]
  exact normalize_rel_root _

theorem descend_join_segs {p : Path} (hp : AbsNormal p) {a b : Path} (ha : a.root = none)
    (hb : b.root = none) : descend p (join a b).segs = descend p (a.segs ++ b.segs) := by
  rw [join_eq (Or.inr hb), ha]
  simp only [descend]
  rw [foldl_normalize_rel (names_reverse.2 hp.2)]

theorem dirname_absNormal {p : Path} (hp : AbsNormal p) :
    dirname p = ⟨p.root, p.segs.dropLast⟩ := by
  have hfil : p.segs.filter (fun s => s != "") = p.segs := by
    rw [List.filter_eq_self]
    intro s hs
    have := ((validName_iff s).1 (hp.2 s hs)).1
    simpa using this
  unfold dirname
  simp only [hfil]
  have : p.root.isNone = false := by
    have := hp.1
    cases h : p.root <;> simp_all
  simp [this]

theorem dirname_absNormal_absNormal {p : Path} (hp : AbsNormal p) : AbsNormal (dirname p) := by
  rw [dirname_absNormal hp]
  exact ⟨hp.1, fun s hs => hp.2 s (List.mem_of_mem_dropLast hs)⟩

/-- A path of the working directory joined with a relative path is already resolved. -/
theorem join_abs_eq_resolve {cwd : Path} (hc : AbsNormal cwd) {q : Path} (hq : q.root = none) :
    join cwd q = resolve cwd (join cwd q) := by
  rw [join_eq (Or.inr hq)]
  obtain ⟨r, cs⟩ := cwd
  cases r with
  | none => exact absurd hc.1 (by simp)
  | some r =>
    rw [normalize_abs]
    simp [resolve, normalizeSegs_of_names true (normalizeSegs_names _)]

theorem joinAll_single (p : Path) : joinAll [p] = normalize p := by
  unfold joinAll
  by_cases hp : p = Path.empty
  · subst hp
    have hemp : (Path.empty != Path.empty) = false := by decide
    simp only [List.filter_cons, hemp, List.filter_nil]
    rfl
  · have hp' : (p != Path.empty) = true := by simpa using hp
    simp only [List.filter_cons, hp', List.filter_nil]
    simp

theorem descend_cwd {cwd : Path} (hc : AbsNormal cwd) {q : Path} (hq : q.root = none) :
    descend cwd q.segs = resolve cwd q := by
  obtain ⟨qr, qs⟩ := q
  simp only at hq
  subst hq
  simp [descend, resolve, normalizeSegs, List.foldl_append, foldl_of_names true [] hc.2]

theorem resolve_join_cwd {cwd : Path} (hc : AbsNormal cwd) {q : Path} (hq : q.root = none) :
    resolve cwd (join cwd q) = resolve cwd q := by
  rw [resolve_join cwd (Or.inr hq), resolve_of_absNormal cwd hc, descend_cwd hc hq]

/-- The directory of a file written at `join(cwd, join(q, file))` is `q` resolved. -/
theorem dirname_join_file {cwd : Path} (hc : AbsNormal cwd) {q : Path} (hq : q.root = none)
    {file : String} (hf : validName file = true) :
    dirname (join cwd (join q (Path.rel [file]))) = resolve cwd q := by
  have hroot : (join q (Path.rel [file])).root = none := join_rel_root hq rfl
  have hres : join cwd (join q (Path.rel [file]))
      = ⟨(resolve cwd q).root, (resolve cwd q).segs ++ [file]⟩ := by
    rw [join_abs_eq_resolve hc hroot, resolve_join cwd (Or.inr hroot),
      descend_join_segs (resolve_absNormal hc cwd) hq rfl, descend_append]
    have h1 : descend (resolve cwd cwd) q.segs = resolve cwd q := by
      rw [resolve_of_absNormal cwd hc]
      exact descend_cwd hc hq
    rw [h1]
    exact descend_names _ (by simpa [Names, Path.rel] using hf)
  have hn : AbsNormal (⟨(resolve cwd q).root, (resolve cwd q).segs ++ [file]⟩ : Path) :=
    ⟨(resolve_absNormal hc q).1,
      names_append.2 ⟨(resolve_absNormal hc q).2, by simpa [Names] using hf⟩⟩
  rw [hres, dirname_absNormal hn]
  simp

/-! ## C3 and C4: `findClosestPathTo` -/

theorem ancestor_eq {cwd : Path} (hc : AbsNormal cwd) (j : Nat) :
    dirname^[j] cwd = ⟨cwd.root, cwd.segs.take (cwd.segs.length - j)⟩ := by
  induction j with
  | zero => simp
  | succ j ih =>
    have hn : AbsNormal (⟨cwd.root, cwd.segs.take (cwd.segs.length - j)⟩ : Path) :=
      ⟨hc.1, fun s hs => hc.2 s (List.mem_of_mem_take hs)⟩
    rw [Function.iterate_succ_apply', ih, dirname_absNormal hn]
    simp only [List.dropLast_eq_take, List.take_take, List.length_take]
    congr 2
    omega

theorem ancestor_absNormal {cwd : Path} (hc : AbsNormal cwd) (j : Nat) :
    AbsNormal (dirname^[j] cwd) := by
  rw [ancestor_eq hc]
  exact ⟨hc.1, fun s hs => hc.2 s (List.mem_of_mem_take hs)⟩

theorem ancestor_segs_ne_nil {cwd : Path} (hc : AbsNormal cwd) {N : Nat}
    (hN : (dirname^[N] cwd).segs ≠ []) {j : Nat} (hj : j ≤ N) :
    (dirname^[j] cwd).segs ≠ [] := by
  rw [ancestor_eq hc] at hN ⊢
  simp only [ne_eq, List.take_eq_nil_iff, not_or] at hN ⊢
  exact ⟨by omega, hN.2⟩

theorem rootDirectory_segs {p q : Path} (h : rootDirectory p = some q) : q.segs = [] := by
  unfold rootDirectory at h
  split at h <;> simp at h <;> subst h <;> rfl

/-- The loop reaches the nearest ancestor below the root in which the target exists. -/
theorem findLoop_found {cwd : Path} (hc : AbsNormal cwd) (fs : Forest) (t : Path) (N : Nat)
    (hN : (dirname^[N] cwd).segs ≠ [])
    (hex : existsSync cwd fs (join (dirname^[N] cwd) t) = true)
    (hnear : ∀ j < N, existsSync cwd fs (join (dirname^[j] cwd) t) = false) :
    ∀ d j, j + d = N → ∀ fuel, d < fuel →
      findLoop cwd fs t (rootDirectory (resolve cwd Path.empty)) fuel (dirname^[j] cwd)
        = some (some (relative cwd Path.empty (join (dirname^[N] cwd) t))) := by
  intro d
  induction d with
  | zero =>
    intro j hj fuel hf
    have hjN : j = N := by omega
    subst hjN
    obtain ⟨f, rfl⟩ : ∃ f, fuel = f + 1 := ⟨fuel - 1, by omega⟩
    have hroot : ¬ some (dirname^[j] cwd) = rootDirectory (resolve cwd Path.empty) := by
      intro h
      exact hN (rootDirectory_segs h.symm)
    simp only [findLoop, hroot, if_false, hex, if_true]
  | succ d ih =>
    intro j hj fuel hf
    obtain ⟨f, rfl⟩ : ∃ f, fuel = f + 1 := ⟨fuel - 1, by omega⟩
    have hroot : ¬ some (dirname^[j] cwd) = rootDirectory (resolve cwd Path.empty) := by
      intro h
      exact ancestor_segs_ne_nil hc hN (by omega) (rootDirectory_segs h.symm)
    have hno := hnear j (by omega)
    simp only [findLoop, hroot, if_false, hno]
    rw [← Function.iterate_succ_apply' dirname j cwd]
    exact ih (j + 1) (by omega) f (by omega)

theorem stripCommon_append_left (c x y : List String) :
    stripCommon (c ++ x) (c ++ y) = stripCommon x y := by
  induction c with
  | nil => rfl
  | cons a c ih => simp [stripCommon, ih]

theorem stripCommon_of_head_ne {x y : List String} (h : x = [] ∨ y.head? ≠ x.head?) :
    stripCommon x y = (x, y) := by
  cases x with
  | nil => cases y <;> rfl
  | cons a x =>
    cases y with
    | nil => rfl
    | cons b y =>
      have hab : a ≠ b := by
        rcases h with h | h
        · simp at h
        · intro hab; apply h; simp [hab]
      simp [stripCommon, hab]

theorem stripCommon_take (cs ts : List String) (k : Nat)
    (h : cs.drop k = [] ∨ ts.head? ≠ (cs.drop k).head?) :
    stripCommon cs (cs.take k ++ ts) = (cs.drop k, ts) := by
  have := stripCommon_append_left (cs.take k) (cs.drop k) ts
  rw [List.take_append_drop] at this
  rw [this]
  exact stripCommon_of_head_ne h

theorem join_absNormal_names {p t : Path} (hp : AbsNormal p) (ht : Names t.segs) :
    join p t = ⟨p.root, p.segs ++ t.segs⟩ := by
  have hne : p ≠ Path.empty := by
    intro h; rw [h] at hp; exact absurd hp.1 (by simp [Path.empty])
  rw [join_eq (Or.inl hne)]
  obtain ⟨r, ps⟩ := p
  cases r with
  | none => exact absurd hp.1 (by simp)
  | some r =>
    rw [normalize_abs, normalizeSegs_of_names true (names_append.2 ⟨hp.2, ht⟩)]

theorem count_up_names {xs : List String} (h : Names xs) : xs.count ".." = 0 := by
  rw [List.count_eq_zero]
  intro hm
  exact ((validName_iff _).1 (h _ hm)).2.2 rfl

/-- C3, as amended: if the target exists in the ancestor `N` levels above the working
directory, that ancestor is not the file-system root, and the target exists in no nearer
ancestor, then `findClosestPathTo` returns a non-null relative path that resolves, from
the working directory, to that nearest match; the path has exactly `N` parent-traversal
segments when the target is a chain of names and, for `N > 0`, does not begin with the
name of the directory through which the working directory descends from that ancestor. -/
theorem findClosestPathTo_nearest (cwd : Path) (fs : Forest) (t : Path) (N : Nat)
    (hc : cwd.isAbsNormal = true)
    (hN : (dirname^[N] cwd).segs ≠ [])
    (hex : existsSync cwd fs (join (dirname^[N] cwd) t) = true)
    (hnear : ∀ j < N, existsSync cwd fs (join (dirname^[j] cwd) t) = false) :
    ∃ r, (∀ fuel, N < fuel → findClosestPathTo cwd fs fuel t = some (some r)) ∧
      resolve cwd r = resolve cwd (join (dirname^[N] cwd) t) ∧
      (t.segs.all validName = true →
        (N = 0 ∨ t.segs.head? ≠ (dirname^[N - 1] cwd).segs.getLast?) →
        r.segs = List.replicate N ".." ++ t.segs ∧ r.ups = N) := by
  have hc' : AbsNormal cwd := (absNormal_iff cwd).1 hc
  refine ⟨relative cwd Path.empty (join (dirname^[N] cwd) t), ?_, ?_, ?_⟩
  · intro fuel hf
    unfold findClosestPathTo
    have := findLoop_found hc' fs t N hN hex hnear N 0 (by omega) fuel hf
    simpa [resolve_empty hc'] using this
  · have := resolve_relative hc' Path.empty (join (dirname^[N] cwd) t)
    rwa [resolve_empty hc'] at this
  · intro ht hhead
    have ht' : Names t.segs := by simpa [Names] using ht
    have hlen : N < cwd.segs.length := by
      rw [ancestor_eq hc'] at hN
      simp only [ne_eq, List.take_eq_nil_iff, not_or] at hN
      omega
    have hsegs : (relative cwd Path.empty (join (dirname^[N] cwd) t)).segs
        = List.replicate N ".." ++ t.segs := by
      rw [join_absNormal_names (ancestor_absNormal hc' N) ht', ancestor_eq hc']
      unfold relative
      have hn2 : AbsNormal (⟨cwd.root, List.take (cwd.segs.length - N) cwd.segs ++ t.segs⟩ : Path) :=
        ⟨hc'.1, names_append.2 ⟨fun s hs => hc'.2 s (List.mem_of_mem_take hs), ht'⟩⟩
      rw [resolve_empty hc', resolve_of_absNormal cwd hn2]
      simp only [if_true]
      have hsplit : stripCommon cwd.segs (List.take (cwd.segs.length - N) cwd.segs ++ t.segs)
          = (List.drop (cwd.segs.length - N) cwd.segs, t.segs) := by
        apply stripCommon_take
        by_cases h0 : N = 0
        · left; subst h0; simp
        · have hne := hhead.resolve_left h0
          right
          intro heq
          apply hne
          rw [heq, ancestor_eq hc']
          simp only
          have hk : cwd.segs.length - (N - 1) = (cwd.segs.length - N) + 1 := by omega
          have hlt : cwd.segs.length - N < cwd.segs.length := by omega
          rw [hk, List.take_succ, List.getLast?_append, List.head?_drop]
          simp [List.getElem?_eq_getElem hlt]
      rw [hsplit]
      simp only [List.length_drop]
      congr 2
      omega
    refine ⟨hsegs, ?_⟩
    unfold Path.ups
    rw [hsegs, List.count_append, count_up_names ht']
    simp


/-- An instance of `findClosestPathTo_nearest`: from `/proj/app/src` the directory
`node_modules` is found two levels up, in `/proj`. -/
theorem findClosestPathTo_nearest_witness :
    ∃ r, (∀ fuel, 2 < fuel →
        findClosestPathTo exampleCwd exampleFs fuel (Path.rel ["node_modules"]) = some (some r)) ∧
      resolve exampleCwd r = ⟨some .posix, ["proj", "node_modules"]⟩ ∧ r.ups = 2 := by
  obtain ⟨r, h1, h2, h3⟩ := findClosestPathTo_nearest exampleCwd exampleFs
    (Path.rel ["node_modules"]) 2 (by decide) (by decide) (by decide) (by decide)
  exact ⟨r, h1, h2, (h3 (by decide) (by decide)).2⟩

/-- C3 as stated fails when the ancestor is the file-system root: with working
directory `/proj` and a directory `/node_modules`, the target exists one level up and in
no nearer ancestor, and `findClosestPathTo` returns `null`. -/
theorem findClosestPathTo_skips_root :
    existsSync ⟨some .posix, ["proj"]⟩
        (Forest.dir "proj" .nil (Forest.dir "node_modules" .nil .nil))
        (join (dirname^[1] ⟨some .posix, ["proj"]⟩) (Path.rel ["node_modules"])) = true ∧
      existsSync ⟨some .posix, ["proj"]⟩
        (Forest.dir "proj" .nil (Forest.dir "node_modules" .nil .nil))
        (join (dirname^[0] ⟨some .posix, ["proj"]⟩) (Path.rel ["node_modules"])) = false ∧
      findClosestPathTo ⟨some .posix, ["proj"]⟩
        (Forest.dir "proj" .nil (Forest.dir "node_modules" .nil .nil)) 2
        (Path.rel ["node_modules"]) = some none := by
  decide

/-- The path returned has fewer than `N` parent-traversal segments when the target leads
back into the working directory: from `/proj/app` the target `app/src` exists one level
up, in `/proj` only, and the result is `src`, without a parent-traversal segment. -/
theorem findClosestPathTo_fewer_ups :
    findClosestPathTo ⟨some .posix, ["proj", "app"]⟩ exampleFs 5 (Path.rel ["app", "src"])
      = some (some (Path.rel ["src"])) := by
  decide

theorem findLoop_mono (cwd : Path) (fs : Forest) (t : Path) (rootDir : Option Path) :
    ∀ (f1 f2 : Nat), f1 ≤ f2 → ∀ (base : Path) (r : Option Path),
      findLoop cwd fs t rootDir f1 base = some r → findLoop cwd fs t rootDir f2 base = some r := by
  intro f1
  induction f1 with
  | zero => intro f2 _ base r h; simp [findLoop] at h
  | succ f1 ih =>
    intro f2 hle base r h
    obtain ⟨f, rfl⟩ : ∃ f, f2 = f + 1 := ⟨f2 - 1, by omega⟩
    simp only [findLoop] at h ⊢
    split
    · rename_i hb; simpa [hb] using h
    · rename_i hb
      simp only [hb, if_false] at h
      split
      · rename_i he; simpa [he] using h
      · rename_i he
        simp only [he] at h
        exact ih f (by omega) _ r (by simpa using h)

theorem rootDirectory_of_posix_or_drive {p : Path}
    (h : p.root = some .posix ∨ ∃ c, p.root = some (.drive c)) :
    rootDirectory p = some ⟨p.root, []⟩ := by
  unfold rootDirectory
  rcases h with h | ⟨c, h⟩ <;> rw [h]

theorem findLoop_returns {cwd : Path} (hc : AbsNormal cwd)
    (hroot : cwd.root = some .posix ∨ ∃ c, cwd.root = some (.drive c))
    (fs : Forest) (t : Path) :
    ∀ d j, j + d = cwd.segs.length → ∀ fuel, d < fuel →
      ∃ r, findLoop cwd fs t (rootDirectory cwd) fuel (dirname^[j] cwd) = some r ∧
        ((∀ i, existsSync cwd fs (join (dirname^[i] cwd) t) = false) → r = none) := by
  intro d
  induction d with
  | zero =>
    intro j hj fuel hf
    obtain ⟨f, rfl⟩ : ∃ f, fuel = f + 1 := ⟨fuel - 1, by omega⟩
    have hj' : j = cwd.segs.length := by omega
    have hbase : some (dirname^[j] cwd) = rootDirectory cwd := by
      rw [rootDirectory_of_posix_or_drive hroot, ancestor_eq hc, hj']
      simp
    exact ⟨none, by simp [findLoop, hbase], fun _ => rfl⟩
  | succ d ih =>
    intro j hj fuel hf
    obtain ⟨f, rfl⟩ : ∃ f, fuel = f + 1 := ⟨fuel - 1, by omega⟩
    by_cases hbase : some (dirname^[j] cwd) = rootDirectory cwd
    · exact ⟨none, by simp [findLoop, hbase], fun _ => rfl⟩
    · by_cases hex : existsSync cwd fs (join (dirname^[j] cwd) t) = true
      · refine ⟨some (relative cwd Path.empty (join (dirname^[j] cwd) t)), ?_, ?_⟩
        · simp [findLoop, hbase, hex]
        · intro hno
          rw [hno j] at hex
          exact absurd hex (by simp)
      · obtain ⟨r, hr, hnone⟩ := ih (j + 1) (by omega) f (by omega)
        refine ⟨r, ?_, hnone⟩
        simp only [findLoop, hbase, if_false, hex]
        rw [← Function.iterate_succ_apply' dirname j cwd]
        exact hr

/-- On a POSIX or drive-letter working directory `findClosestPathTo` returns within one
iteration per segment of the working directory, and returns `null` when the target
exists under no ancestor. -/
theorem findClosestPathTo_returns (cwd : Path) (fs : Forest) (t : Path)
    (hc : cwd.isAbsNormal = true)
    (hroot : cwd.root = some .posix ∨ ∃ c, cwd.root = some (.drive c)) :
    ∃ r, (∀ fuel, cwd.segs.length < fuel → findClosestPathTo cwd fs fuel t = some r) ∧
      ((∀ i, existsSync cwd fs (join (dirname^[i] cwd) t) = false) → r = none) := by
  have hc' : AbsNormal cwd := (absNormal_iff cwd).1 hc
  obtain ⟨r, hr, hnone⟩ := findLoop_returns hc' hroot fs t cwd.segs.length 0 (by omega)
    (cwd.segs.length + 1) (by omega)
  refine ⟨r, ?_, hnone⟩
  intro fuel hf
  obtain ⟨r', hr', _⟩ := findLoop_returns hc' hroot fs t cwd.segs.length 0 (by omega) fuel hf
  have hmono : r' = r := by
    have := findLoop_mono cwd fs t (rootDirectory cwd) (cwd.segs.length + 1) fuel (by omega)
      (dirname^[0] cwd) r hr
    rw [this] at hr'
    exact (Option.some.inj hr').symm
  unfold findClosestPathTo
  rw [resolve_empty hc']
  rw [← hmono]
  exact hr'

/-- C4 fails on a Windows UNC working directory: for `\\server\share\proj` the
computed `rootDirectory` is `\`, the loop reaches `\\server\share\`, whose `dirname`
is itself, and never returns, whatever the number of iterations allowed. -/
theorem findClosestPathTo_unc_never_returns (fuel : Nat) :
    findClosestPathTo ⟨some (.unc "server" "share"), ["proj"]⟩ (Forest.dir "proj" .nil .nil)
      fuel (Path.rel ["node_modules"]) = none := by
  have hroot : ∀ f, findLoop ⟨some (.unc "server" "share"), ["proj"]⟩
      (Forest.dir "proj" .nil .nil) (Path.rel ["node_modules"]) none f
      ⟨some (.unc "server" "share"), []⟩ = none := by
    intro f
    induction f with
    | zero => rfl
    | succ f ih =>
      have h1 : existsSync ⟨some (.unc "server" "share"), ["proj"]⟩
          (Forest.dir "proj" .nil .nil)
          (join ⟨some (.unc "server" "share"), []⟩ (Path.rel ["node_modules"])) = false := by
        decide
      have h2 : dirname ⟨some (.unc "server" "share"), []⟩
          = ⟨some (.unc "server" "share"), []⟩ := by decide
      simp only [findLoop, h1, h2]
      simpa using ih
  cases fuel with
  | zero => rfl
  | succ f =>
    have h0 : resolve ⟨some (.unc "server" "share"), ["proj"]⟩ Path.empty
        = ⟨some (.unc "server" "share"), ["proj"]⟩ := by decide
    have h1 : existsSync ⟨some (.unc "server" "share"), ["proj"]⟩
        (Forest.dir "proj" .nil .nil)
        (join ⟨some (.unc "server" "share"), ["proj"]⟩ (Path.rel ["node_modules"])) = false := by
      decide
    have h2 : dirname ⟨some (.unc "server" "share"), ["proj"]⟩
        = ⟨some (.unc "server" "share"), []⟩ := by decide
    have h3 : rootDirectory ⟨some (.unc "server" "share"), ["proj"]⟩ = none := rfl
    unfold findClosestPathTo
    simp only [h0, h3, findLoop, h1, h2]
    simpa using hroot f

/-! ## The anchors passed to `copyProjectTemplateAndReplace` -/

theorem relative_root {cwd a b : Path} (h : (resolve cwd a).root = (resolve cwd b).root) :
    (relative cwd a b).root = none := by
  unfold relative
  simp [h]

theorem dirname_root {p : Path} (h : p.root.isSome = true) : (dirname p).root = p.root := by
  unfold dirname
  simp only
  split
  · rename_i hcond
    rw [Option.isNone_iff_eq_none] at hcond
    rw [hcond.1] at h
    exact absurd h (by simp)
  · rfl

theorem findLoop_relative {cwd : Path} (hc : AbsNormal cwd) (fs : Forest) (t : Path)
    (rootDir : Option Path) :
    ∀ (fuel : Nat) (basePath p : Path), basePath.root = cwd.root →
      findLoop cwd fs t rootDir fuel basePath = some (some p) → p.root = none := by
  intro fuel
  induction fuel with
  | zero => intro b p _ h; simp [findLoop] at h
  | succ n ih =>
    intro b p hb h
    have hsome : b.root.isSome = true := by rw [hb]; exact hc.1
    simp only [findLoop] at h
    split at h
    · simp at h
    · split at h
      · simp only [Option.some.injEq] at h
        subst h
        apply relative_root
        have hne : b ≠ Path.empty := by
          intro he; rw [he] at hsome; exact absurd hsome (by simp [Path.empty])
        rw [resolve_empty hc, join_eq (Or.inl hne)]
        obtain ⟨r, bs⟩ := b
        cases r with
        | none => exact absurd hsome (by simp)
        | some r =>
          simp only at hb
          rw [normalize_abs, ← hb]
          rfl
      · exact ih (dirname b) p (by rw [dirname_root hsome, hb]) h

/-- A path `findClosestPathTo` returns is relative. -/
theorem findClosestPathTo_relative {cwd : Path} (hc : AbsNormal cwd) {fs : Forest} {fuel : Nat}
    {t p : Path} (h : findClosestPathTo cwd fs fuel t = some (some p)) : p.root = none := by
  unfold findClosestPathTo at h
  rw [resolve_empty hc] at h
  exact findLoop_relative hc fs t _ fuel cwd p rfl h

theorem projectFilesDestPathOf_root {nm : Path} (hnm : nm.root = none) :
    (projectFilesDestPathOf nm).root = none := by
  unfold projectFilesDestPathOf joinAll
  generalize hl : List.filter (fun a => a != Path.empty) [nm, generatedDir, windowsDir, projDir]
    = l
  have hall : ∀ p ∈ l, p.root = none := by
    intro p hp
    rw [← hl] at hp
    have := List.mem_of_mem_filter hp
    simp only [List.mem_cons, List.mem_singleton, List.not_mem_nil, or_false] at this
    rcases this with h | h | h | h <;> subst h <;> first | exact hnm | rfl
  have hroot : l.head?.bind Path.root = none := by
    cases l with
    | nil => rfl
    | cons p ps => simpa using hall p (by simp)
  simp only [hroot]
  exact normalize_rel_root _

/-! ## File-system lemmas -/

theorem lookup_append {fs : Forest} {a : List String} {ch : Forest}
    (h : fs.lookup a = some (.dir ch)) (xs : List String) :
    fs.lookup (a ++ xs) = ch.lookup xs := by
  induction a generalizing fs with
  | nil =>
    simp only [Forest.lookup, Option.some.injEq, Stat.dir.injEq] at h
    subst h; rfl
  | cons s a ih =>
    simp only [List.cons_append, Forest.lookup] at h ⊢
    cases hf : fs.find s with
    | none => simp [hf] at h
    | some st =>
      cases st with
      | file c m =>
        simp only [hf] at h
        split at h <;> simp at h
      | dir c =>
        simp only [hf] at h ⊢
        exact ih h

theorem lookup_singleton (ch : Forest) (n : String) : ch.lookup [n] = ch.find n := by
  simp only [Forest.lookup]
  cases h : ch.find n with
  | none => rfl
  | some st => cases st <;> simp

theorem normalize_ne_empty (p : Path) : normalize p ≠ Path.empty := by
  obtain ⟨r, xs⟩ := p
  cases r with
  | some r => simp [normalize, Path.empty]
  | none =>
    unfold normalize
    simp only [Option.isNone_none, Option.isSome_none, true_and]
    split
    · simp [Path.empty]
    · rename_i h
      simp only [Path.empty, ne_eq, Path.mk.injEq, true_and]
      exact h

theorem join_ne_empty (a b : Path) : join a b ≠ Path.empty := by
  unfold join joinAll
  exact normalize_ne_empty _

/-- What is at `join(cur, n)` is the entry `n` of the directory at `cur`. -/
theorem statAt_child {cwd : Path} {fs : Forest} {cur : Path} {a : List String}
    {ch : Forest} (hcur : cur ≠ Path.empty) (hres : resolve cwd cur = ⟨cwd.root, a⟩)
    (hlook : fs.lookup a = some (.dir ch)) {n : String} (hn : validName n = true) :
    statAt cwd fs (join cur (Path.rel [n])) = ch.find n ∧
      resolve cwd (join cur (Path.rel [n])) = ⟨cwd.root, a ++ [n]⟩ := by
  have hr : resolve cwd (join cur (Path.rel [n])) = ⟨cwd.root, a ++ [n]⟩ := by
    rw [resolve_join cwd (Or.inl hcur), hres]
    exact descend_names _ (by simpa [Names, Path.rel] using hn)
  refine ⟨?_, hr⟩
  unfold statAt
  rw [if_neg (join_ne_empty _ _), hr]
  simp only [if_true]
  rw [lookup_append hlook, lookup_singleton]

theorem walk_succ (cwd : Path) (fs : Forest) (fuel : Nat) (current : Path) :
    walk cwd fs (fuel + 1) current =
      match statAt cwd fs current with
      | none => .error .ENOENT
      | some (.file _ _) => .ok [current]
      | some (.dir ch) =>
        (ch.names.mapM (fun child => walk cwd fs fuel (join current (Path.rel [child])))).map
          (fun files => current :: files.flatten) := by
  conv_lhs => rw [walk]
  cases h : statAt cwd fs current with
  | none => simp [lstatIsDirectory, h, bind, Except.bind]
  | some st =>
    cases st with
    | file c m => simp [lstatIsDirectory, h, bind, Except.bind, pure, Except.pure]
    | dir ch =>
      simp only [lstatIsDirectory, readdirSync, h, bind, Except.bind, pure, Except.pure]
      cases ch.names.mapM (fun child => walk cwd fs fuel (join current (Path.rel [child]))) <;>
        simp [Except.map]

theorem walk_mono (cwd : Path) (fs : Forest) :
    ∀ (f1 f2 : Nat), f1 ≤ f2 → ∀ (p : Path) (l : List Path),
      walk cwd fs f1 p = .ok l → walk cwd fs f2 p = .ok l := by
  intro f1
  induction f1 with
  | zero => intro f2 _ p l h; simp [walk] at h
  | succ f1 ih =>
    intro f2 hle p l h
    obtain ⟨f, rfl⟩ : ∃ f, f2 = f + 1 := ⟨f2 - 1, by omega⟩
    rw [walk_succ] at h ⊢
    cases hs : statAt cwd fs p with
    | none => simp [hs] at h
    | some st =>
      cases st with
      | file c m => simpa [hs] using h
      | dir ch =>
        simp only [hs] at h ⊢
        have key : ∀ (names : List String) (ls : List (List Path)),
            names.mapM (fun child => walk cwd fs f1 (join p (Path.rel [child]))) = .ok ls →
            names.mapM (fun child => walk cwd fs f (join p (Path.rel [child]))) = .ok ls := by
          intro names
          induction names with
          | nil => intro ls h; simpa using h
          | cons n ns ihn =>
            intro ls h
            rw [List.mapM_cons] at h ⊢
            cases h1 : walk cwd fs f1 (join p (Path.rel [n])) with
            | error e =>
              rw [h1] at h
              simp only [bind, Except.bind] at h
              exact absurd h (by simp)
            | ok l1 =>
              rw [ih f (by omega) _ l1 h1]
              cases h2 : ns.mapM (fun child => walk cwd fs f1 (join p (Path.rel [child]))) with
              | error e =>
                rw [h1, h2] at h
                simp only [bind, Except.bind] at h
                exact absurd h (by simp)
              | ok l2 =>
                rw [ihn l2 h2]
                rw [h1, h2] at h
                exact h
        cases h3 : ch.names.mapM (fun child => walk cwd fs f1 (join p (Path.rel [child]))) with
        | error e =>
          rw [h3] at h
          simp only [Except.map] at h
          exact absurd h (by simp)
        | ok ls =>
          rw [key ch.names ls h3]
          rw [h3] at h
          exact h

theorem agrees_refl (ch : Forest) : Agrees ch ch := fun _ _ => rfl

theorem agrees_file {ch : Forest} {n c : String} {m : Nat} {rest : Forest}
    (h : Agrees ch (.file n c m rest)) (hn : rest.names.contains n = false) :
    ch.find n = some (.file c m) ∧ Agrees ch rest := by
  constructor
  · rw [h n (by simp [Forest.names])]; simp [Forest.find]
  · intro k hk
    have hne : n ≠ k := by
      intro he; subst he
      simp at hn; exact hn hk
    rw [h k (by simp [Forest.names, hk])]
    simp [Forest.find, hne]

theorem agrees_dir {ch : Forest} {n : String} {sub rest : Forest}
    (h : Agrees ch (.dir n sub rest)) (hn : rest.names.contains n = false) :
    ch.find n = some (.dir sub) ∧ Agrees ch rest := by
  constructor
  · rw [h n (by simp [Forest.names])]; simp [Forest.find]
  · intro k hk
    have hne : n ≠ k := by
      intro he; subst he
      simp at hn; exact hn hk
    rw [h k (by simp [Forest.names, hk])]
    simp [Forest.find, hne]

/-- The walks of the children of a directory. -/
theorem walk_children {cwd : Path} (fs : Forest) :
    ∀ (g : Forest), g.wf = true → ∀ (cur : Path) (a : List String) (ch : Forest) (fuel : Nat),
      cur ≠ Path.empty → resolve cwd cur = ⟨cwd.root, a⟩ → fs.lookup a = some (.dir ch) →
      Agrees ch g → g.height ≤ fuel →
      g.names.mapM (fun c => walk cwd fs fuel (join cur (Path.rel [c])))
        = .ok (g.walkLists cur) := by
  intro g
  induction g with
  | nil => intro _ cur a ch fuel _ _ _ _ _; rfl
  | file n c m rest ih =>
    intro hwf cur a ch fuel hcur hres hlook hag hfuel
    simp only [Forest.wf, Bool.and_eq_true, Bool.not_eq_true'] at hwf
    obtain ⟨⟨hn, hnot⟩, hrest⟩ := hwf
    obtain ⟨hfind, hag'⟩ := agrees_file hag hnot
    simp only [Forest.height] at hfuel
    obtain ⟨f, rfl⟩ : ∃ f, fuel = f + 1 := ⟨fuel - 1, by omega⟩
    have hstat := (statAt_child hcur hres hlook hn).1
    simp only [Forest.names, Forest.walkLists, List.mapM_cons]
    rw [walk_succ, hstat, hfind]
    simp only
    rw [ih hrest cur a ch (f + 1) hcur hres hlook hag' (by omega)]
    rfl
  | dir n sub rest ihsub ihrest =>
    intro hwf cur a ch fuel hcur hres hlook hag hfuel
    simp only [Forest.wf, Bool.and_eq_true, Bool.not_eq_true'] at hwf
    obtain ⟨⟨⟨hn, hnot⟩, hsub⟩, hrest⟩ := hwf
    obtain ⟨hfind, hag'⟩ := agrees_dir hag hnot
    simp only [Forest.height] at hfuel
    obtain ⟨f, rfl⟩ : ∃ f, fuel = f + 1 := ⟨fuel - 1, by omega⟩
    obtain ⟨hstat, hres'⟩ := statAt_child hcur hres hlook hn
    have hlook' : fs.lookup (a ++ [n]) = some (.dir sub) := by
      rw [lookup_append hlook, lookup_singleton, hfind]
    simp only [Forest.names, Forest.walkLists, List.mapM_cons]
    rw [walk_succ, hstat, hfind]
    simp only
    rw [ihsub hsub (join cur (Path.rel [n])) (a ++ [n]) sub f (join_ne_empty _ _) hres' hlook'
      (agrees_refl sub) (by omega)]
    rw [ihrest hrest cur a ch (f + 1) hcur hres hlook hag' (by omega)]
    rfl

/-! ## C9: `walk` -/

theorem resolve_child {cwd cur : Path} {a : List String} (hcur : cur ≠ Path.empty)
    (hres : resolve cwd cur = ⟨cwd.root, a⟩) {n : String} (hn : validName n = true) :
    resolve cwd (join cur (Path.rel [n])) = ⟨cwd.root, a ++ [n]⟩ := by
  rw [resolve_join cwd (Or.inl hcur), hres]
  exact descend_names _ (by simpa [Names, Path.rel] using hn)

theorem walkLists_length (g : Forest) (cur : Path) :
    (g.walkLists cur).flatten.length = g.numFiles + g.numDirs := by
  induction g generalizing cur with
  | nil => rfl
  | file n c m rest ih =>
    simp only [Forest.walkLists, List.flatten_cons, List.length_append, List.length_singleton,
      ih, Forest.numFiles, Forest.numDirs]
    omega
  | dir n sub rest ihsub ihrest =>
    simp only [Forest.walkLists, List.flatten_cons, List.length_append, List.length_cons,
      ihsub, ihrest, Forest.numFiles, Forest.numDirs]
    omega

theorem walkLists_resolved {cwd : Path} (g : Forest) (hwf : g.wf = true) :
    ∀ (cur : Path) (a : List String), cur ≠ Path.empty → resolve cwd cur = ⟨cwd.root, a⟩ →
      (g.walkLists cur).flatten.map (fun e => (resolve cwd e).segs) = g.paths a := by
  induction g with
  | nil => intro cur a _ _; rfl
  | file n c m rest ih =>
    intro cur a hcur hres
    simp only [Forest.wf, Bool.and_eq_true, Bool.not_eq_true'] at hwf
    simp only [Forest.walkLists, List.flatten_cons, List.map_append, List.map_cons, List.map_nil,
      Forest.paths, resolve_child hcur hres hwf.1.1, ih hwf.2 cur a hcur hres]
    rfl
  | dir n sub rest ihsub ihrest =>
    intro cur a hcur hres
    simp only [Forest.wf, Bool.and_eq_true, Bool.not_eq_true'] at hwf
    have hres' := resolve_child hcur hres hwf.1.1.1
    simp only [Forest.walkLists, List.flatten_cons, List.map_append, List.map_cons,
      Forest.paths, hres', ihrest hwf.2 cur a hcur hres,
      ihsub hwf.1.2 (join cur (Path.rel [n])) (a ++ [n]) (join_ne_empty _ _) hres']

theorem find_eq_none {g : Forest} {n : String} (h : g.names.contains n = false) :
    g.find n = none := by
  induction g with
  | nil => rfl
  | file k c m rest ih =>
    simp only [Forest.names, List.contains_cons, Bool.or_eq_false_iff, beq_eq_false_iff_ne,
      ne_eq] at h
    simp only [Forest.find, if_neg (Ne.symm h.1), ih h.2]
  | dir k sub rest _ ih =>
    simp only [Forest.names, List.contains_cons, Bool.or_eq_false_iff, beq_eq_false_iff_ne,
      ne_eq] at h
    simp only [Forest.find, if_neg (Ne.symm h.1), ih h.2]

theorem lookup_cons_none {g : Forest} {s : String} (h : g.find s = none) (r : List String) :
    g.lookup (s :: r) = none := by
  simp [Forest.lookup, h]

/-- The paths of a well-formed listing are the non-empty chains of names that lead to
an entry. -/
theorem mem_paths_iff (g : Forest) (hwf : g.wf = true) :
    ∀ (a q : List String), q ∈ g.paths a ↔
      ∃ rest, rest ≠ [] ∧ q = a ++ rest ∧ (g.lookup rest).isSome = true := by
  induction g with
  | nil =>
    intro a q
    simp only [Forest.paths, List.not_mem_nil, false_iff, not_exists, not_and]
    intro rest hne _
    cases rest with
    | nil => exact absurd rfl hne
    | cons s r => simp [Forest.lookup, Forest.find]
  | file n c m rest ih =>
    intro a q
    simp only [Forest.wf, Bool.and_eq_true, Bool.not_eq_true'] at hwf
    obtain ⟨⟨hn, hnot⟩, hrest⟩ := hwf
    simp only [Forest.paths, List.mem_cons, ih hrest]
    constructor
    · rintro (h | ⟨r, hne, hq, hl⟩)
      · exact ⟨[n], by simp, h, by simp [Forest.lookup, Forest.find]⟩
      · refine ⟨r, hne, hq, ?_⟩
        cases r with
        | nil => exact absurd rfl hne
        | cons s r =>
          have hsn : n ≠ s := by
            intro he; subst he
            rw [lookup_cons_none (find_eq_none hnot)] at hl
            simp at hl
          simpa [Forest.lookup, Forest.find, hsn] using hl
    · rintro ⟨r, hne, hq, hl⟩
      cases r with
      | nil => exact absurd rfl hne
      | cons s r =>
        by_cases hsn : n = s
        · subst hsn
          left
          simp only [Forest.lookup, Forest.find, if_true] at hl
          by_cases hr : r = []
          · subst hr; exact hq
          · simp [hr] at hl
        · right
          refine ⟨s :: r, hne, hq, ?_⟩
          simpa [Forest.lookup, Forest.find, hsn] using hl
  | dir n sub rest ihsub ihrest =>
    intro a q
    simp only [Forest.wf, Bool.and_eq_true, Bool.not_eq_true'] at hwf
    obtain ⟨⟨⟨hn, hnot⟩, hsub⟩, hrest⟩ := hwf
    simp only [Forest.paths, List.cons_append, List.mem_cons, List.mem_append, ihsub hsub,
      ihrest hrest]
    constructor
    · rintro (h | ⟨r, hne, hq, hl⟩ | ⟨r, hne, hq, hl⟩)
      · exact ⟨[n], by simp, h, by simp [Forest.lookup, Forest.find]⟩
      · refine ⟨n :: r, by simp, by simpa using hq, ?_⟩
        simpa [Forest.lookup, Forest.find] using hl
      · refine ⟨r, hne, hq, ?_⟩
        cases r with
        | nil => exact absurd rfl hne
        | cons s r =>
          have hsn : n ≠ s := by
            intro he; subst he
            rw [lookup_cons_none (find_eq_none hnot)] at hl
            simp at hl
          simpa [Forest.lookup, Forest.find, hsn] using hl
    · rintro ⟨r, hne, hq, hl⟩
      cases r with
      | nil => exact absurd rfl hne
      | cons s r =>
        by_cases hsn : n = s
        · subst hsn
          simp only [Forest.lookup, Forest.find, if_true] at hl
          by_cases hr : r = []
          · subst hr; left; exact hq
          · right; left
            exact ⟨r, hr, by simpa using hq, hl⟩
        · right; right
          refine ⟨s :: r, hne, hq, ?_⟩
          simpa [Forest.lookup, Forest.find, hsn] using hl

theorem paths_prefix (g : Forest) :
    ∀ (a q : List String), q ∈ g.paths a → ∃ n, n ∈ g.names ∧ (a ++ [n]) <+: q := by
  induction g with
  | nil => intro a q h; simp [Forest.paths] at h
  | file n c m rest ih =>
    intro a q h
    simp only [Forest.paths, List.mem_cons] at h
    rcases h with h | h
    · exact ⟨n, by simp [Forest.names], by rw [h]⟩
    · obtain ⟨k, hk, hp⟩ := ih a q h
      exact ⟨k, by simp [Forest.names, hk], hp⟩
  | dir n sub rest ihsub ihrest =>
    intro a q h
    simp only [Forest.paths, List.cons_append, List.mem_cons, List.mem_append] at h
    rcases h with h | h | h
    · exact ⟨n, by simp [Forest.names], by rw [h]⟩
    · obtain ⟨k, _, hp⟩ := ihsub (a ++ [n]) q h
      exact ⟨n, by simp [Forest.names], (List.prefix_append _ _).trans hp⟩
    · obtain ⟨k, hk, hp⟩ := ihrest a q h
      exact ⟨k, by simp [Forest.names, hk], hp⟩

theorem prefix_child_inj {a x : List String} {n k : String} (h1 : (a ++ [n]) <+: x)
    (h2 : (a ++ [k]) <+: x) : n = k := by
  have h := List.prefix_of_prefix_length_le h1 h2 (by simp)
  have he := h.eq_of_length (by simp)
  simpa using he

theorem not_prefix_of_longer {a q : List String} {n : String} (h : (a ++ [n]) <+: q) :
    ¬ q <+: a := by
  intro hq
  have h1 := h.length_le
  have h2 := hq.length_le
  simp at h1
  omega

/-- No path of a well-formed listing is preceded by itself or by a path below it. -/
theorem paths_pairwise (g : Forest) (hwf : g.wf = true) :
    ∀ (a : List String), (g.paths a).Pairwise (fun x y => ¬ y <+: x) := by
  induction g with
  | nil => intro a; simp [Forest.paths]
  | file n c m rest ih =>
    intro a
    simp only [Forest.wf, Bool.and_eq_true, Bool.not_eq_true'] at hwf
    obtain ⟨⟨hn, hnot⟩, hrest⟩ := hwf
    simp only [Forest.paths, List.pairwise_cons]
    refine ⟨?_, ih hrest a⟩
    intro y hy hpre
    obtain ⟨k, hk, hp⟩ := paths_prefix rest a y hy
    have : k = n := prefix_child_inj (hp.trans hpre) (List.prefix_refl _)
    subst this
    simp at hnot
    exact hnot hk
  | dir n sub rest ihsub ihrest =>
    intro a
    simp only [Forest.wf, Bool.and_eq_true, Bool.not_eq_true'] at hwf
    obtain ⟨⟨⟨hn, hnot⟩, hsub⟩, hrest⟩ := hwf
    simp only [Forest.paths, List.cons_append, List.pairwise_cons, List.pairwise_append,
      List.mem_append]
    refine ⟨?_, ihsub hsub _, ihrest hrest a, ?_⟩
    · rintro y (hy | hy) hpre
      · obtain ⟨k, _, hp⟩ := paths_prefix sub (a ++ [n]) y hy
        exact not_prefix_of_longer hp hpre
      · obtain ⟨k, hk, hp⟩ := paths_prefix rest a y hy
        have : k = n := prefix_child_inj (hp.trans hpre) (List.prefix_refl _)
        subst this
        simp at hnot
        exact hnot hk
    · intro x hx y hy hpre
      obtain ⟨j, _, hpx⟩ := paths_prefix sub (a ++ [n]) x hx
      obtain ⟨k, hk, hpy⟩ := paths_prefix rest a y hy
      have : k = n := prefix_child_inj (hpy.trans hpre) ((List.prefix_append _ _).trans hpx)
      subst this
      simp at hnot
      exact hnot hk

theorem lookup_append_file {fs : Forest} {a : List String} {c : String} {m : Nat}
    (h : fs.lookup a = some (.file c m)) {xs : List String} (hx : xs ≠ []) :
    fs.lookup (a ++ xs) = none := by
  induction a generalizing fs with
  | nil => simp [Forest.lookup] at h
  | cons s a ih =>
    simp only [List.cons_append, Forest.lookup] at h ⊢
    cases hf : fs.find s with
    | none => rfl
    | some st =>
      cases st with
      | file c' m' =>
        simp only [hf] at h ⊢
        have ha : a = [] := by
          by_contra hne
          simp [hne] at h
        subst ha
        simp [hx]
      | dir sub =>
        simp only [hf] at h ⊢
        exact ih h

theorem statAt_some {cwd : Path} {fs : Forest} {p : Path} {st : Stat}
    (h : statAt cwd fs p = some st) :
    p ≠ Path.empty ∧ (resolve cwd p).root = cwd.root ∧ fs.lookup (resolve cwd p).segs = some st := by
  unfold statAt at h
  split at h
  · simp at h
  · rename_i hne
    simp only at h
    split at h
    · rename_i hr; exact ⟨hne, hr, h⟩
    · simp at h

theorem walk_entries {cwd : Path} {fs : Forest} {p : Path} {st : Stat}
    (hst : statAt cwd fs p = some st) (hwf : st.wf = true) :
    ∀ fuel, st.depth ≤ fuel → walk cwd fs fuel p = .ok (st.entries p) := by
  obtain ⟨hne, hroot, hlook⟩ := statAt_some hst
  have hres : resolve cwd p = ⟨cwd.root, (resolve cwd p).segs⟩ := by rw [← hroot]
  intro fuel hf
  cases st with
  | file c m =>
    simp only [Stat.depth] at hf
    obtain ⟨f, rfl⟩ : ∃ f, fuel = f + 1 := ⟨fuel - 1, by omega⟩
    rw [walk_succ, hst]; rfl
  | dir ch =>
    simp only [Stat.depth] at hf
    simp only [Stat.wf] at hwf
    obtain ⟨f, rfl⟩ : ∃ f, fuel = f + 1 := ⟨fuel - 1, by omega⟩
    rw [walk_succ, hst]
    simp only
    rw [walk_children fs ch hwf p _ ch f hne hres hlook (agrees_refl ch) (by omega)]
    rfl

theorem walk_unique {cwd : Path} {fs : Forest} {p : Path} {st : Stat}
    (hst : statAt cwd fs p = some st) (hwf : st.wf = true) {fuel : Nat} {entries : List Path}
    (hwalk : walk cwd fs fuel p = .ok entries) : entries = st.entries p := by
  have h1 := walk_mono cwd fs fuel (max fuel st.depth) (le_max_left _ _) p entries hwalk
  have h2 := walk_entries hst hwf (max fuel st.depth) (le_max_right _ _)
  rw [h1] at h2
  exact Except.ok.inj h2

theorem walkLists_root {cwd : Path} (g : Forest) (hwf : g.wf = true) :
    ∀ (cur : Path) (a : List String), cur ≠ Path.empty → resolve cwd cur = ⟨cwd.root, a⟩ →
      ∀ e ∈ (g.walkLists cur).flatten, (resolve cwd e).root = cwd.root := by
  induction g with
  | nil => intro cur a _ _ e h; simp [Forest.walkLists] at h
  | file n c m rest ih =>
    intro cur a hcur hres e h
    simp only [Forest.wf, Bool.and_eq_true, Bool.not_eq_true'] at hwf
    simp only [Forest.walkLists, List.flatten_cons, List.singleton_append, List.mem_cons] at h
    rcases h with h | h
    · rw [h, resolve_child hcur hres hwf.1.1]
    · exact ih hwf.2 cur a hcur hres e h
  | dir n sub rest ihsub ihrest =>
    intro cur a hcur hres e h
    simp only [Forest.wf, Bool.and_eq_true, Bool.not_eq_true'] at hwf
    have hres' := resolve_child hcur hres hwf.1.1.1
    simp only [Forest.walkLists, List.flatten_cons, List.cons_append, List.mem_cons,
      List.mem_append] at h
    rcases h with h | h | h
    · rw [h, hres']
    · exact ihsub hwf.1.2 _ _ (join_ne_empty _ _) hres' e h
    · exact ihrest hwf.2 cur a hcur hres e h

theorem walkLists_ne_empty (g : Forest) :
    ∀ (cur : Path), ∀ e ∈ (g.walkLists cur).flatten, e ≠ Path.empty := by
  induction g with
  | nil => intro cur e h; simp [Forest.walkLists] at h
  | file n c m rest ih =>
    intro cur e h
    simp only [Forest.walkLists, List.flatten_cons, List.singleton_append, List.mem_cons] at h
    rcases h with h | h
    · rw [h]; exact join_ne_empty _ _
    · exact ih cur e h
  | dir n sub rest ihsub ihrest =>
    intro cur e h
    simp only [Forest.walkLists, List.flatten_cons, List.cons_append, List.mem_cons,
      List.mem_append] at h
    rcases h with h | h | h
    · rw [h]; exact join_ne_empty _ _
    · exact ihsub _ e h
    · exact ihrest cur e h

/-- The entries of the walk of the tree at `p`: none is the empty string, and resolved
they are the paths of the tree. -/
theorem entries_spec {cwd : Path} {fs : Forest} {p : Path} {st : Stat}
    (hst : statAt cwd fs p = some st) (hwf : st.wf = true) :
    (∀ e ∈ st.entries p, e ≠ Path.empty) ∧
      (st.entries p).map (fun e => (resolve cwd e).segs) = st.paths (resolve cwd p).segs ∧
      (∀ e ∈ st.entries p, (resolve cwd e).root = cwd.root) := by
  obtain ⟨hne, hroot, hlook⟩ := statAt_some hst
  have hres : resolve cwd p = ⟨cwd.root, (resolve cwd p).segs⟩ := by rw [← hroot]
  cases st with
  | file c m =>
    refine ⟨?_, rfl, ?_⟩
    · intro e he; simp only [Stat.entries, List.mem_singleton] at he; rw [he]; exact hne
    · intro e he; simp only [Stat.entries, List.mem_singleton] at he; rw [he]; exact hroot
  | dir ch =>
    simp only [Stat.wf] at hwf
    refine ⟨?_, ?_, ?_⟩
    · intro e he
      simp only [Stat.entries, List.mem_cons] at he
      rcases he with he | he
      · rw [he]; exact hne
      · exact walkLists_ne_empty ch p e he
    · simp only [Stat.entries, Stat.paths, List.map_cons,
        walkLists_resolved ch hwf p _ hne hres]
    · intro e he
      simp only [Stat.entries, List.mem_cons] at he
      rcases he with he | he
      · rw [he]; exact hroot
      · exact walkLists_root ch hwf p _ hne hres e he

theorem stat_paths_spec {fs : Forest} {a : List String} {st : Stat}
    (hlook : fs.lookup a = some st) (hwf : st.wf = true) :
    (∀ q, q ∈ st.paths a ↔ ∃ t, q = a ++ t ∧ (fs.lookup q).isSome = true) ∧
      (st.paths a).Pairwise (fun x y => ¬ y <+: x) := by
  cases st with
  | file c m =>
    refine ⟨?_, by simp [Stat.paths]⟩
    intro q
    simp only [Stat.paths, List.mem_singleton]
    constructor
    · intro h; subst h
      exact ⟨[], by simp, by simp [hlook]⟩
    · rintro ⟨rest, hq, hl⟩
      by_cases hr : rest = []
      · subst hr; simpa using hq
      · rw [hq, lookup_append_file hlook hr] at hl
        simp at hl
  | dir ch =>
    simp only [Stat.wf] at hwf
    refine ⟨?_, ?_⟩
    · intro q
      simp only [Stat.paths, List.mem_cons]
      rw [mem_paths_iff ch hwf]
      constructor
      · rintro (h | ⟨rest, _, hq, hl⟩)
        · subst h
          exact ⟨[], by simp, by simp [hlook]⟩
        · refine ⟨rest, hq, ?_⟩
          rw [hq, lookup_append hlook]
          exact hl
      · rintro ⟨rest, hq, hl⟩
        by_cases hr : rest = []
        · subst hr; left; simpa using hq
        · right
          refine ⟨rest, hr, hq, ?_⟩
          rw [hq, lookup_append hlook] at hl
          exact hl
    · simp only [Stat.paths, List.pairwise_cons]
      refine ⟨?_, paths_pairwise ch hwf _⟩
      intro y hy hpre
      obtain ⟨k, _, hp⟩ := paths_prefix ch _ y hy
      exact not_prefix_of_longer hp hpre

/-- C9: for a tree without links whose directories list distinct names, `walk(p)` returns
(at any recursion bound of at least the depth of the tree) `[p]` when `p` is not a
directory and otherwise `p` followed by the concatenation of the walks of the children of
`p` in listing order; the result has as many entries as the tree has non-directory entries
and directories together; resolved, its entries are exactly the existing paths at or
below `p`; and no entry is preceded by itself or by an entry below it, so each appears
once and every directory appears before each of its descendants. -/
theorem walk_preorder (cwd : Path) (fs : Forest) (p : Path) (st : Stat)
    (hst : statAt cwd fs p = some st) (hwf : st.wf = true) :
    ∃ l, (∀ fuel, st.depth ≤ fuel → walk cwd fs fuel p = .ok l) ∧
      (∀ c m, st = .file c m → l = [p]) ∧
      (∀ ch, st = .dir ch → ∃ ls,
        (∀ fuel, ch.height ≤ fuel →
          ch.names.mapM (fun child => walk cwd fs fuel (join p (Path.rel [child]))) = .ok ls) ∧
        l = p :: ls.flatten) ∧
      l.length = st.numFiles + st.numDirs ∧
      (∀ q, q ∈ l.map (fun e => (resolve cwd e).segs) ↔
        ∃ rest, q = (resolve cwd p).segs ++ rest ∧ (fs.lookup q).isSome = true) ∧
      (l.map (fun e => (resolve cwd e).segs)).Pairwise (fun x y => ¬ y <+: x) := by
  obtain ⟨hne, hroot, hlook⟩ := statAt_some hst
  obtain ⟨_, hmap, _⟩ := entries_spec hst hwf
  obtain ⟨hmem, hpw⟩ := stat_paths_spec hlook hwf
  refine ⟨st.entries p, walk_entries hst hwf, ?_, ?_, ?_, ?_, ?_⟩
  · intro c m h; subst h; rfl
  · intro ch h
    subst h
    have hres : resolve cwd p = ⟨cwd.root, (resolve cwd p).segs⟩ := by rw [← hroot]
    exact ⟨ch.walkLists p, fun fuel hf =>
      walk_children fs ch hwf p _ ch fuel hne hres hlook (agrees_refl ch) hf, rfl⟩
  · cases st with
    | file c m => rfl
    | dir ch =>
      simp only [Stat.entries, List.length_cons, walkLists_length, Stat.numFiles, Stat.numDirs]
      omega
  · intro q; rw [hmap]; exact hmem q
  · rw [hmap]; exact hpw

/-- An instance of `walk_preorder`: the walk of `/proj` in the example tree. -/
theorem walk_preorder_witness :
    ∃ l, (∀ fuel, 4 ≤ fuel → walk exampleCwd exampleFs fuel (Path.rel ["..", ".."]) = .ok l) ∧
      l.length = 0 + 5 ∧
      (l.map (fun e => (resolve exampleCwd e).segs)).Pairwise (fun x y => ¬ y <+: x) := by
  obtain ⟨l, h1, _, _, h4, _, h6⟩ := walk_preorder exampleCwd exampleFs (Path.rel ["..", ".."])
    (.dir (.dir "app" (.dir "src" .nil .nil)
      (.dir "node_modules" (.dir "react-native-windows" .nil .nil) .nil)))
    (by decide) (by decide)
  exact ⟨l, fun fuel hf => h1 fuel (le_trans (by decide) hf), h4, h6⟩

/-! ## Creating directories and writing files -/

theorem ext_refl (f : Forest) : Ext f f :=
  ⟨fun _ _ _ => Iff.rfl, fun _ ch h => ⟨ch, h⟩⟩

theorem ext_trans {f g h : Forest} (h1 : Ext f g) (h2 : Ext g h) : Ext f h := by
  refine ⟨fun q c m => (h2.1 q c m).trans (h1.1 q c m), ?_⟩
  intro q ch hq
  obtain ⟨ch', h'⟩ := h1.2 q ch hq
  exact h2.2 q ch' h'

theorem lookup_nil_not_file (q : List String) (c : String) (m : Nat) :
    Forest.nil.lookup q ≠ some (.file c m) := by
  cases q <;> simp [Forest.lookup, Forest.find]

theorem lookup_cons_dir {f : Forest} {s : String} {ch : Forest}
    (h : f.find s = some (.dir ch)) (r : List String) : f.lookup (s :: r) = ch.lookup r := by
  simp [Forest.lookup, h]

/-- Lifting `Ext` from the entries of a listing to the listing. -/
theorem ext_of_find {f f' : Forest}
    (h : ∀ k, f'.find k = f.find k ∨
      (∃ ch ch', f.find k = some (.dir ch) ∧ f'.find k = some (.dir ch') ∧ Ext ch ch') ∨
      (∃ ch', f.find k = none ∧ f'.find k = some (.dir ch') ∧ Ext .nil ch')) :
    Ext f f' := by
  constructor
  · intro q c m
    cases q with
    | nil => simp [Forest.lookup]
    | cons k r =>
      rcases h k with he | ⟨ch, ch', h1, h2, hx⟩ | ⟨ch', h1, h2, hx⟩
      · simp only [Forest.lookup, he]
      · rw [lookup_cons_dir h1, lookup_cons_dir h2]
        exact hx.1 r c m
      · rw [lookup_cons_dir h2, lookup_cons_none h1]
        constructor
        · intro hf
          exact absurd ((hx.1 r c m).1 hf) (lookup_nil_not_file r c m)
        · intro hf; simp at hf
  · intro q ch hq
    cases q with
    | nil => exact ⟨f', rfl⟩
    | cons k r =>
      rcases h k with he | ⟨ch0, ch', h1, h2, hx⟩ | ⟨ch', h1, h2, hx⟩
      · refine ⟨ch, ?_⟩
        simp only [Forest.lookup, he] at hq ⊢
        exact hq
      · rw [lookup_cons_dir h1] at hq
        rw [lookup_cons_dir h2]
        exact hx.2 r ch hq
      · rw [lookup_cons_none h1] at hq
        simp at hq

theorem find_snoc (f e : Forest) (k : String) :
    (f.snoc e).find k = match f.find k with
      | some st => some st
      | none => e.find k := by
  induction f with
  | nil => simp [Forest.snoc, Forest.find]
  | file n c m rest ih =>
    simp only [Forest.snoc, Forest.find]
    split
    · rfl
    · exact ih
  | dir n sub rest _ ih =>
    simp only [Forest.snoc, Forest.find]
    split
    · rfl
    · exact ih

theorem modifyDir_spec {f f' : Forest} {s : String} {g : Forest → Except Err Forest}
    (h : f.modifyDir s g = .ok f') :
    ∃ ch ch', f.find s = some (.dir ch) ∧ g ch = .ok ch' ∧ f'.find s = some (.dir ch') ∧
      ∀ k, k ≠ s → f'.find k = f.find k := by
  induction f generalizing f' with
  | nil => simp [Forest.modifyDir] at h
  | file n c m rest ih =>
    simp only [Forest.modifyDir] at h
    split at h
    · simp at h
    · rename_i hne
      cases hr : rest.modifyDir s g with
      | error e => simp [hr, Except.map] at h
      | ok r' =>
        simp only [hr, Except.map, Except.ok.injEq] at h
        subst h
        obtain ⟨ch, ch', h1, h2, h3, h4⟩ := ih hr
        refine ⟨ch, ch', ?_, h2, ?_, ?_⟩
        · simp [Forest.find, hne, h1]
        · simp [Forest.find, hne, h3]
        · intro k hk
          simp only [Forest.find]
          split
          · rfl
          · exact h4 k hk
  | dir n sub rest _ ih =>
    simp only [Forest.modifyDir] at h
    split at h
    · rename_i heq
      subst heq
      cases hg : g sub with
      | error e => simp [hg, Except.map] at h
      | ok sub' =>
        simp only [hg, Except.map, Except.ok.injEq] at h
        subst h
        refine ⟨sub, sub', by simp [Forest.find], hg, by simp [Forest.find], ?_⟩
        intro k hk
        simp [Forest.find, Ne.symm hk]
    · rename_i hne
      cases hr : rest.modifyDir s g with
      | error e => simp [hr, Except.map] at h
      | ok r' =>
        simp only [hr, Except.map, Except.ok.injEq] at h
        subst h
        obtain ⟨ch, ch', h1, h2, h3, h4⟩ := ih hr
        refine ⟨ch, ch', ?_, h2, ?_, ?_⟩
        · simp [Forest.find, hne, h1]
        · simp [Forest.find, hne, h3]
        · intro k hk
          simp only [Forest.find]
          split
          · rfl
          · exact h4 k hk

theorem modifyDir_ok {f : Forest} {s : String} {g : Forest → Except Err Forest}
    {ch ch' : Forest} (h1 : f.find s = some (.dir ch)) (h2 : g ch = .ok ch') :
    ∃ f', f.modifyDir s g = .ok f' := by
  induction f with
  | nil => simp [Forest.find] at h1
  | file n c m rest ih =>
    simp only [Forest.find] at h1
    split at h1
    · simp at h1
    · rename_i hne
      obtain ⟨r', hr⟩ := ih h1
      exact ⟨.file n c m r', by simp [Forest.modifyDir, hne, hr, Except.map]⟩
  | dir n sub rest _ ih =>
    simp only [Forest.find] at h1
    split at h1
    · rename_i heq
      simp only [Option.some.injEq, Stat.dir.injEq] at h1
      subst h1
      exact ⟨.dir n ch' rest, by simp [Forest.modifyDir, heq, h2, Except.map]⟩
    · rename_i hne
      obtain ⟨r', hr⟩ := ih h1
      exact ⟨.dir n sub r', by simp [Forest.modifyDir, hne, hr, Except.map]⟩

theorem mkdirAt_cons (s : String) {t : List String} (ht : t ≠ []) (f : Forest) :
    Forest.mkdirAt (s :: t) f = f.modifyDir s (Forest.mkdirAt t) := by
  cases t with
  | nil => exact absurd rfl ht
  | cons m rest => rfl

theorem ext_snoc_dir (f : Forest) (n : String) {ch' : Forest}
    (hx : Ext .nil ch') : Ext f (f.snoc (.dir n ch' .nil)) := by
  apply ext_of_find
  intro k
  rw [find_snoc]
  cases hk : f.find k with
  | some st => left; rfl
  | none =>
    by_cases hkn : n = k
    · subst hkn
      right; right
      exact ⟨ch', rfl, by simp [Forest.find], hx⟩
    · left
      simp [Forest.find, hkn]

theorem ext_modifyDir {f f' : Forest} {s : String} {ch ch' : Forest}
    (h1 : f.find s = some (.dir ch)) (h3 : f'.find s = some (.dir ch'))
    (h4 : ∀ k, k ≠ s → f'.find k = f.find k) (hx : Ext ch ch') : Ext f f' := by
  apply ext_of_find
  intro k
  by_cases hk : k = s
  · subst hk
    right; left
    exact ⟨ch, ch', h1, h3, hx⟩
  · left; exact h4 k hk

/-- `mkdirSync` adds a directory and changes nothing else. -/
theorem mkdirAt_spec : ∀ (segs : List String) (f f' : Forest),
    Forest.mkdirAt segs f = .ok f' → Ext f f' ∧ ∃ ch, f'.lookup segs = some (.dir ch) := by
  intro segs
  induction segs with
  | nil => intro f f' h; simp [Forest.mkdirAt] at h
  | cons s t ih =>
    intro f f' h
    by_cases ht : t = []
    · subst ht
      simp only [Forest.mkdirAt] at h
      split at h
      · simp at h
      · rename_i hnone
        simp only [Except.ok.injEq] at h
        subst h
        have hf : f.find s = none := by simpa using hnone
        refine ⟨ext_snoc_dir f s (ext_refl _), .nil, ?_⟩
        have : (f.snoc (.dir s .nil .nil)).find s = some (.dir .nil) := by
          rw [find_snoc, hf]; simp [Forest.find]
        rw [lookup_cons_dir this]; rfl
    · rw [mkdirAt_cons s ht] at h
      obtain ⟨ch, ch', h1, h2, h3, h4⟩ := modifyDir_spec h
      obtain ⟨hx, d, hd⟩ := ih ch ch' h2
      refine ⟨ext_modifyDir h1 h3 h4 hx, d, ?_⟩
      rw [lookup_cons_dir h3]; exact hd

theorem mkdirAt_ok : ∀ (ps : List String) (f pch : Forest) (n : String),
    f.lookup ps = some (.dir pch) → pch.find n = none →
    ∃ f', Forest.mkdirAt (ps ++ [n]) f = .ok f' := by
  intro ps
  induction ps with
  | nil =>
    intro f pch n h hn
    simp only [Forest.lookup, Option.some.injEq, Stat.dir.injEq] at h
    subst h
    exact ⟨f.snoc (.dir n .nil .nil), by simp [Forest.mkdirAt, hn]⟩
  | cons s t ih =>
    intro f pch n h hn
    rw [List.cons_append, mkdirAt_cons s (by simp)]
    cases hf : f.find s with
    | none => simp [Forest.lookup, hf] at h
    | some st =>
      cases st with
      | file c m =>
        simp only [Forest.lookup, hf] at h
        split at h <;> simp at h
      | dir ch =>
        rw [lookup_cons_dir hf] at h
        obtain ⟨ch', hch'⟩ := ih ch pch n h hn
        exact modifyDir_ok hf hch'

/-- `mkdirSync` with `recursive` adds directories only and leaves every prefix of the
path a directory. -/
theorem mkdirP_spec : ∀ (segs : List String) (f f' : Forest),
    Forest.mkdirP segs f = .ok f' →
    Ext f f' ∧ ∀ pre, pre <+: segs → ∃ ch, f'.lookup pre = some (.dir ch) := by
  intro segs
  induction segs with
  | nil =>
    intro f f' h
    simp only [Forest.mkdirP, Except.ok.injEq] at h
    subst h
    refine ⟨ext_refl _, ?_⟩
    intro pre hpre
    have : pre = [] := List.prefix_nil.1 hpre
    subst this
    exact ⟨f, rfl⟩
  | cons s t ih =>
    intro f f' h
    simp only [Forest.mkdirP] at h
    cases hf : f.find s with
    | none =>
      simp only [hf] at h
      cases hm : Forest.mkdirP t .nil with
      | error e => simp [hm, Except.map] at h
      | ok ch' =>
        simp only [hm, Except.map, Except.ok.injEq] at h
        subst h
        obtain ⟨hx, hpre⟩ := ih .nil ch' hm
        refine ⟨ext_snoc_dir f s hx, ?_⟩
        intro pre hp
        cases pre with
        | nil => exact ⟨_, rfl⟩
        | cons k r =>
          have hk : k = s ∧ r <+: t := by
            simpa [List.cons_prefix_cons] using hp
          obtain ⟨rfl, hr⟩ := hk
          have : (f.snoc (.dir k ch' .nil)).find k = some (.dir ch') := by
            rw [find_snoc, hf]; simp [Forest.find]
          rw [lookup_cons_dir this]
          exact hpre r hr
    | some st =>
      cases st with
      | file c m => simp [hf] at h
      | dir ch =>
        simp only [hf] at h
        obtain ⟨ch0, ch', h1, h2, h3, h4⟩ := modifyDir_spec h
        obtain ⟨hx, hpre⟩ := ih ch0 ch' h2
        refine ⟨ext_modifyDir h1 h3 h4 hx, ?_⟩
        intro pre hp
        cases pre with
        | nil => exact ⟨_, rfl⟩
        | cons k r =>
          have hk : k = s ∧ r <+: t := by
            simpa [List.cons_prefix_cons] using hp
          obtain ⟨rfl, hr⟩ := hk
          rw [lookup_cons_dir h3]
          exact hpre r hr

theorem putFile_spec {f f' : Forest} {n c : String} {md : Nat} {sm : Bool}
    (h : f.putFile n c md sm = .ok f') :
    ∃ md', f'.find n = some (.file c md') ∧ (sm = true → md' = md) := by
  induction f generalizing f' with
  | nil =>
    simp only [Forest.putFile, Except.ok.injEq] at h
    subst h
    exact ⟨md, by simp [Forest.find], fun _ => rfl⟩
  | file k c' md' rest ih =>
    simp only [Forest.putFile] at h
    split at h
    · rename_i heq
      simp only [Except.ok.injEq] at h
      subst h
      exact ⟨if sm = true then md else md', by simp [Forest.find, heq], fun hs => by simp [hs]⟩
    · rename_i hne
      cases hr : rest.putFile n c md sm with
      | error e => simp [hr, Except.map] at h
      | ok r' =>
        simp only [hr, Except.map, Except.ok.injEq] at h
        subst h
        obtain ⟨m', hm', hs'⟩ := ih hr
        exact ⟨m', by simp [Forest.find, hne, hm'], hs'⟩
  | dir k sub rest _ ih =>
    simp only [Forest.putFile] at h
    split at h
    · simp at h
    · rename_i hne
      cases hr : rest.putFile n c md sm with
      | error e => simp [hr, Except.map] at h
      | ok r' =>
        simp only [hr, Except.map, Except.ok.injEq] at h
        subst h
        obtain ⟨m', hm', hs'⟩ := ih hr
        exact ⟨m', by simp [Forest.find, hne, hm'], hs'⟩

theorem writeAt_cons (c : String) (md : Nat) (sm : Bool) (s : String) {t : List String}
    (ht : t ≠ []) (f : Forest) :
    Forest.writeAt c md sm (s :: t) f = f.modifyDir s (Forest.writeAt c md sm t) := by
  cases t with
  | nil => exact absurd rfl ht
  | cons m rest => rfl

/-- After a write the path holds a file with the content written, and with the mode
written when the write sets the mode. -/
theorem writeAt_spec (c : String) (md : Nat) (sm : Bool) :
    ∀ (segs : List String) (f f' : Forest),
    Forest.writeAt c md sm segs f = .ok f' →
    ∃ md', f'.lookup segs = some (.file c md') ∧ (sm = true → md' = md) := by
  intro segs
  induction segs with
  | nil => intro f f' h; simp [Forest.writeAt] at h
  | cons s t ih =>
    intro f f' h
    by_cases ht : t = []
    · subst ht
      simp only [Forest.writeAt] at h
      obtain ⟨md', hm, hs⟩ := putFile_spec h
      exact ⟨md', by simp [Forest.lookup, hm], hs⟩
    · rw [writeAt_cons c md sm s ht] at h
      obtain ⟨ch, ch', _, h2, h3, _⟩ := modifyDir_spec h
      obtain ⟨md', hm, hs⟩ := ih ch ch' h2
      exact ⟨md', by rw [lookup_cons_dir h3]; exact hm, hs⟩
/-! ## C2: `resolveContents` -/

/-- The substitutions `[("A","B"), ("B","C")]` applied to the content `AA` give `CC`: the
second pattern works on the output of the first. -/
theorem resolveContents_sequential :
    resolveContents ⟨some .posix, ["proj"]⟩ (oneFileFs "AA") (Path.rel ["a.txt"])
        [("A", "B"), ("B", "C")] = .ok "CC" := by
  decide

/-- C2 fails in the code when a replacement contains `$`: the replacement is passed to
`String.prototype.replace` as it is, which reads `$$`, `$&` and the like in it as
patterns, so `resolveContents("a.txt", {"A": "$$"})` on the content `A` returns `$`,
where the match replaced by the replacement is `$$`.

The script passes relative paths as replacements. Run in `/proj/a$$b`, with the manifest
there and the modules in `/proj/node_modules`: the template of `PropertySheet.props` is
`$(ManifestRootPath)`, the value of `$(ManifestRootPath)` is `../../../../a$$b`, and the
content written for `PropertySheet.props`, by the second operation issued, is
`../../../../a$b`. -/
theorem resolveContents_expands_dollar :
    resolveContents ⟨some .posix, ["proj"]⟩ (oneFileFs "A") (Path.rel ["a.txt"])
        [("A", "$$")] = .ok "$" ∧
    readFileSync ⟨some .posix, ["proj", "a$$b"]⟩ (projectFs "a$$b")
        (Path.rel ["..", "node_modules", "react-native-test-app", "windows", "ReactTestApp",
          "PropertySheet.props"]) = .ok "$(ManifestRootPath)" ∧
    renderReplacements ⟨some .posix, ["proj", "a$$b"]⟩
        (projectFilesReplacementPaths ⟨some .posix, ["proj", "a$$b"]⟩
          (Path.rel ["..", "node_modules"])
          (Path.rel ["..", "node_modules", "react-native-windows"])
          (Path.rel ["..", "node_modules", "react-native-test-app"]) (Path.rel ["app.json"]))
      = [("\\$\\(ManifestRootPath\\)", "../../../../a$$b"),
         ("\\$\\(ReactNativeModulePath\\)", "../../../react-native-windows"),
         ("\\$\\(SourceFilesPath\\)", "../../../react-native-test-app/windows/ReactTestApp")] ∧
    (script ⟨some .posix, ["proj", "a$$b"]⟩ (projectFs "a$$b") 10
        (fun _ => some (.obj []))).map (fun run => run.ops[1]?)
      = some (some (Op.writeFile
          ⟨some .posix, ["proj", "node_modules", ".generated", "windows", "ReactTestApp",
            "PropertySheet.props"]⟩ "../../../../a$b" 420)) := by
  decide

/-! ## C5, C6: `copyAndReplace`; C7: the checks of `copyProjectTemplateAndReplace` -/

theorem putFile_ok {f : Forest} {n : String} (h : ∀ ch, f.find n ≠ some (.dir ch))
    (c : String) (md : Nat) (sm : Bool) : ∃ f', f.putFile n c md sm = .ok f' := by
  induction f with
  | nil => exact ⟨_, rfl⟩
  | file k c' md' rest ih =>
    by_cases hk : k = n
    · exact ⟨.file k c (if sm = true then md else md') rest, by simp [Forest.putFile, hk]⟩
    · have : ∀ ch, rest.find n ≠ some (.dir ch) := by
        intro ch hch; apply h ch; simp [Forest.find, hk, hch]
      obtain ⟨r', hr⟩ := ih this
      exact ⟨.file k c' md' r', by simp [Forest.putFile, hk, hr, Except.map]⟩
  | dir k sub rest _ ih =>
    by_cases hk : k = n
    · exact absurd (by simp [Forest.find, hk]) (h sub)
    · have : ∀ ch, rest.find n ≠ some (.dir ch) := by
        intro ch hch; apply h ch; simp [Forest.find, hk, hch]
      obtain ⟨r', hr⟩ := ih this
      exact ⟨.dir k sub r', by simp [Forest.putFile, hk, hr, Except.map]⟩

theorem writeAt_ok (c : String) (md : Nat) (sm : Bool) :
    ∀ (ps : List String) (f pch : Forest) (n : String),
    f.lookup ps = some (.dir pch) → (∀ ch, pch.find n ≠ some (.dir ch)) →
    ∃ f', Forest.writeAt c md sm (ps ++ [n]) f = .ok f' := by
  intro ps
  induction ps with
  | nil =>
    intro f pch n h hn
    simp only [Forest.lookup, Option.some.injEq, Stat.dir.injEq] at h
    subst h
    exact putFile_ok hn c md sm
  | cons s t ih =>
    intro f pch n h hn
    rw [List.cons_append, writeAt_cons c md sm s (by simp)]
    cases hf : f.find s with
    | none => simp [Forest.lookup, hf] at h
    | some st =>
      cases st with
      | file c' m' =>
        simp only [Forest.lookup, hf] at h
        split at h <;> simp at h
      | dir ch =>
        rw [lookup_cons_dir hf] at h
        obtain ⟨ch', hch'⟩ := ih ch pch n h hn
        exact modifyDir_ok hf hch'

theorem isDir_iff {cwd : Path} {fs : Forest} {p : Path} :
    isDir cwd fs p = true ↔ ∃ ch, statAt cwd fs p = some (.dir ch) := by
  unfold isDir
  cases h : statAt cwd fs p with
  | none => simp
  | some st => cases st <;> simp

/-- What the parent directory and the last name of a resolved path are. -/
theorem parent_split {cwd : Path} (hc : AbsNormal cwd) {fs : Forest} {full : Path}
    (hpar : isDir cwd fs (dirname (resolve cwd full)) = true)
    (hnot : ¬ ((resolve cwd full).segs = [])) :
    ∃ ps n pch, (resolve cwd full).segs = ps ++ [n] ∧ (resolve cwd full).root = cwd.root ∧
      fs.lookup ps = some (.dir pch) := by
  have ha := resolve_absNormal hc full
  obtain ⟨pch, hst⟩ := isDir_iff.1 hpar
  obtain ⟨_, hroot, hlook⟩ := statAt_some hst
  rw [resolve_of_absNormal cwd (dirname_absNormal_absNormal ha), dirname_absNormal ha] at hroot hlook
  simp only at hroot hlook
  exact ⟨_, _, pch, (List.dropLast_append_getLast hnot).symm, hroot, hlook⟩

/-- C5: for a source file whose extension is `.png` or `.pfx`, whatever the
substitutions, `copyAndReplace` changes nothing synchronously and issues one operation,
the copy of the source to `join(destPath, relativeDestPath)`; when the copy completes the
destination holds the content of the source, and it completes whenever the parent of the
destination is a directory and the destination is not one. -/
theorem copyAndReplace_binary (cwd : Path) (fs : Forest)
    (srcPath destPath relativeDestPath : Path) (replacements : Replacements)
    (content : String) (mode : Nat) (hc : cwd.isAbsNormal = true)
    (hfile : statAt cwd fs srcPath = some (.file content mode))
    (hext : extname srcPath = ".png" ∨ extname srcPath = ".pfx") :
    copyAndReplace cwd fs srcPath destPath relativeDestPath replacements
        = .ok (fs, [Op.copyFile srcPath (join destPath relativeDestPath)]) ∧
      (∀ fs', applyOp cwd fs (Op.copyFile srcPath (join destPath relativeDestPath)) = .ok fs' →
        readFileSync cwd fs' (join destPath relativeDestPath) = .ok content) ∧
      (isDir cwd fs (dirname (resolve cwd (join destPath relativeDestPath))) = true →
        isDir cwd fs (join destPath relativeDestPath) = false →
        ∃ fs', applyOp cwd fs (Op.copyFile srcPath (join destPath relativeDestPath)) = .ok fs') := by
  have hc' : AbsNormal cwd := (absNormal_iff cwd).1 hc
  refine ⟨?_, ?_, ?_⟩
  · have hmem : extname srcPath ∈ binaryExtensions := by
      rcases hext with h | h <;> rw [h] <;> decide
    simp [copyAndReplace, lstatIsDirectory, hfile, bind, Except.bind, pure, Except.pure, hmem]
  · intro fs' h
    simp only [applyOp, hfile] at h
    split at h
    · simp at h
    · rename_i hcond
      simp only [not_or, not_not] at hcond
      obtain ⟨md', hm, _⟩ := writeAt_spec content mode true _ fs fs' h
      simp [readFileSync, statAt, hcond.1, hcond.2, hm]
  · intro hpar hnd
    have hne : join destPath relativeDestPath ≠ Path.empty := join_ne_empty _ _
    have hnot : ¬ ((resolve cwd (join destPath relativeDestPath)).segs = []) := by
      intro hnil
      obtain ⟨pch, hst⟩ := isDir_iff.1 hpar
      obtain ⟨_, hroot, hlook⟩ := statAt_some hst
      have ha := resolve_absNormal hc' (join destPath relativeDestPath)
      rw [resolve_of_absNormal cwd (dirname_absNormal_absNormal ha), dirname_absNormal ha]
        at hroot
      simp only at hroot
      have : isDir cwd fs (join destPath relativeDestPath) = true := by
        simp [isDir, statAt, hne, hroot, hnil, Forest.lookup]
      rw [this] at hnd
      exact absurd hnd (by simp)
    obtain ⟨ps, n, pch, hsegs, hroot, hlook⟩ := parent_split hc' hpar hnot
    have hnodir : ∀ ch, pch.find n ≠ some (.dir ch) := by
      intro ch hch
      have : isDir cwd fs (join destPath relativeDestPath) = true := by
        simp [isDir, statAt, hne, hroot, hsegs, lookup_append hlook, lookup_singleton, hch]
      rw [this] at hnd
      exact absurd hnd (by simp)
    obtain ⟨f', hf'⟩ := writeAt_ok content mode true ps fs pch n hlook hnodir
    refine ⟨f', ?_⟩
    simp [applyOp, hfile, hne, hroot, hsegs, hf']

/-- An instance of `copyAndReplace_binary`: `img.png` copied into an existing directory
with substitutions that would change its content. -/
theorem copyAndReplace_binary_witness :
    copyAndReplace ⟨some .posix, ["proj"]⟩
        (.dir "proj" (.file "img.png" "AA" 420 (.dir "out" .nil .nil)) .nil)
        (Path.rel ["img.png"]) (Path.rel ["out"]) (Path.rel ["img.png"]) [("A", "B")]
      = .ok (.dir "proj" (.file "img.png" "AA" 420 (.dir "out" .nil .nil)) .nil,
          [Op.copyFile (Path.rel ["img.png"]) (join (Path.rel ["out"]) (Path.rel ["img.png"]))]) :=
  (copyAndReplace_binary ⟨some .posix, ["proj"]⟩
    (.dir "proj" (.file "img.png" "AA" 420 (.dir "out" .nil .nil)) .nil)
    (Path.rel ["img.png"]) (Path.rel ["out"]) (Path.rel ["img.png"]) [("A", "B")] "AA" 420
    (by decide) (by decide) (Or.inl (by decide))).1

/-- C6, as amended: for a source that is a directory, when `join(destPath,
relativeDestPath)` is already a directory, or does not exist while its parent is a
directory, `copyAndReplace` completes without error and issues no operation; afterwards
the path is a directory, the file system is unchanged if it was one already, and
otherwise differs only by directories added: every file is as before. -/
theorem copyAndReplace_directory (cwd : Path) (fs : Forest)
    (srcPath destPath relativeDestPath : Path) (replacements : Replacements) (ch : Forest)
    (hc : cwd.isAbsNormal = true)
    (hsrc : statAt cwd fs srcPath = some (.dir ch))
    (hdest : isDir cwd fs (join destPath relativeDestPath) = true ∨
      (existsSync cwd fs (join destPath relativeDestPath) = false ∧
        isDir cwd fs (dirname (resolve cwd (join destPath relativeDestPath))) = true)) :
    ∃ fs', copyAndReplace cwd fs srcPath destPath relativeDestPath replacements = .ok (fs', []) ∧
      isDir cwd fs' (join destPath relativeDestPath) = true ∧
      (isDir cwd fs (join destPath relativeDestPath) = true → fs' = fs) ∧
      (∀ q c m, fs'.lookup q = some (.file c m) ↔ fs.lookup q = some (.file c m)) ∧
      (∀ q d, fs.lookup q = some (.dir d) → ∃ d', fs'.lookup q = some (.dir d')) := by
  have hc' : AbsNormal cwd := (absNormal_iff cwd).1 hc
  have hne : join destPath relativeDestPath ≠ Path.empty := join_ne_empty _ _
  rcases hdest with hd | ⟨hex, hpar⟩
  · have hex : existsSync cwd fs (join destPath relativeDestPath) = true := by
      obtain ⟨d, hd'⟩ := isDir_iff.1 hd
      simp [existsSync, hd']
    refine ⟨fs, ?_, hd, fun _ => rfl, fun _ _ _ => Iff.rfl, fun _ d h => ⟨d, h⟩⟩
    simp [copyAndReplace, lstatIsDirectory, hsrc, bind, Except.bind, pure, Except.pure, hex]
  · have hnot : ¬ ((resolve cwd (join destPath relativeDestPath)).segs = []) := by
      intro hnil
      obtain ⟨pch, hst⟩ := isDir_iff.1 hpar
      obtain ⟨_, hroot, hlook⟩ := statAt_some hst
      have ha := resolve_absNormal hc' (join destPath relativeDestPath)
      rw [resolve_of_absNormal cwd (dirname_absNormal_absNormal ha), dirname_absNormal ha]
        at hroot
      simp only at hroot
      have : existsSync cwd fs (join destPath relativeDestPath) = true := by
        simp [existsSync, statAt, hne, hroot, hnil, Forest.lookup]
      rw [this] at hex
      exact absurd hex (by simp)
    obtain ⟨ps, n, pch, hsegs, hroot, hlook⟩ := parent_split hc' hpar hnot
    have hnone : pch.find n = none := by
      have h := hex
      simp only [existsSync, statAt, hne, if_false, hroot, if_true, hsegs,
        lookup_append hlook, lookup_singleton] at h
      simpa using h
    obtain ⟨f', hf'⟩ := mkdirAt_ok ps fs pch n hlook hnone
    obtain ⟨hx, d, hd⟩ := mkdirAt_spec _ fs f' hf'
    refine ⟨f', ?_, ?_, ?_, hx.1, hx.2⟩
    · simp [copyAndReplace, lstatIsDirectory, hsrc, bind, Except.bind, pure, Except.pure, hex,
        mkdirSync, hne, hroot, hsegs, hf']
    · simp [isDir, statAt, hne, hroot, hsegs, hd]
    · intro hd'
      obtain ⟨d', hd''⟩ := isDir_iff.1 hd'
      simp [existsSync, hd''] at hex

/-- An instance of `copyAndReplace_directory`: the directory `src` copied to the absent
`out` beside it. -/
theorem copyAndReplace_directory_witness :
    ∃ fs', copyAndReplace ⟨some .posix, ["proj"]⟩ (.dir "proj" (.dir "src" .nil .nil) .nil)
        (Path.rel ["src"]) (Path.rel ["."]) (Path.rel ["out"]) [] = .ok (fs', []) ∧
      isDir ⟨some .posix, ["proj"]⟩ fs' (join (Path.rel ["."]) (Path.rel ["out"])) = true := by
  obtain ⟨fs', h1, h2, _⟩ := copyAndReplace_directory ⟨some .posix, ["proj"]⟩
    (.dir "proj" (.dir "src" .nil .nil) .nil) (Path.rel ["src"]) (Path.rel ["."])
    (Path.rel ["out"]) [] .nil (by decide) (by decide) (Or.inr (by decide))
  exact ⟨fs', h1, h2⟩

/-- C6 as stated fails when an intermediate segment is missing: `mkdirSync` is called
without `recursive`, so copying the directory `src` to `out/sub`, where `out` does not
exist, throws `ENOENT`. -/
theorem copyAndReplace_directory_missing_parent :
    statAt ⟨some .posix, ["proj"]⟩ (.dir "proj" (.dir "src" .nil .nil) .nil) (Path.rel ["src"])
        = some (.dir .nil) ∧
      copyAndReplace ⟨some .posix, ["proj"]⟩ (.dir "proj" (.dir "src" .nil .nil) .nil)
        (Path.rel ["src"]) (Path.rel ["out"]) (Path.rel ["sub"]) [] = .error .ENOENT := by
  decide

/-- C7: when `destPath` is `null` or empty, or the react-native-windows anchor is
`null`, or the react-native-test-app anchor is `null`, `copyProjectTemplateAndReplace`
throws an error with one of its three messages, the file system is the one it started
with, no operation has been issued, no callback is pending and no call of `copyAndReplace`
has been made. -/
theorem copyProjectTemplateAndReplace_config_error (cwd : Path) (fs : Forest) (fuel : Nat)
    (destPath nodeModulesPath reactNativeModulePath testAppNodeModulePath : Option Path)
    (h : destPath = none ∨ destPath = some Path.empty ∨ reactNativeModulePath = none ∨
      testAppNodeModulePath = none) :
    ∃ msg, msg ∈ ["Need a path to copy to", "react-native-windows node module is not installed",
        "react-native-test-app node module is not installed"] ∧
      copyProjectTemplateAndReplace cwd fs fuel destPath nodeModulesPath reactNativeModulePath
        testAppNodeModulePath = some ⟨⟨fs, [], some (.error msg)⟩, none, []⟩ := by
  unfold copyProjectTemplateAndReplace
  by_cases h1 : falsy destPath = true
  · exact ⟨"Need a path to copy to", by simp, by rw [if_pos h1]⟩
  · by_cases h2 : falsy reactNativeModulePath = true
    · exact ⟨"react-native-windows node module is not installed", by simp,
        by rw [if_neg h1, if_pos h2]⟩
    · by_cases h3 : falsy testAppNodeModulePath = true
      · exact ⟨"react-native-test-app node module is not installed", by simp,
          by rw [if_neg h1, if_neg h2, if_pos h3]⟩
      · exfalso
        rcases h with h | h | h | h
        · apply h1; rw [h]; rfl
        · apply h1; rw [h]; rfl
        · apply h2; rw [h]; rfl
        · apply h3; rw [h]; rfl

/-- An instance of `copyProjectTemplateAndReplace_config_error`: the
react-native-test-app module was not found. -/
theorem copyProjectTemplateAndReplace_config_error_witness :
    ∃ msg, msg ∈ ["Need a path to copy to", "react-native-windows node module is not installed",
        "react-native-test-app node module is not installed"] ∧
      copyProjectTemplateAndReplace exampleCwd exampleFs 10 (some exampleCwd)
        (some (Path.rel ["..", "..", "node_modules"]))
        (some (Path.rel ["..", "..", "node_modules", "react-native-windows"])) none
        = some ⟨⟨exampleFs, [], some (.error msg)⟩, none, []⟩ :=
  copyProjectTemplateAndReplace_config_error exampleCwd exampleFs 10 (some exampleCwd)
    (some (Path.rel ["..", "..", "node_modules"]))
    (some (Path.rel ["..", "..", "node_modules", "react-native-windows"])) none
    (Or.inr (Or.inr (Or.inr rfl)))

/-! ## C8: the resources of the manifest -/

/-- C8 fails in the code when the manifest is not in the working directory: run in
`/proj/app`, the script finds the manifest `../app.json`; the resource `assets/img.png`
exists beside the manifest, at `join(dirname(manifest), r)`, but the location tested is
`path.relative(dirname(manifest), r)`, here `app/assets/img.png` below the working
directory, which does not exist: nothing is copied and a warning is reported. -/
theorem manifest_resource_not_found_from_subdirectory :
    findClosestPathTo ⟨some .posix, ["proj", "app"]⟩ manifestFs 5 (Path.rel ["app.json"])
        = some (some (Path.rel ["..", "app.json"])) ∧
      existsSync ⟨some .posix, ["proj", "app"]⟩ manifestFs
        (join (dirname (Path.rel ["..", "app.json"])) (Path.ofString "assets/img.png")) = true ∧
      relative ⟨some .posix, ["proj", "app"]⟩ (dirname (Path.rel ["..", "app.json"]))
        (Path.ofString "assets/img.png") = Path.rel ["app", "assets", "img.png"] ∧
      manifestCallback ⟨some .posix, ["proj", "app"]⟩ manifestFs 10
        (fun _ => some exampleManifest) (Path.rel ["..", "app.json"])
        (projectFilesDestPathOf (Path.rel ["..", "node_modules"]))
        = ⟨manifestFs, [Op.warn "assets/img.png"], none⟩ := by
  decide

/-- Run in the directory of the manifest, the same resource is found and its copy into
`Bundle/img.png` of the generated project directory is issued. -/
theorem manifest_resource_copied_from_manifest_directory :
    manifestCallback ⟨some .posix, ["proj"]⟩ manifestFs 10
        (fun _ => some exampleManifest) (Path.rel ["app.json"])
        (projectFilesDestPathOf (Path.rel ["node_modules"]))
      = ⟨manifestFs,
          [Op.copyFile (Path.rel ["assets", "img.png"])
            (Path.rel ["node_modules", ".generated", "windows", "ReactTestApp", "Bundle",
              "img.png"])],
          none⟩ := by
  decide

/-! ## What `copyAndReplace` and the loops over it leave of the file system -/

theorem statAt_eq_lookup {cwd : Path} (fs : Forest) {p : Path} (hne : p ≠ Path.empty)
    (hroot : (resolve cwd p).root = cwd.root) :
    statAt cwd fs p = fs.lookup (resolve cwd p).segs := by
  simp [statAt, hne, hroot]

theorem statAt_ext_file {cwd : Path} {f f' : Forest} (hx : Ext f f') (p : Path) (c : String)
    (m : Nat) : statAt cwd f' p = some (.file c m) ↔ statAt cwd f p = some (.file c m) := by
  unfold statAt
  split
  · simp
  · simp only
    split
    · exact hx.1 _ c m
    · simp

theorem isDir_ext {cwd : Path} {f f' : Forest} (hx : Ext f f') {p : Path}
    (h : isDir cwd f p = true) : isDir cwd f' p = true := by
  obtain ⟨ch, hst⟩ := isDir_iff.1 h
  obtain ⟨hne, hroot, hlook⟩ := statAt_some hst
  obtain ⟨ch', h'⟩ := hx.2 _ ch hlook
  exact isDir_iff.2 ⟨ch', by rw [statAt_eq_lookup f' hne hroot, h']⟩

/-- Whether `p` is a directory depends on the path it resolves to only. -/
theorem isDir_congr {cwd : Path} (fs : Forest) {p q : Path} (hp : p ≠ Path.empty)
    (hq : q ≠ Path.empty) (h : resolve cwd p = resolve cwd q) :
    isDir cwd fs p = isDir cwd fs q := by
  simp [isDir, statAt, hp, hq, h]

theorem absNormal_ne_empty {p : Path} (h : AbsNormal p) : p ≠ Path.empty := by
  intro he; rw [he] at h; exact absurd h.1 (by simp [Path.empty])

theorem lookup_prefix_dir : ∀ (x : List String) (fs : Forest) (y : List String),
    y ≠ [] → (fs.lookup (x ++ y)).isSome = true → ∃ ch, fs.lookup x = some (.dir ch) := by
  intro x
  induction x with
  | nil => intro fs y _ _; exact ⟨fs, rfl⟩
  | cons s t ih =>
    intro fs y hy h
    simp only [List.cons_append, Forest.lookup] at h ⊢
    cases hf : fs.find s with
    | none => simp [hf] at h
    | some st =>
      cases st with
      | file c m =>
        simp only [hf] at h
        have : t ++ y ≠ [] := by simp [hy]
        simp [this] at h
      | dir ch =>
        simp only [hf] at h ⊢
        exact ih ch y hy h

theorem copyAndReplace_ext {cwd : Path} {fs fs' : Forest} {src dest rel : Path}
    {o : Replacements} {issued : List Op}
    (h : copyAndReplace cwd fs src dest rel o = .ok (fs', issued)) :
    Ext fs fs' ∧ (∀ op ∈ issued, opDest op = some (join dest rel)) ∧
      (issued ≠ [] → fs' = fs ∧ ∃ c m, statAt cwd fs src = some (.file c m)) ∧
      (isDir cwd fs src = true →
        (∀ c m, statAt cwd fs (join dest rel) ≠ some (.file c m)) →
        isDir cwd fs' (join dest rel) = true) := by
  unfold copyAndReplace at h
  cases hs : statAt cwd fs src with
  | none => simp [lstatIsDirectory, hs, bind, Except.bind] at h
  | some st =>
    cases st with
    | dir ch =>
      simp only [lstatIsDirectory, hs, bind, Except.bind, pure, Except.pure, if_true] at h
      by_cases hex : existsSync cwd fs (join dest rel) = true
      · simp only [hex, Bool.not_true, Bool.false_eq_true, if_false, Except.ok.injEq,
          Prod.mk.injEq] at h
        obtain ⟨rfl, rfl⟩ := h
        refine ⟨ext_refl _, by simp, by simp, ?_⟩
        intro _ hnf
        unfold existsSync at hex
        cases hd : statAt cwd fs (join dest rel) with
        | none => simp [hd] at hex
        | some sd =>
          cases sd with
          | file c m => exact absurd hd (hnf c m)
          | dir d => exact isDir_iff.2 ⟨d, hd⟩
      · simp only [hex, Bool.not_false, if_true] at h
        cases hm : mkdirSync cwd fs (join dest rel) with
        | error e => simp [hm] at h
        | ok f1 =>
          simp only [hm, Except.ok.injEq, Prod.mk.injEq] at h
          obtain ⟨rfl, rfl⟩ := h
          unfold mkdirSync at hm
          split at hm
          · simp at hm
          · rename_i hne
            simp only at hm
            split at hm
            · rename_i hroot
              obtain ⟨hx, d, hd⟩ := mkdirAt_spec _ _ _ hm
              refine ⟨hx, by simp, by simp, ?_⟩
              intro _ _
              exact isDir_iff.2 ⟨d, by rw [statAt_eq_lookup _ hne hroot, hd]⟩
            · simp at hm
    | file c m =>
      simp only [lstatIsDirectory, hs, bind, Except.bind, pure, Except.pure,
        Bool.false_eq_true, if_false] at h
      have hnd : isDir cwd fs src = false := by simp [isDir, hs]
      split at h
      · simp only [Except.ok.injEq, Prod.mk.injEq] at h
        obtain ⟨rfl, rfl⟩ := h
        exact ⟨ext_refl _, by simp [opDest], fun _ => ⟨rfl, c, m, rfl⟩, by simp [hnd]⟩
      · cases hr : resolveContents cwd fs src o with
        | error e => simp [statMode, hs, hr] at h
        | ok content =>
          simp only [statMode, hs, hr, Except.ok.injEq, Prod.mk.injEq] at h
          obtain ⟨rfl, rfl⟩ := h
          exact ⟨ext_refl _, by simp [opDest], fun _ => ⟨rfl, c, m, rfl⟩, by simp [hnd]⟩

/-- The state after some entries have been copied: the file system has only gained
directories, and the destination of every directory entry copied is a directory. -/
theorem copyEntries_inv {cwd : Path} {fs : Forest} {src dest rel : Path} {o : Replacements} :
    ∀ (pre : List Path) (fs0 : Forest) (ops0 : List Op) (done : List Path),
      (∀ e ∈ pre, isDir cwd fs e = true →
        ∀ c m, statAt cwd fs (destOf cwd src dest rel e) ≠ some (.file c m)) →
      Ext fs fs0 →
      (∀ d ∈ done, isDir cwd fs d = true → isDir cwd fs0 (destOf cwd src dest rel d) = true) →
      (copyEntries cwd src dest rel o pre fs0 ops0).thrown = none →
      Ext fs (copyEntries cwd src dest rel o pre fs0 ops0).fs ∧
      ∀ d ∈ done ++ pre, isDir cwd fs d = true →
        isDir cwd (copyEntries cwd src dest rel o pre fs0 ops0).fs
          (destOf cwd src dest rel d) = true := by
  intro pre
  induction pre with
  | nil =>
    intro fs0 ops0 done _ hx hdone _
    simpa [copyEntries] using ⟨hx, hdone⟩
  | cons e rest ih =>
    intro fs0 ops0 done hnofile hx hdone hthrown
    simp only [copyEntries] at hthrown ⊢
    cases hcr : copyAndReplace cwd fs0 e dest (join rel (relative cwd src e)) o with
    | error err => simp [hcr] at hthrown
    | ok res =>
      obtain ⟨fs1, issued⟩ := res
      simp only [hcr] at hthrown ⊢
      obtain ⟨hx1, _, _, hdir⟩ := copyAndReplace_ext hcr
      have hx' : Ext fs fs1 := ext_trans hx hx1
      have hdone' : ∀ d ∈ done ++ [e], isDir cwd fs d = true →
          isDir cwd fs1 (destOf cwd src dest rel d) = true := by
        intro d hd hisd
        rcases List.mem_append.1 hd with h | h
        · exact isDir_ext hx1 (hdone d h hisd)
        · simp only [List.mem_singleton] at h
          subst h
          apply hdir (isDir_ext hx hisd)
          intro c m hf
          exact hnofile d (by simp) hisd c m ((statAt_ext_file hx _ c m).1 hf)
      have := ih fs1 (ops0 ++ issued) (done ++ [e])
        (fun x hxm => hnofile x (by simp [hxm])) hx' hdone' hthrown
      simpa using this

theorem relative_descendant {cwd src e : Path} {r : Option Root} {A t : List String}
    (hs : resolve cwd src = ⟨r, A⟩) (he : resolve cwd e = ⟨r, A ++ t⟩) :
    relative cwd src e = ⟨none, t⟩ := by
  unfold relative
  rw [hs, he]
  have h := stripCommon_append_left A [] t
  rw [List.append_nil] at h
  have h2 : stripCommon [] t = ([], t) := by cases t <;> rfl
  simp [h, h2]

theorem resolve_destOf {cwd src rel e : Path} (dest : Path) (hc : AbsNormal cwd)
    (hrel : rel.root = none)
    {t : List String} (hr : relative cwd src e = ⟨none, t⟩) (ht : Names t) :
    resolve cwd (destOf cwd src dest rel e)
      = ⟨(resolve cwd (join dest rel)).root, (resolve cwd (join dest rel)).segs ++ t⟩ := by
  unfold destOf
  rw [hr]
  have hX : (join rel ⟨none, t⟩).root = none := join_rel_root hrel rfl
  rw [resolve_join cwd (Or.inr hX),
    descend_join_segs (resolve_absNormal hc dest) hrel rfl, descend_append,
    ← resolve_join cwd (Or.inr hrel)]
  exact descend_names _ ht

theorem dropLast_append_singleton (xs ys : List String) (n : String) :
    (xs ++ (ys ++ [n])).dropLast = xs ++ ys := by
  rw [← List.append_assoc, List.dropLast_concat]

/-- In `copyAndReplaceAll`, when an entry of the walk is copied, the parent of the path
each operation issued for it targets is a directory. -/
theorem copyEntries_parent {cwd : Path} (hc : AbsNormal cwd) {fs : Forest} {fuel : Nat}
    {src dest rel : Path} {o : Replacements} {st : Stat} {entries : List Path}
    (hst : statAt cwd fs src = some st) (hwf : st.wf = true)
    (hwalk : walk cwd fs fuel src = .ok entries) (hrel : rel.root = none)
    (hparent : isDir cwd fs (dirname (resolve cwd (join dest rel))) = true)
    (hnofile : ∀ e ∈ entries, isDir cwd fs e = true →
      ∀ c m, statAt cwd fs (destOf cwd src dest rel e) ≠ some (.file c m)) :
    ∀ pre e post, entries = pre ++ e :: post →
      (copyEntries cwd src dest rel o pre fs []).thrown = none →
      ∀ fs' issued,
        copyAndReplace cwd (copyEntries cwd src dest rel o pre fs []).fs e dest
          (join rel (relative cwd src e)) o = .ok (fs', issued) →
        ∀ op ∈ issued, ∀ d, opDest op = some d →
          isDir cwd (copyEntries cwd src dest rel o pre fs []).fs (dirname (resolve cwd d))
            = true := by
  intro pre e post hsplit hthrown fs' issued hcr op hop d hd
  have hent := walk_unique hst hwf hwalk
  obtain ⟨hne, hroot, hlook⟩ := statAt_some hst
  obtain ⟨hne_all, hmap, hroot_all⟩ := entries_spec hst hwf
  obtain ⟨hmem, hpw⟩ := stat_paths_spec hlook hwf
  rw [← hent] at hne_all hmap hroot_all
  have hsrc : resolve cwd src = ⟨cwd.root, (resolve cwd src).segs⟩ := by rw [← hroot]
  -- the state before `e`
  obtain ⟨hx, hinv⟩ := copyEntries_inv (o := o) pre fs [] []
    (fun x hxm => hnofile x (by rw [hsplit]; simp [hxm])) (ext_refl fs) (by simp) hthrown
  simp only [List.nil_append] at hinv
  -- the destination of the operation
  obtain ⟨_, hdest, _, _⟩ := copyAndReplace_ext hcr
  have hd' : d = destOf cwd src dest rel e := by
    have := hdest op hop
    rw [hd] at this
    exact Option.some.inj this
  subst hd'
  -- the entry `e` below `src`
  have he_mem : e ∈ entries := by rw [hsplit]; simp
  have hseg_mem : (resolve cwd e).segs ∈ st.paths (resolve cwd src).segs := by
    rw [← hmap]; exact List.mem_map_of_mem _ he_mem
  obtain ⟨t, ht, hlk⟩ := (hmem _).1 hseg_mem
  have he_res : resolve cwd e = ⟨cwd.root, (resolve cwd src).segs ++ t⟩ := by
    rw [← ht, ← hroot_all e he_mem]
  have hnames : Names t := (names_append.1 (by rw [← ht]; exact (resolve_absNormal hc e).2)).2
  have hrd := resolve_destOf dest hc hrel (relative_descendant hsrc he_res) hnames
  have hD := resolve_absNormal hc (join dest rel)
  have hdn : AbsNormal (⟨(resolve cwd (join dest rel)).root,
      (resolve cwd (join dest rel)).segs ++ t⟩ : Path) :=
    ⟨hD.1, names_append.2 ⟨hD.2, hnames⟩⟩
  rw [hrd, dirname_absNormal hdn]
  simp only
  rcases List.eq_nil_or_concat t with hnil | ⟨t', n, hcat⟩
  · subst hnil
    have : (⟨(resolve cwd (join dest rel)).root,
        ((resolve cwd (join dest rel)).segs ++ []).dropLast⟩ : Path)
        = dirname (resolve cwd (join dest rel)) := by
      rw [dirname_absNormal hD, List.append_nil]
    rw [this]
    exact isDir_ext hx hparent
  · rw [List.concat_eq_append] at hcat
    subst hcat
    rw [dropLast_append_singleton]
    -- the parent entry
    have hpar_dir : ∃ ch, fs.lookup ((resolve cwd src).segs ++ t') = some (.dir ch) := by
      apply lookup_prefix_dir _ fs [n] (by simp)
      rw [List.append_assoc, ← ht]; exact hlk
    obtain ⟨pch, hpch⟩ := hpar_dir
    have hpar_mem : (resolve cwd src).segs ++ t' ∈ st.paths (resolve cwd src).segs :=
      (hmem _).2 ⟨t', rfl, by simp [hpch]⟩
    rw [← hmap] at hpar_mem
    obtain ⟨p, hp_mem, hp_seg⟩ := List.mem_map.1 hpar_mem
    have hp_pre : p ∈ pre := by
      rw [hsplit] at hp_mem
      rcases List.mem_append.1 hp_mem with h | h
      · exact h
      · exfalso
        rcases List.mem_cons.1 h with h | h
        · subst h
          rw [ht] at hp_seg
          exact absurd (List.append_cancel_left hp_seg) (by simp)
        · rw [← hmap, hsplit, List.map_append, List.map_cons, List.pairwise_append,
            List.pairwise_cons] at hpw
          apply hpw.2.1.1 _ (List.mem_map_of_mem _ h)
          rw [hp_seg, ht, ← List.append_assoc]
          exact List.prefix_append _ _
    have hp_res : resolve cwd p = ⟨cwd.root, (resolve cwd src).segs ++ t'⟩ := by
      rw [← hp_seg, ← hroot_all p hp_mem]
    have hp_dir : isDir cwd fs p = true :=
      isDir_iff.2 ⟨pch, by
        rw [statAt_eq_lookup fs (hne_all p hp_mem) (hroot_all p hp_mem), hp_seg, hpch]⟩
    have hnames' : Names t' := (names_append.1 hnames).1
    have hrp := resolve_destOf dest hc hrel (relative_descendant hsrc hp_res) hnames'
    have hgoal := hinv p hp_pre hp_dir
    have hpn : AbsNormal (⟨(resolve cwd (join dest rel)).root,
        (resolve cwd (join dest rel)).segs ++ t'⟩ : Path) :=
      ⟨hD.1, names_append.2 ⟨hD.2, hnames'⟩⟩
    have hne_dest : destOf cwd src dest rel p ≠ Path.empty := by
      unfold destOf; exact join_ne_empty _ _
    rw [isDir_congr _ hne_dest (absNormal_ne_empty hpn)
      (by rw [hrp, resolve_of_absNormal cwd hpn])] at hgoal
    exact hgoal

/-- What the loop over `projectFilesMappings` does: the file system gains nothing but
directories; the calls recorded are those made before followed by the calls of the loop;
the operations are those issued before followed by those the calls of the loop issue;
and every call of the loop copies one of the mappings, with the `destPath` and the
replacements of the loop, on a file system that has gained nothing but directories. -/
theorem copyMappings_calls (cwd destPath : Path) (o : Replacements) :
    ∀ (mappings : List (Path × Path)) (fs0 : Forest) (ops0 : List Op) (calls0 : List Call),
      Ext fs0 (copyMappings cwd destPath o mappings fs0 ops0 calls0).1.fs ∧
      ∃ made, (copyMappings cwd destPath o mappings fs0 ops0 calls0).2 = calls0 ++ made ∧
        (copyMappings cwd destPath o mappings fs0 ops0 calls0).1.ops
          = ops0 ++ (made.map (Call.issued cwd)).flatten ∧
        ∀ call ∈ made, Ext fs0 call.fs ∧ call.destPath = destPath ∧ call.replacements = o ∧
          ∃ m ∈ mappings, call.srcPath = m.1 ∧ call.relativeDestPath = m.2 := by
  intro mappings
  induction mappings with
  | nil =>
    intro fs0 ops0 calls0
    exact ⟨ext_refl _, [], by simp [copyMappings], by simp [copyMappings], by simp⟩
  | cons m rest ih =>
    intro fs0 ops0 calls0
    simp only [copyMappings]
    cases hcr : copyAndReplace cwd fs0 m.1 destPath m.2 o with
    | error e =>
      refine ⟨ext_refl _, [⟨fs0, m.1, destPath, m.2, o⟩], rfl, ?_, ?_⟩
      · simp [Call.issued, hcr]
      · intro call hcall
        simp only [List.mem_singleton] at hcall
        subst hcall
        exact ⟨ext_refl _, rfl, rfl, m, by simp, rfl, rfl⟩
    | ok res =>
      obtain ⟨fs1, issued⟩ := res
      simp only
      have hx1 := (copyAndReplace_ext hcr).1
      obtain ⟨hx, made, hmade, hops, hall⟩ := ih fs1 (ops0 ++ issued)
        (calls0 ++ [⟨fs0, m.1, destPath, m.2, o⟩])
      refine ⟨ext_trans hx1 hx, ⟨fs0, m.1, destPath, m.2, o⟩ :: made, ?_, ?_, ?_⟩
      · rw [hmade, List.append_assoc]; rfl
      · rw [hops]
        simp [Call.issued, hcr]
      · intro call hcall
        rcases List.mem_cons.1 hcall with rfl | h
        · exact ⟨ext_refl _, rfl, rfl, m, by simp, rfl, rfl⟩
        · obtain ⟨hxc, hd, hr, m', hm', hs⟩ := hall call h
          exact ⟨ext_trans hx1 hxc, hd, hr, m', by simp [hm'], hs⟩

theorem names_singleton {n : String} (h : validName n = true) : Names [n] := by
  intro s hs
  simp only [List.mem_singleton] at hs
  rw [hs]; exact h

theorem isDir_of_lookup {cwd : Path} {fs : Forest} {p : Path} (hp : AbsNormal p)
    (hroot : p.root = cwd.root) {ch : Forest} (h : fs.lookup p.segs = some (.dir ch)) :
    isDir cwd fs p = true := by
  apply isDir_iff.2
  refine ⟨ch, ?_⟩
  rw [statAt_eq_lookup fs (absNormal_ne_empty hp) (by rw [resolve_of_absNormal cwd hp, hroot]),
    resolve_of_absNormal cwd hp, h]

theorem mkdirSyncRecursive_spec {cwd : Path} {fs fs' : Forest} {p : Path}
    (h : mkdirSyncRecursive cwd fs p = .ok fs') :
    Ext fs fs' ∧ (resolve cwd p).root = cwd.root ∧
      ∀ pre, pre <+: (resolve cwd p).segs → ∃ ch, fs'.lookup pre = some (.dir ch) := by
  unfold mkdirSyncRecursive at h
  split at h
  · simp at h
  · simp only at h
    split at h
    · rename_i hroot
      obtain ⟨hx, hpre⟩ := mkdirP_spec _ _ _ h
      exact ⟨hx, hroot, hpre⟩
    · simp at h

/-! ## The calls made by `copyProjectTemplateAndReplace` -/

theorem issued_dest {cwd : Path} {call : Call} {op : Op} (h : op ∈ call.issued cwd) :
    opDest op = some (join call.destPath call.relativeDestPath) := by
  unfold Call.issued at h
  cases hcr : copyAndReplace cwd call.fs call.srcPath call.destPath call.relativeDestPath
      call.replacements with
  | error e => simp [hcr] at h
  | ok res =>
    obtain ⟨fs', issued⟩ := res
    simp only [hcr] at h
    exact (copyAndReplace_ext hcr).2.1 op h

/-- What the calls of `copyProjectTemplateAndReplace` are: the operations of the run are
those the calls issue, in order; every call is made after the two `mkdirSync` calls, on a
file system that has gained nothing but directories since, and is either the copy of one
of the six project files with `projectFilesReplacements` or the copy of
`ReactTestApp.sln` with `solutionFileReplacements`. -/
theorem copyProjectTemplateAndReplace_calls {cwd : Path} {fs : Forest} {fuel : Nat}
    {dest nm rn ta : Option Path} {sc : Scaffold}
    (hsc : copyProjectTemplateAndReplace cwd fs fuel dest nm rn ta = some sc) :
    sc.run.ops = (sc.calls.map (Call.issued cwd)).flatten ∧
      ∀ call ∈ sc.calls, ∃ destPath nodeModulesPath reactNativeModulePath
          testAppNodeModulePath fs1 fs2 manifestFilePath,
        dest = some destPath ∧ nm = some nodeModulesPath ∧ rn = some reactNativeModulePath ∧
        ta = some testAppNodeModulePath ∧
        mkdirSyncRecursive cwd fs (join (projectFilesDestPathOf nodeModulesPath) bundleDir)
          = .ok fs1 ∧
        mkdirSyncRecursive cwd fs1 (join destPath windowsDir) = .ok fs2 ∧
        sc.pending = some (manifestFilePath, projectFilesDestPathOf nodeModulesPath) ∧
        Ext fs2 call.fs ∧ call.destPath = destPath ∧
        ((∃ file ∈ projectFileNames,
            call.srcPath
              = joinAll [join testAppNodeModulePath windowsDir, projDir, Path.rel [file]] ∧
            call.relativeDestPath
              = join (projectFilesDestPathOf nodeModulesPath) (Path.rel [file]) ∧
            call.replacements = renderReplacements cwd
              (projectFilesReplacementPaths cwd nodeModulesPath reactNativeModulePath
                testAppNodeModulePath manifestFilePath)) ∨
          (call.srcPath = join (join testAppNodeModulePath windowsDir)
              (Path.rel ["ReactTestApp.sln"]) ∧
            call.relativeDestPath = join windowsDir (Path.rel ["ReactTestApp.sln"]) ∧
            call.replacements = renderReplacements cwd
              (solutionFileReplacementPaths cwd destPath nodeModulesPath
                reactNativeModulePath))) := by
  unfold copyProjectTemplateAndReplace at hsc
  by_cases h1 : falsy dest = true
  · rw [if_pos h1] at hsc
    obtain rfl := Option.some.inj hsc
    exact ⟨rfl, by simp⟩
  rw [if_neg h1] at hsc
  by_cases h2 : falsy rn = true
  · rw [if_pos h2] at hsc
    obtain rfl := Option.some.inj hsc
    exact ⟨rfl, by simp⟩
  rw [if_neg h2] at hsc
  by_cases h3 : falsy ta = true
  · rw [if_pos h3] at hsc
    obtain rfl := Option.some.inj hsc
    exact ⟨rfl, by simp⟩
  rw [if_neg h3] at hsc
  cases dest with
  | none => exact absurd rfl h1
  | some destPath =>
  cases rn with
  | none => exact absurd rfl h2
  | some rnp =>
  cases ta with
  | none => exact absurd rfl h3
  | some tap =>
  cases nm with
  | none =>
    simp only at hsc
    obtain rfl := Option.some.inj hsc
    exact ⟨rfl, by simp⟩
  | some nmp =>
    simp only at hsc
    cases hm1 : mkdirSyncRecursive cwd fs (join (projectFilesDestPathOf nmp) bundleDir) with
    | error e =>
      simp only [hm1] at hsc
      obtain rfl := Option.some.inj hsc
      exact ⟨rfl, by simp⟩
    | ok fs1 =>
      simp only [hm1] at hsc
      cases hm2 : mkdirSyncRecursive cwd fs1 (join destPath windowsDir) with
      | error e =>
        simp only [hm2] at hsc
        obtain rfl := Option.some.inj hsc
        exact ⟨rfl, by simp⟩
      | ok fs2 =>
        simp only [hm2] at hsc
        cases hf : findClosestPathTo cwd fs2 fuel (Path.rel ["app.json"]) with
        | none => simp [hf] at hsc
        | some found =>
          cases found with
          | none =>
            simp only [hf] at hsc
            obtain rfl := Option.some.inj hsc
            exact ⟨rfl, by simp⟩
          | some manifest =>
            simp only [hf] at hsc
            obtain ⟨hinv, made, hmade, hops, hspec⟩ := copyMappings_calls cwd destPath
              (renderReplacements cwd (projectFilesReplacementPaths cwd nmp rnp tap manifest))
              (projectFileNames.map (fun file =>
                (joinAll [join tap windowsDir, projDir, Path.rel [file]],
                  join (projectFilesDestPathOf nmp) (Path.rel [file])))) fs2 [] []
            rw [List.nil_append] at hops hmade
            generalize hres : copyMappings cwd destPath
              (renderReplacements cwd (projectFilesReplacementPaths cwd nmp rnp tap manifest))
              (projectFileNames.map (fun file =>
                (joinAll [join tap windowsDir, projDir, Path.rel [file]],
                  join (projectFilesDestPathOf nmp) (Path.rel [file])))) fs2 [] [] = res
              at hsc hops hinv hmade
            obtain ⟨run, calls⟩ := res
            simp only at hsc hops hinv hmade
            subst hmade
            have hfirst : ∀ call ∈ calls, ∀ pending : Option (Path × Path),
                pending = some (manifest, projectFilesDestPathOf nmp) →
                ∃ destPath' nodeModulesPath reactNativeModulePath testAppNodeModulePath
                  fs1' fs2' manifestFilePath,
                some destPath = some destPath' ∧ some nmp = some nodeModulesPath ∧
                some rnp = some reactNativeModulePath ∧
                some tap = some testAppNodeModulePath ∧
                mkdirSyncRecursive cwd fs
                  (join (projectFilesDestPathOf nodeModulesPath) bundleDir) = .ok fs1' ∧
                mkdirSyncRecursive cwd fs1' (join destPath' windowsDir) = .ok fs2' ∧
                pending = some (manifestFilePath, projectFilesDestPathOf nodeModulesPath) ∧
                Ext fs2' call.fs ∧ call.destPath = destPath' ∧
                ((∃ file ∈ projectFileNames,
                    call.srcPath
                      = joinAll [join testAppNodeModulePath windowsDir, projDir,
                          Path.rel [file]] ∧
                    call.relativeDestPath
                      = join (projectFilesDestPathOf nodeModulesPath) (Path.rel [file]) ∧
                    call.replacements = renderReplacements cwd
                      (projectFilesReplacementPaths cwd nodeModulesPath
                        reactNativeModulePath testAppNodeModulePath manifestFilePath)) ∨
                  (call.srcPath = join (join testAppNodeModulePath windowsDir)
                      (Path.rel ["ReactTestApp.sln"]) ∧
                    call.relativeDestPath = join windowsDir (Path.rel ["ReactTestApp.sln"]) ∧
                    call.replacements = renderReplacements cwd
                      (solutionFileReplacementPaths cwd destPath' nodeModulesPath
                        reactNativeModulePath))) := by
              intro call hcall pending hp
              obtain ⟨hx, hd, hr, m, hm, hs1, hs2⟩ := hspec call hcall
              obtain ⟨file, hfile, rfl⟩ := List.mem_map.1 hm
              exact ⟨destPath, nmp, rnp, tap, fs1, fs2, manifest, rfl, rfl, rfl, rfl, hm1,
                hm2, hp, hx, hd, Or.inl ⟨file, hfile, hs1, hs2, hr⟩⟩
            cases hthrown : run.thrown with
            | some e =>
              simp only [hthrown] at hsc
              obtain rfl := Option.some.inj hsc
              exact ⟨hops, fun call hcall => hfirst call hcall _ rfl⟩
            | none =>
              simp only [hthrown] at hsc
              have hlast : ∀ call ∈ calls ++ [(⟨run.fs,
                    join (join tap windowsDir) (Path.rel ["ReactTestApp.sln"]), destPath,
                    join windowsDir (Path.rel ["ReactTestApp.sln"]),
                    renderReplacements cwd
                      (solutionFileReplacementPaths cwd destPath nmp rnp)⟩ : Call)],
                  ∀ pending : Option (Path × Path),
                  pending = some (manifest, projectFilesDestPathOf nmp) →
                  ∃ destPath' nodeModulesPath reactNativeModulePath testAppNodeModulePath
                    fs1' fs2' manifestFilePath,
                  some destPath = some destPath' ∧ some nmp = some nodeModulesPath ∧
                  some rnp = some reactNativeModulePath ∧
                  some tap = some testAppNodeModulePath ∧
                  mkdirSyncRecursive cwd fs
                    (join (projectFilesDestPathOf nodeModulesPath) bundleDir) = .ok fs1' ∧
                  mkdirSyncRecursive cwd fs1' (join destPath' windowsDir) = .ok fs2' ∧
                  pending = some (manifestFilePath, projectFilesDestPathOf nodeModulesPath) ∧
                  Ext fs2' call.fs ∧ call.destPath = destPath' ∧
                  ((∃ file ∈ projectFileNames,
                      call.srcPath
                        = joinAll [join testAppNodeModulePath windowsDir, projDir,
                            Path.rel [file]] ∧
                      call.relativeDestPath
                        = join (projectFilesDestPathOf nodeModulesPath) (Path.rel [file]) ∧
                      call.replacements = renderReplacements cwd
                        (projectFilesReplacementPaths cwd nodeModulesPath
                          reactNativeModulePath testAppNodeModulePath manifestFilePath)) ∨
                    (call.srcPath = join (join testAppNodeModulePath windowsDir)
                        (Path.rel ["ReactTestApp.sln"]) ∧
                      call.relativeDestPath = join windowsDir (Path.rel ["ReactTestApp.sln"]) ∧
                      call.replacements = renderReplacements cwd
                        (solutionFileReplacementPaths cwd destPath' nodeModulesPath
                          reactNativeModulePath))) := by
                intro call hcall pending hp
                rcases List.mem_append.1 hcall with h | h
                · exact hfirst call h pending hp
                · simp only [List.mem_singleton] at h
                  subst h
                  exact ⟨destPath, nmp, rnp, tap, fs1, fs2, manifest, rfl, rfl, rfl, rfl, hm1,
                    hm2, hp, hinv, rfl, Or.inr ⟨rfl, rfl, rfl⟩⟩
              cases hcr : copyAndReplace cwd run.fs
                  (join (join tap windowsDir) (Path.rel ["ReactTestApp.sln"])) destPath
                  (join windowsDir (Path.rel ["ReactTestApp.sln"]))
                  (renderReplacements cwd
                    (solutionFileReplacementPaths cwd destPath nmp rnp)) with
              | error e =>
                simp only [hcr] at hsc
                obtain rfl := Option.some.inj hsc
                refine ⟨?_, fun call hcall => hlast call hcall _ rfl⟩
                simp [Call.issued, hcr, hops]
              | ok res =>
                obtain ⟨fs3, issued⟩ := res
                simp only [hcr] at hsc
                obtain rfl := Option.some.inj hsc
                refine ⟨?_, fun call hcall => hlast call hcall _ rfl⟩
                simp [Call.issued, hcr, hops]

/-- When the loop over `projectFilesMappings` ends without an exception, one call has been
made for each mapping, in order. -/
theorem copyMappings_complete (cwd destPath : Path) (o : Replacements) :
    ∀ (mappings : List (Path × Path)) (fs0 : Forest) (ops0 : List Op) (calls0 : List Call),
      (copyMappings cwd destPath o mappings fs0 ops0 calls0).1.thrown = none →
      (copyMappings cwd destPath o mappings fs0 ops0 calls0).2.map (fun c => c.relativeDestPath)
        = calls0.map (fun c => c.relativeDestPath) ++ mappings.map Prod.snd := by
  intro mappings
  induction mappings with
  | nil => intro fs0 ops0 calls0 _; simp [copyMappings]
  | cons m rest ih =>
    intro fs0 ops0 calls0 h
    simp only [copyMappings] at h ⊢
    cases hcr : copyAndReplace cwd fs0 m.1 destPath m.2 o with
    | error e => simp [hcr] at h
    | ok res =>
      obtain ⟨fs1, issued⟩ := res
      simp only [hcr] at h ⊢
      rw [ih fs1 _ _ h]
      simp

/-- When `copyProjectTemplateAndReplace` returns without an exception, it has made seven
calls of `copyAndReplace`: one for each of the six project files, in the order of
`projectFilesMappings`, and one for `ReactTestApp.sln`. -/
theorem copyProjectTemplateAndReplace_complete {cwd : Path} {fs : Forest} {fuel : Nat}
    {dest nm rn ta : Option Path} {sc : Scaffold}
    (hsc : copyProjectTemplateAndReplace cwd fs fuel dest nm rn ta = some sc)
    (hth : sc.run.thrown = none) :
    ∃ nodeModulesPath, nm = some nodeModulesPath ∧
      sc.calls.map (fun c => c.relativeDestPath)
        = projectFileNames.map
            (fun file => join (projectFilesDestPathOf nodeModulesPath) (Path.rel [file]))
          ++ [join windowsDir (Path.rel ["ReactTestApp.sln"])] := by
  unfold copyProjectTemplateAndReplace at hsc
  by_cases h1 : falsy dest = true
  · rw [if_pos h1] at hsc
    obtain rfl := Option.some.inj hsc
    simp at hth
  rw [if_neg h1] at hsc
  by_cases h2 : falsy rn = true
  · rw [if_pos h2] at hsc
    obtain rfl := Option.some.inj hsc
    simp at hth
  rw [if_neg h2] at hsc
  by_cases h3 : falsy ta = true
  · rw [if_pos h3] at hsc
    obtain rfl := Option.some.inj hsc
    simp at hth
  rw [if_neg h3] at hsc
  cases dest with
  | none => exact absurd rfl h1
  | some destPath =>
  cases rn with
  | none => exact absurd rfl h2
  | some rnp =>
  cases ta with
  | none => exact absurd rfl h3
  | some tap =>
  cases nm with
  | none =>
    simp only at hsc
    obtain rfl := Option.some.inj hsc
    simp at hth
  | some nmp =>
    refine ⟨nmp, rfl, ?_⟩
    simp only at hsc
    cases hm1 : mkdirSyncRecursive cwd fs (join (projectFilesDestPathOf nmp) bundleDir) with
    | error e =>
      simp only [hm1] at hsc
      obtain rfl := Option.some.inj hsc
      simp at hth
    | ok fs1 =>
      simp only [hm1] at hsc
      cases hm2 : mkdirSyncRecursive cwd fs1 (join destPath windowsDir) with
      | error e =>
        simp only [hm2] at hsc
        obtain rfl := Option.some.inj hsc
        simp at hth
      | ok fs2 =>
        simp only [hm2] at hsc
        cases hf : findClosestPathTo cwd fs2 fuel (Path.rel ["app.json"]) with
        | none => simp [hf] at hsc
        | some found =>
          cases found with
          | none =>
            simp only [hf] at hsc
            obtain rfl := Option.some.inj hsc
            simp at hth
          | some manifest =>
            simp only [hf] at hsc
            have hcomp := copyMappings_complete cwd destPath
              (renderReplacements cwd (projectFilesReplacementPaths cwd nmp rnp tap manifest))
              (projectFileNames.map (fun file =>
                (joinAll [join tap windowsDir, projDir, Path.rel [file]],
                  join (projectFilesDestPathOf nmp) (Path.rel [file])))) fs2 [] []
            generalize hres : copyMappings cwd destPath
              (renderReplacements cwd (projectFilesReplacementPaths cwd nmp rnp tap manifest))
              (projectFileNames.map (fun file =>
                (joinAll [join tap windowsDir, projDir, Path.rel [file]],
                  join (projectFilesDestPathOf nmp) (Path.rel [file])))) fs2 [] [] = res
              at hsc hcomp
            obtain ⟨run, calls⟩ := res
            simp only at hsc hcomp
            cases hthrown : run.thrown with
            | some e =>
              simp only [hthrown] at hsc
              obtain rfl := Option.some.inj hsc
              rw [hthrown] at hth
              exact absurd hth (by simp)
            | none =>
              simp only [hthrown] at hsc
              have hc2 := hcomp hthrown
              simp only [List.map_nil, List.nil_append, List.map_map] at hc2
              cases hcr : copyAndReplace cwd run.fs
                  (join (join tap windowsDir) (Path.rel ["ReactTestApp.sln"])) destPath
                  (join windowsDir (Path.rel ["ReactTestApp.sln"]))
                  (renderReplacements cwd
                    (solutionFileReplacementPaths cwd destPath nmp rnp)) with
              | error e =>
                simp only [hcr] at hsc
                obtain rfl := Option.some.inj hsc
                simp at hth
              | ok res =>
                obtain ⟨fs3, issued⟩ := res
                simp only [hcr] at hsc
                obtain rfl := Option.some.inj hsc
                simp only [List.map_append, List.map_cons, List.map_nil, hc2]
                rfl

/-! ## C1: placeholder values and the directory of the file they are written into -/

theorem join_cwd_rel {cwd : Path} (hc : AbsNormal cwd) {q : Path} (hq : q.root = none) :
    join cwd q = resolve cwd q := by
  rw [join_abs_eq_resolve hc hq, resolve_join_cwd hc hq]

theorem projectFileNames_valid {file : String} (h : file ∈ projectFileNames) :
    validName file = true := by
  simp only [projectFileNames, List.mem_cons, List.mem_singleton, List.not_mem_nil,
    or_false] at h
  rcases h with h | h | h | h | h | h <;> subst h <;> decide

/-- The values of `projectFilesReplacements`, resolved against the directory the project
files are written into when `destPath` is the working directory. -/
theorem projectFilesReplacementPaths_resolved {cwd : Path} (hc : AbsNormal cwd)
    (nm rn ta manifest : Path) :
    (projectFilesReplacementPaths cwd nm rn ta manifest).map
        (fun kv => (kv.1, resolve (resolve cwd (projectFilesDestPathOf nm)) kv.2))
      = [("\\$\\(ManifestRootPath\\)", resolve cwd (dirname manifest)),
         ("\\$\\(ReactNativeModulePath\\)", resolve cwd rn),
         ("\\$\\(SourceFilesPath\\)", resolve cwd (join (join ta windowsDir) projDir))] := by
  simp only [projectFilesReplacementPaths, List.map_cons, List.map_nil]
  have h1 : relative cwd (joinAll [projectFilesDestPathOf nm]) (dirname manifest)
      = relative cwd (projectFilesDestPathOf nm) (dirname manifest) := by
    unfold relative
    rw [joinAll_single, resolve_normalize]
  rw [h1, resolve_relative hc, resolve_relative hc, resolve_relative hc]

/-- The values of `solutionFileReplacements`, resolved against the directory the solution
file is written into when `destPath` is the working directory. -/
theorem solutionFileReplacementPaths_resolved {cwd : Path} (hc : AbsNormal cwd) (nm rn : Path) :
    (solutionFileReplacementPaths cwd cwd nm rn).map
        (fun kv => (kv.1, resolve (resolve cwd windowsDir) kv.2))
      = [("\\$\\(ReactNativeModulePath\\)", resolve cwd rn),
         ("\\$\\(ReactTestAppProjectPath\\)", resolve cwd (projectFilesDestPathOf nm))] := by
  simp only [solutionFileReplacementPaths, List.map_cons, List.map_nil]
  have h2 : ∀ x, relative cwd (join cwd windowsDir) x = relative cwd windowsDir x := by
    intro x
    unfold relative
    rw [resolve_join_cwd hc rfl]
  rw [h2, h2, resolve_relative hc, resolve_relative hc]

/-- C1. In the call of `copyProjectTemplateAndReplace` the script makes, where `destPath`
is `path.resolve("")` and `nodeModulesPath` is `findClosestPathTo("node_modules")`, the
operations issued are those of the calls of `copyAndReplace` it makes; when it returns
without an exception these are the calls for the six project files and the one for
`ReactTestApp.sln`; the operations of a call write the file `join(destPath,
relativeDestPath)` of the call; and every call is one of:

* the copy of one of the six project files to `<projectFilesDestPath>/<file>` under
  `destPath`, a file of the directory
  `D = join(destPath, nodeModulesPath/.generated/windows/ReactTestApp)`, with the
  replacements `projectFilesReplacements`, whose values for `$(ManifestRootPath)`,
  `$(ReactNativeModulePath)` and `$(SourceFilesPath)`, resolved against `D`, are the
  directory of the manifest (the one the pending callback reads), the
  react-native-windows module directory and `<testAppNodeModulePath>/windows/ReactTestApp`;
* the copy of `ReactTestApp.sln` to `windows/ReactTestApp.sln` under `destPath`, a file of
  the directory `S = join(destPath, windows)`, with the replacements
  `solutionFileReplacements`, whose values for `$(ReactNativeModulePath)` and
  `$(ReactTestAppProjectPath)`, resolved against `S`, are the react-native-windows module
  directory and `D`. -/
theorem placeholders_relative_to_file_directory (cwd : Path) (fs : Forest) (fuel : Nat)
    (nodeModulesPath reactNativeModulePath testAppNodeModulePath : Option Path)
    (sc : Scaffold) (hc : cwd.isAbsNormal = true)
    (hnm : findClosestPathTo cwd fs fuel nodeModulesDir = some nodeModulesPath)
    (hsc : copyProjectTemplateAndReplace cwd fs fuel (some (resolve cwd Path.empty))
      nodeModulesPath reactNativeModulePath testAppNodeModulePath = some sc) :
    sc.run.ops = (sc.calls.map (Call.issued cwd)).flatten ∧
      (sc.run.thrown = none → ∃ nm, nodeModulesPath = some nm ∧
        sc.calls.map (fun call => call.relativeDestPath)
          = projectFileNames.map
              (fun file => join (projectFilesDestPathOf nm) (Path.rel [file]))
            ++ [join windowsDir (Path.rel ["ReactTestApp.sln"])]) ∧
      ∀ call ∈ sc.calls, ∃ nm rn ta manifest,
        nodeModulesPath = some nm ∧ reactNativeModulePath = some rn ∧
        testAppNodeModulePath = some ta ∧
        sc.pending = some (manifest, projectFilesDestPathOf nm) ∧
        call.destPath = resolve cwd Path.empty ∧
        (∀ op ∈ call.issued cwd,
          opDest op = some (join call.destPath call.relativeDestPath)) ∧
        ((∃ file ∈ projectFileNames,
            call.srcPath = joinAll [join ta windowsDir, projDir, Path.rel [file]] ∧
            call.relativeDestPath = join (projectFilesDestPathOf nm) (Path.rel [file]) ∧
            dirname (join call.destPath call.relativeDestPath)
              = join (resolve cwd Path.empty) (projectFilesDestPathOf nm) ∧
            call.replacements
              = renderReplacements cwd (projectFilesReplacementPaths cwd nm rn ta manifest) ∧
            (projectFilesReplacementPaths cwd nm rn ta manifest).map
                (fun kv => (kv.1,
                  resolve (dirname (join call.destPath call.relativeDestPath)) kv.2))
              = [("\\$\\(ManifestRootPath\\)", resolve cwd (dirname manifest)),
                 ("\\$\\(ReactNativeModulePath\\)", resolve cwd rn),
                 ("\\$\\(SourceFilesPath\\)",
                    resolve cwd (join (join ta windowsDir) projDir))]) ∨
          (call.srcPath = join (join ta windowsDir) (Path.rel ["ReactTestApp.sln"]) ∧
            call.relativeDestPath = join windowsDir (Path.rel ["ReactTestApp.sln"]) ∧
            dirname (join call.destPath call.relativeDestPath)
              = join (resolve cwd Path.empty) windowsDir ∧
            call.replacements = renderReplacements cwd
              (solutionFileReplacementPaths cwd (resolve cwd Path.empty) nm rn) ∧
            (solutionFileReplacementPaths cwd (resolve cwd Path.empty) nm rn).map
                (fun kv => (kv.1,
                  resolve (dirname (join call.destPath call.relativeDestPath)) kv.2))
              = [("\\$\\(ReactNativeModulePath\\)", resolve cwd rn),
                 ("\\$\\(ReactTestAppProjectPath\\)",
                    join (resolve cwd Path.empty) (projectFilesDestPathOf nm))])) := by
  have hc' : AbsNormal cwd := (absNormal_iff cwd).1 hc
  obtain ⟨hops, hall⟩ := copyProjectTemplateAndReplace_calls hsc
  refine ⟨hops, copyProjectTemplateAndReplace_complete hsc, ?_⟩
  intro call hcall
  obtain ⟨destPath, nm, rn, ta, fs1, fs2, manifest, hd, rfl, rfl, rfl, _, _, hpend, _, hcd,
    hshape⟩ := hall call hcall
  obtain rfl := (Option.some.inj hd).symm
  have hnmr : nm.root = none := findClosestPathTo_relative hc' hnm
  have hpfd := projectFilesDestPathOf_root hnmr
  refine ⟨nm, rn, ta, manifest, rfl, rfl, rfl, hpend, hcd, fun op hop => issued_dest hop, ?_⟩
  rw [hcd, resolve_empty hc']
  rcases hshape with ⟨file, hfile, hsrc, hrel, hrep⟩ | ⟨hsrc, hrel, hrep⟩
  · left
    have hdir : dirname (join cwd call.relativeDestPath)
        = resolve cwd (projectFilesDestPathOf nm) := by
      rw [hrel, dirname_join_file hc' hpfd (projectFileNames_valid hfile)]
    refine ⟨file, hfile, hsrc, hrel, ?_, hrep, ?_⟩
    · rw [hdir, join_cwd_rel hc' hpfd]
    · rw [hdir]
      exact projectFilesReplacementPaths_resolved hc' nm rn ta manifest
  · right
    have hdir : dirname (join cwd call.relativeDestPath) = resolve cwd windowsDir := by
      rw [hrel, dirname_join_file hc' (show windowsDir.root = none from rfl) (by decide)]
    rw [resolve_empty hc'] at hrep
    refine ⟨hsrc, hrel, ?_, hrep, ?_⟩
    · rw [hdir, join_cwd_rel hc' rfl]
    · rw [hdir, join_cwd_rel hc' hpfd]
      exact solutionFileReplacementPaths_resolved hc' nm rn

/-- An instance of `placeholders_relative_to_file_directory`: the script run in
`/proj/app`, with the manifest there and the modules in `/proj/node_modules`, makes seven
calls of `copyAndReplace`. -/
theorem placeholders_relative_to_file_directory_witness :
    ∃ sc,
      findClosestPathTo projectCwd (projectFs "app") 10 nodeModulesDir
        = some (some (Path.rel ["..", "node_modules"])) ∧
      copyProjectTemplateAndReplace projectCwd (projectFs "app") 10
        (some (resolve projectCwd Path.empty)) (some (Path.rel ["..", "node_modules"]))
        (some (Path.rel ["..", "node_modules", "react-native-windows"]))
        (some (Path.rel ["..", "node_modules", "react-native-test-app"])) = some sc ∧
      sc.calls.length = 7 ∧
      sc.run.ops = (sc.calls.map (Call.issued projectCwd)).flatten ∧
      ∀ call ∈ sc.calls, ∃ nm rn ta manifest,
        some (Path.rel ["..", "node_modules"]) = some nm ∧
        some (Path.rel ["..", "node_modules", "react-native-windows"]) = some rn ∧
        some (Path.rel ["..", "node_modules", "react-native-test-app"]) = some ta ∧
        sc.pending = some (manifest, projectFilesDestPathOf nm) ∧
        call.destPath = resolve projectCwd Path.empty ∧
        (∀ op ∈ call.issued projectCwd,
          opDest op = some (join call.destPath call.relativeDestPath)) ∧
        ((∃ file ∈ projectFileNames,
            call.srcPath = joinAll [join ta windowsDir, projDir, Path.rel [file]] ∧
            call.relativeDestPath = join (projectFilesDestPathOf nm) (Path.rel [file]) ∧
            dirname (join call.destPath call.relativeDestPath)
              = join (resolve projectCwd Path.empty) (projectFilesDestPathOf nm) ∧
            call.replacements = renderReplacements projectCwd
              (projectFilesReplacementPaths projectCwd nm rn ta manifest) ∧
            (projectFilesReplacementPaths projectCwd nm rn ta manifest).map
                (fun kv => (kv.1,
                  resolve (dirname (join call.destPath call.relativeDestPath)) kv.2))
              = [("\\$\\(ManifestRootPath\\)", resolve projectCwd (dirname manifest)),
                 ("\\$\\(ReactNativeModulePath\\)", resolve projectCwd rn),
                 ("\\$\\(SourceFilesPath\\)",
                    resolve projectCwd (join (join ta windowsDir) projDir))]) ∨
          (call.srcPath = join (join ta windowsDir) (Path.rel ["ReactTestApp.sln"]) ∧
            call.relativeDestPath = join windowsDir (Path.rel ["ReactTestApp.sln"]) ∧
            dirname (join call.destPath call.relativeDestPath)
              = join (resolve projectCwd Path.empty) windowsDir ∧
            call.replacements = renderReplacements projectCwd
              (solutionFileReplacementPaths projectCwd (resolve projectCwd Path.empty) nm rn) ∧
            (solutionFileReplacementPaths projectCwd (resolve projectCwd Path.empty) nm rn).map
                (fun kv => (kv.1,
                  resolve (dirname (join call.destPath call.relativeDestPath)) kv.2))
              = [("\\$\\(ReactNativeModulePath\\)", resolve projectCwd rn),
                 ("\\$\\(ReactTestAppProjectPath\\)",
                    join (resolve projectCwd Path.empty) (projectFilesDestPathOf nm))])) := by
  have hnm : findClosestPathTo projectCwd (projectFs "app") 10 nodeModulesDir
      = some (some (Path.rel ["..", "node_modules"])) := by decide
  have hsome : (copyProjectTemplateAndReplace projectCwd (projectFs "app") 10
      (some (resolve projectCwd Path.empty)) (some (Path.rel ["..", "node_modules"]))
      (some (Path.rel ["..", "node_modules", "react-native-windows"]))
      (some (Path.rel ["..", "node_modules", "react-native-test-app"]))).isSome = true := by
    decide
  obtain ⟨sc, hsc⟩ := Option.isSome_iff_exists.1 hsome
  obtain ⟨h2, _, h3⟩ := placeholders_relative_to_file_directory projectCwd
    (projectFs "app") 10 (some (Path.rel ["..", "node_modules"]))
    (some (Path.rel ["..", "node_modules", "react-native-windows"]))
    (some (Path.rel ["..", "node_modules", "react-native-test-app"])) sc (by decide) hnm hsc
  have hlen : (copyProjectTemplateAndReplace projectCwd (projectFs "app") 10
      (some (resolve projectCwd Path.empty)) (some (Path.rel ["..", "node_modules"]))
      (some (Path.rel ["..", "node_modules", "react-native-windows"]))
      (some (Path.rel ["..", "node_modules", "react-native-test-app"]))).map
        (fun s => s.calls.length) = some 7 := by decide
  rw [hsc] at hlen
  exact ⟨sc, hnm, hsc, by simpa using hlen, h2, h3⟩

/-! ## C10: the parent directories of written files -/

/-- The two directories `copyProjectTemplateAndReplace` creates when `destPath` is the
working directory. -/
theorem scaffold_dirs {cwd : Path} (hc : AbsNormal cwd) {fs fs1 fs2 : Forest} {nm : Path}
    (h1 : mkdirSyncRecursive cwd fs (join (projectFilesDestPathOf nm) bundleDir) = .ok fs1)
    (h2 : mkdirSyncRecursive cwd fs1 (join cwd windowsDir) = .ok fs2) :
    isDir cwd fs2 (resolve cwd (projectFilesDestPathOf nm)) = true ∧
      isDir cwd fs2 (resolve cwd windowsDir) = true := by
  obtain ⟨_, hr1, hpre1⟩ := mkdirSyncRecursive_spec h1
  obtain ⟨hx12, hr2, hpre2⟩ := mkdirSyncRecursive_spec h2
  constructor
  · have hres : resolve cwd (join (projectFilesDestPathOf nm) bundleDir)
        = ⟨(resolve cwd (projectFilesDestPathOf nm)).root,
            (resolve cwd (projectFilesDestPathOf nm)).segs ++ ["Bundle"]⟩ := by
      rw [resolve_join cwd (Or.inr rfl)]
      exact descend_names _ (names_singleton (by decide))
    rw [hres] at hpre1 hr1
    obtain ⟨ch, hch⟩ := hpre1 _ (List.prefix_append _ _)
    obtain ⟨ch', hch'⟩ := hx12.2 _ ch hch
    exact isDir_of_lookup (resolve_absNormal hc _) hr1 hch'
  · rw [resolve_join_cwd hc rfl] at hpre2 hr2
    obtain ⟨ch, hch⟩ := hpre2 _ (List.prefix_refl _)
    exact isDir_of_lookup (resolve_absNormal hc _) hr2 hch

/-- In the call of `copyProjectTemplateAndReplace` the script makes, the parent of the path
each operation targets is a directory of the file system on which the call of
`copyAndReplace` that issues it is made. -/
theorem scaffold_parents {cwd : Path} (hc : AbsNormal cwd) {fs : Forest} {fuel : Nat}
    {nm rn ta : Option Path} {sc : Scaffold}
    (hnm : findClosestPathTo cwd fs fuel nodeModulesDir = some nm)
    (hsc : copyProjectTemplateAndReplace cwd fs fuel (some (resolve cwd Path.empty)) nm rn ta
      = some sc) :
    sc.run.ops = (sc.calls.map (Call.issued cwd)).flatten ∧
      ∀ call ∈ sc.calls, ∀ op ∈ call.issued cwd, ∀ d, opDest op = some d →
        isDir cwd call.fs (dirname (resolve cwd d)) = true := by
  obtain ⟨hops, hall⟩ := copyProjectTemplateAndReplace_calls hsc
  refine ⟨hops, ?_⟩
  intro call hcall op hop d hd
  obtain ⟨destPath, nmp, rnp, tap, fs1, fs2, manifest, hdest, rfl, rfl, rfl, h1, h2, _, hx,
    hcd, hshape⟩ := hall call hcall
  obtain rfl := (Option.some.inj hdest).symm
  rw [resolve_empty hc] at h2 hcd
  have hnmr : nmp.root = none := findClosestPathTo_relative hc hnm
  have hpfd := projectFilesDestPathOf_root hnmr
  obtain ⟨hP, hW⟩ := scaffold_dirs hc h1 h2
  have hdd := issued_dest hop
  rw [hd] at hdd
  obtain rfl := Option.some.inj hdd
  rw [hcd]
  rcases hshape with ⟨file, hfile, _, hrel, _⟩ | ⟨_, hrel, _⟩
  · rw [hrel, ← join_abs_eq_resolve hc (join_rel_root hpfd rfl),
      dirname_join_file hc hpfd (projectFileNames_valid hfile)]
    exact isDir_ext hx hP
  · rw [hrel, ← join_abs_eq_resolve hc (join_rel_root rfl rfl),
      dirname_join_file hc (show windowsDir.root = none from rfl) (by decide)]
    exact isDir_ext hx hW

/-- C10, as amended. A file write or file copy targets a path whose parent is a directory
of the file system on which it is issued.

In `copyAndReplaceAll` over a source tree, given that the parent of `join(destPath,
relativeDestDir)` is a directory, that `relativeDestDir` is a relative path and that the
destination of no directory entry exists as a file: whenever an entry of the walk is
reached without an exception, the parent of the path each operation issued for it targets
is a directory in the file system of that moment, the one the entries before it left.

In the call of `copyProjectTemplateAndReplace` the script makes, where `destPath` is
`path.resolve("")` and `nodeModulesPath` is `findClosestPathTo("node_modules")`: the
operations of the run are those issued by the calls of `copyAndReplace` it makes, which
are the calls for the six project files and the one for the solution file when it returns
without an exception, and the parent of the path each operation targets is a directory in
the file system on which the call that issues it is made. -/
theorem writes_target_existing_directories (cwd : Path) (hc : cwd.isAbsNormal = true) :
    (∀ (fs : Forest) (fuel : Nat) (srcPath destPath relativeDestDir : Path)
        (replacements : Replacements) (st : Stat) (entries : List Path),
      statAt cwd fs srcPath = some st → st.wf = true →
      walk cwd fs fuel srcPath = .ok entries → relativeDestDir.root = none →
      isDir cwd fs (dirname (resolve cwd (join destPath relativeDestDir))) = true →
      (∀ e ∈ entries, isDir cwd fs e = true →
        ∀ c m, statAt cwd fs (destOf cwd srcPath destPath relativeDestDir e)
          ≠ some (.file c m)) →
      copyAndReplaceAll cwd fs fuel srcPath destPath relativeDestDir replacements
          = copyEntries cwd srcPath destPath relativeDestDir replacements entries fs [] ∧
        ∀ pre e post, entries = pre ++ e :: post →
          (copyEntries cwd srcPath destPath relativeDestDir replacements pre fs []).thrown
            = none →
          ∀ fs' issued,
            copyAndReplace cwd
              (copyEntries cwd srcPath destPath relativeDestDir replacements pre fs []).fs e
              destPath (join relativeDestDir (relative cwd srcPath e)) replacements
              = .ok (fs', issued) →
            ∀ op ∈ issued, ∀ d, opDest op = some d →
              isDir cwd
                (copyEntries cwd srcPath destPath relativeDestDir replacements pre fs []).fs
                (dirname (resolve cwd d)) = true) ∧
    (∀ (fs : Forest) (fuel : Nat)
        (nodeModulesPath reactNativeModulePath testAppNodeModulePath : Option Path)
        (sc : Scaffold),
      findClosestPathTo cwd fs fuel nodeModulesDir = some nodeModulesPath →
      copyProjectTemplateAndReplace cwd fs fuel (some (resolve cwd Path.empty))
        nodeModulesPath reactNativeModulePath testAppNodeModulePath = some sc →
      sc.run.ops = (sc.calls.map (Call.issued cwd)).flatten ∧
        (sc.run.thrown = none → ∃ nm, nodeModulesPath = some nm ∧
          sc.calls.map (fun call => call.relativeDestPath)
            = projectFileNames.map
                (fun file => join (projectFilesDestPathOf nm) (Path.rel [file]))
              ++ [join windowsDir (Path.rel ["ReactTestApp.sln"])]) ∧
        ∀ call ∈ sc.calls, ∀ op ∈ call.issued cwd, ∀ d, opDest op = some d →
          isDir cwd call.fs (dirname (resolve cwd d)) = true) := by
  have hc' : AbsNormal cwd := (absNormal_iff cwd).1 hc
  constructor
  · intro fs fuel src dest rel o st entries hst hwf hwalk hrel hparent hnofile
    refine ⟨by simp [copyAndReplaceAll, hwalk], ?_⟩
    exact copyEntries_parent hc' hst hwf hwalk hrel hparent hnofile
  · intro fs fuel nm rn ta sc hnm hsc
    obtain ⟨hops, hall⟩ := scaffold_parents hc' hnm hsc
    exact ⟨hops, copyProjectTemplateAndReplace_complete hsc, hall⟩

/-- An instance of `writes_target_existing_directories`. Copying `/proj/src` to the absent
`/proj/out`, the directory `out` exists when the write of `out/f.txt` is issued. Run in
`/proj/app` with the modules in `/proj/node_modules`, the script makes seven calls of
`copyAndReplace`, which issue seven operations, each into a directory that exists when
the call is made. -/
theorem writes_target_existing_directories_witness :
    (copyAndReplaceAll ⟨some .posix, ["proj"]⟩ srcFs 5 (Path.rel ["src"]) (Path.rel ["."])
        (Path.rel ["out"]) []
      = copyEntries ⟨some .posix, ["proj"]⟩ (Path.rel ["src"]) (Path.rel ["."])
          (Path.rel ["out"]) [] [Path.rel ["src"], Path.rel ["src", "f.txt"]] srcFs [] ∧
    isDir ⟨some .posix, ["proj"]⟩
      (copyEntries ⟨some .posix, ["proj"]⟩ (Path.rel ["src"]) (Path.rel ["."])
        (Path.rel ["out"]) [] [Path.rel ["src"]] srcFs []).fs
      (dirname (resolve ⟨some .posix, ["proj"]⟩ (Path.rel ["out", "f.txt"]))) = true) ∧
    ∃ sc,
      findClosestPathTo projectCwd (projectFs "app") 10 nodeModulesDir
        = some (some (Path.rel ["..", "node_modules"])) ∧
      copyProjectTemplateAndReplace projectCwd (projectFs "app") 10
        (some (resolve projectCwd Path.empty)) (some (Path.rel ["..", "node_modules"]))
        (some (Path.rel ["..", "node_modules", "react-native-windows"]))
        (some (Path.rel ["..", "node_modules", "react-native-test-app"])) = some sc ∧
      sc.calls.length = 7 ∧ sc.run.ops.length = 7 ∧
      sc.run.ops = (sc.calls.map (Call.issued projectCwd)).flatten ∧
      ∀ call ∈ sc.calls, ∀ op ∈ call.issued projectCwd, ∀ d, opDest op = some d →
        isDir projectCwd call.fs (dirname (resolve projectCwd d)) = true := by
  constructor
  · have h := (writes_target_existing_directories ⟨some .posix, ["proj"]⟩ (by decide)).1
      srcFs 5 (Path.rel ["src"]) (Path.rel ["."]) (Path.rel ["out"]) []
      (.dir (.file "f.txt" "text" 420 .nil)) [Path.rel ["src"], Path.rel ["src", "f.txt"]]
      (by decide) (by decide) (by decide) rfl (by decide)
      (by
        intro e he _ c m hf
        simp only [List.mem_cons, List.mem_singleton, List.not_mem_nil, or_false] at he
        rcases he with rfl | rfl
        · have : statAt ⟨some .posix, ["proj"]⟩ srcFs
              (destOf ⟨some .posix, ["proj"]⟩ (Path.rel ["src"]) (Path.rel ["."])
                (Path.rel ["out"]) (Path.rel ["src"])) = none := by decide
          rw [this] at hf; exact absurd hf (by simp)
        · have : statAt ⟨some .posix, ["proj"]⟩ srcFs
              (destOf ⟨some .posix, ["proj"]⟩ (Path.rel ["src"]) (Path.rel ["."])
                (Path.rel ["out"]) (Path.rel ["src", "f.txt"])) = none := by decide
          rw [this] at hf; exact absurd hf (by simp))
    refine ⟨h.1, ?_⟩
    exact h.2 [Path.rel ["src"]] (Path.rel ["src", "f.txt"]) [] rfl (by decide)
      (copyEntries ⟨some .posix, ["proj"]⟩ (Path.rel ["src"]) (Path.rel ["."])
        (Path.rel ["out"]) [] [Path.rel ["src"]] srcFs []).fs
      [Op.writeFile (Path.rel ["out", "f.txt"]) "text" 420] (by decide)
      (Op.writeFile (Path.rel ["out", "f.txt"]) "text" 420) (by simp)
      (Path.rel ["out", "f.txt"]) rfl
  · have hnm : findClosestPathTo projectCwd (projectFs "app") 10 nodeModulesDir
        = some (some (Path.rel ["..", "node_modules"])) := by decide
    have hsome : (copyProjectTemplateAndReplace projectCwd (projectFs "app") 10
        (some (resolve projectCwd Path.empty)) (some (Path.rel ["..", "node_modules"]))
        (some (Path.rel ["..", "node_modules", "react-native-windows"]))
        (some (Path.rel ["..", "node_modules", "react-native-test-app"]))).isSome = true := by
      decide
    obtain ⟨sc, hsc⟩ := Option.isSome_iff_exists.1 hsome
    obtain ⟨h2, _, h3⟩ :=
      (writes_target_existing_directories projectCwd (by decide)).2 (projectFs "app") 10
        (some (Path.rel ["..", "node_modules"]))
        (some (Path.rel ["..", "node_modules", "react-native-windows"]))
        (some (Path.rel ["..", "node_modules", "react-native-test-app"])) sc hnm hsc
    have hlen : (copyProjectTemplateAndReplace projectCwd (projectFs "app") 10
        (some (resolve projectCwd Path.empty)) (some (Path.rel ["..", "node_modules"]))
        (some (Path.rel ["..", "node_modules", "react-native-windows"]))
        (some (Path.rel ["..", "node_modules", "react-native-test-app"]))).map
          (fun s => (s.calls.length, s.run.ops.length)) = some (7, 7) := by decide
    rw [hsc] at hlen
    simp only [Option.map_some', Option.some.injEq, Prod.mk.injEq] at hlen
    exact ⟨sc, hnm, hsc, hlen.1, hlen.2, h2, h3⟩

/-- C10 as stated fails in `copyAndReplaceAll` in two ways, in both of which the parent of
`join(destPath, relativeDestDir)` is a directory. When the destination of a directory
entry exists as a file, nothing is created for it: copying the directory `/proj/src` to
`/proj/out`, a regular file, issues the write of `out/f.txt`, whose parent is not a
directory. When `relativeDestDir` is not a relative path, the entries are not written
below `join(destPath, relativeDestDir)`: copying the file `/proj/a.txt` with `destPath`
`/a` and `relativeDestDir` `/../x`, where `join(destPath, relativeDestDir)` is `/x`,
issues the write of `/a/x`, and `/a` does not exist. -/
theorem write_without_parent_directory :
    (isDir ⟨some .posix, ["proj"]⟩ srcFsWithFileOut
        (dirname (resolve ⟨some .posix, ["proj"]⟩ (join (Path.rel ["."]) (Path.rel ["out"]))))
      = true ∧
    copyAndReplaceAll ⟨some .posix, ["proj"]⟩ srcFsWithFileOut 5 (Path.rel ["src"])
        (Path.rel ["."]) (Path.rel ["out"]) []
      = ⟨srcFsWithFileOut, [Op.writeFile (Path.rel ["out", "f.txt"]) "text" 420], none⟩ ∧
    isDir ⟨some .posix, ["proj"]⟩ srcFsWithFileOut
        (dirname (resolve ⟨some .posix, ["proj"]⟩ (Path.rel ["out", "f.txt"]))) = false) ∧
    (join ⟨some .posix, ["a"]⟩ ⟨some .posix, ["..", "x"]⟩ = ⟨some .posix, ["x"]⟩ ∧
    isDir ⟨some .posix, ["proj"]⟩ (oneFileFs "text")
        (dirname (resolve ⟨some .posix, ["proj"]⟩
          (join ⟨some .posix, ["a"]⟩ ⟨some .posix, ["..", "x"]⟩))) = true ∧
    copyAndReplaceAll ⟨some .posix, ["proj"]⟩ (oneFileFs "text") 5 (Path.rel ["a.txt"])
        ⟨some .posix, ["a"]⟩ ⟨some .posix, ["..", "x"]⟩ []
      = ⟨oneFileFs "text", [Op.writeFile ⟨some .posix, ["a", "x"]⟩ "text" 420], none⟩ ∧
    isDir ⟨some .posix, ["proj"]⟩ (oneFileFs "text")
        (dirname (resolve ⟨some .posix, ["proj"]⟩ ⟨some .posix, ["a", "x"]⟩)) = false) := by
  decide
end TestApp
